import Mathlib

/-!
# tetris-optimizer: parser, validator and backtracking solver

A shallow embedding of `src/main.go`.

* Go strings are byte sequences: `List UInt8`.
* Runes (`int32`) and board cells are `Int`; the only rune arithmetic in the
  program is the label `rune('A' + idx)`, which is wrapped to 32 bits.
* A Go run-time panic (index out of range) is the failure `indexOutOfRange`
  in the validator and parser, and `none` in the solver.
* `Point` coordinates are `int`; the only arithmetic on them is `ox + b.X`
  with `0 <= ox < len(board)`, compared against `0` and `len(board)`: a
  wrapped sum is negative where the exact sum is `>= 2^63 > len(board)`, so
  both are rejected by the same test and exact integers are used.
* `MinStartSize` multiplies in `int` (64 bits, wrapped) and takes the root in
  `float64`: the conversion rounds to 53 binary digits, ties to even, and
  `math.Sqrt` gives the `float64` nearest to the exact root.
* `Solve` is modelled twice: `Solve` is the call on a stack that is never
  exhausted, `SolveOn limit` the call on a stack with room for `limit` nested
  calls of `Solve`, which ends the program when a call does not fit.
-/

namespace Tetris

/-! ## Data model -/

/-- A Go `string`: a sequence of bytes. -/
abbrev GoString := List UInt8

/-- The Go type `Point`. -/
structure Point where
  X : Int
  Y : Int
deriving DecidableEq, Repr

/-- The Go type `Piece`. -/
structure Piece where
  Blocks : List Point
deriving DecidableEq, Repr

/-- Every way `ParseAndValidate` and `ValidateAndNormalize` can fail: the
`fmt.Errorf` values of the source, and the run-time panic of an index that
is out of range. -/
inductive Failure where
  | unexpectedEmptyLine
  | incompletePiece
  | missingBlankSeparator
  | noPieces
  | badPieceSize
  | badLineLength
  | invalidChar
  | mustHave4Blocks
  | notConnectedTetromino
  | indexOutOfRange
deriving DecidableEq, Repr

/-! ## `[]rune(s)`: UTF-8 decoding as the Go runtime does it -/

/-- The rune `utf8.RuneError`. -/
def runeError : Int := 65533

/-- A continuation byte `0x80..0xBF`. -/
def isCont (b : UInt8) : Bool := 128 ≤ b.toNat && b.toNat ≤ 191

/-- Decode the first rune of a non-empty byte string: the rune and its
width in bytes. An invalid or truncated encoding gives `RuneError`, width 1. -/
def decodeRune : GoString → Int × Nat
  | [] => (runeError, 1)
  | b0 :: rest =>
    let n0 := b0.toNat
    if n0 < 128 then ((n0 : Int), 1)
    else if n0 < 194 then (runeError, 1)
    else if n0 < 224 then
      match rest with
      | b1 :: _ =>
        if isCont b1 then (((n0 % 32 * 64 + b1.toNat % 64 : Nat) : Int), 2)
        else (runeError, 1)
      | _ => (runeError, 1)
    else if n0 < 240 then
      match rest with
      | b1 :: b2 :: _ =>
        let lo := if n0 = 224 then 160 else 128
        let hi := if n0 = 237 then 159 else 191
        if lo ≤ b1.toNat && b1.toNat ≤ hi && isCont b2 then
          (((n0 % 16 * 4096 + b1.toNat % 64 * 64 + b2.toNat % 64 : Nat) : Int), 3)
        else (runeError, 1)
      | _ => (runeError, 1)
    else if n0 < 245 then
      match rest with
      | b1 :: b2 :: b3 :: _ =>
        let lo := if n0 = 240 then 144 else 128
        let hi := if n0 = 244 then 143 else 191
        if lo ≤ b1.toNat && b1.toNat ≤ hi && isCont b2 && isCont b3 then
          (((n0 % 8 * 262144 + b1.toNat % 64 * 4096 + b2.toNat % 64 * 64
              + b3.toNat % 64 : Nat) : Int), 4)
        else (runeError, 1)
      | _ => (runeError, 1)
    else (runeError, 1)

/-- The loop of `[]rune(s)`: decode one rune, drop its bytes, repeat. Every
step drops at least one byte, so `s.length` steps are enough. -/
def decodeRunesAux : Nat → GoString → List Int
  | 0, _ => []
  | fuel + 1, s =>
    match s with
    | [] => []
    | _ :: _ => (decodeRune s).1 :: decodeRunesAux fuel (s.drop (decodeRune s).2)

/-- The conversion `[]rune(s)`. -/
def decodeRunes (s : GoString) : List Int := decodeRunesAux s.length s

/-! ## `ValidateAndNormalize` -/

/-- The inner loop `for x := 0; x < 4; x++` of the first pass over a row:
`xs` are the indices still to visit, `hashCount` the running count. -/
def scanRow (row : List Int) : List Nat → Nat → Except Failure Nat
  | [], hashCount => .ok hashCount
  | x :: xs, hashCount =>
    match row.get? x with
    | none => .error .indexOutOfRange
    | some r =>
      if r ≠ 46 ∧ r ≠ 35 then .error .invalidChar
      else scanRow row xs (if r = 35 then hashCount + 1 else hashCount)

/-- The outer loop `for y := 0; y < 4; y++` of the first pass: checks the
line length, decodes the row into `grid[y]` and scans it. -/
def scanBlock (block : List GoString) :
    List Nat → List (List Int) → Nat → Except Failure (List (List Int) × Nat)
  | [], grid, hashCount => .ok (grid, hashCount)
  | y :: ys, grid, hashCount =>
    match block.get? y with
    | none => .error .indexOutOfRange
    | some line =>
      if line.length ≠ 4 then .error .badLineLength
      else
        match scanRow (decodeRunes line) [0, 1, 2, 3] hashCount with
        | .error e => .error e
        | .ok hashCount1 => scanBlock block ys (grid.set y (decodeRunes line)) hashCount1

/-- The read `grid[y][x]`. -/
def gridAt (grid : List (List Int)) (y x : Nat) : Except Failure Int :=
  match grid.get? y with
  | none => .error .indexOutOfRange
  | some row =>
    match row.get? x with
    | none => .error .indexOutOfRange
    | some r => .ok r

/-- One guarded test `guard && grid[y][x] == 35` followed by `touches++`:
the cell is read only when the guard holds. -/
def touchIf (guard : Bool) (grid : List (List Int)) (y x : Nat) (touches : Nat) :
    Except Failure Nat :=
  if guard then
    match gridAt grid y x with
    | .error e => .error e
    | .ok r => .ok (if r = 35 then touches + 1 else touches)
  else .ok touches

/-- The body of the touch-count loop at cell `(x, y)`. -/
def touchCell (grid : List (List Int)) (y x : Nat) (touches : Nat) : Except Failure Nat :=
  match gridAt grid y x with
  | .error e => .error e
  | .ok r =>
    if r ≠ 35 then .ok touches
    else
      match touchIf (decide (y > 0)) grid (y - 1) x touches with
      | .error e => .error e
      | .ok t1 =>
        match touchIf (decide (y < 3)) grid (y + 1) x t1 with
        | .error e => .error e
        | .ok t2 =>
          match touchIf (decide (x > 0)) grid y (x - 1) t2 with
          | .error e => .error e
          | .ok t3 => touchIf (decide (x < 3)) grid y (x + 1) t3

/-- The cells of the 4 x 4 block in the order of the two nested loops
`for y ... for x ...`: pairs `(y, x)`. -/
def blockCells : List (Nat × Nat) :=
  [(0, 0), (0, 1), (0, 2), (0, 3), (1, 0), (1, 1), (1, 2), (1, 3),
   (2, 0), (2, 1), (2, 2), (2, 3), (3, 0), (3, 1), (3, 2), (3, 3)]

/-- The touch-count loops over the cells still to visit. -/
def countTouches (grid : List (List Int)) : List (Nat × Nat) → Nat → Except Failure Nat
  | [], touches => .ok touches
  | (y, x) :: cells, touches =>
    match touchCell grid y x touches with
    | .error e => .error e
    | .ok t => countTouches grid cells t

/-- The extraction loops: append `Point{X: x, Y: y}` for every filled cell. -/
def extractPoints (grid : List (List Int)) : List (Nat × Nat) → List Point →
    Except Failure (List Point)
  | [], points => .ok points
  | (y, x) :: cells, points =>
    match gridAt grid y x with
    | .error e => .error e
    | .ok r =>
      extractPoints grid cells (if r = 35 then points ++ [⟨(x : Int), (y : Int)⟩] else points)

/-- The loop `for _, p := range points` that lowers `minX` and `minY`. -/
def minXY : List Point → Int × Int → Int × Int
  | [], m => m
  | p :: ps, (minX, minY) =>
    minXY ps (if p.X < minX then p.X else minX, if p.Y < minY then p.Y else minY)

/-- The comparison passed to `sort.Slice`. -/
def pointLess (p q : Point) : Bool :=
  if p.Y = q.Y then decide (p.X < q.X) else decide (p.Y < q.Y)

/-- The inner loop of insertion sort: the element `p` moves left past every
neighbour it is less than. The sorted part is held nearest neighbour first. -/
def sinkLeft (p : Point) : List Point → List Point
  | [] => [p]
  | q :: qs => if pointLess p q then q :: sinkLeft p qs else p :: q :: qs

/-- Insertion sort, which is what `sort.Slice` runs on a slice of fewer than
12 elements: `done` is the sorted part, nearest neighbour first. -/
def sortPointsAux : List Point → List Point → List Point
  | done, [] => done.reverse
  | done, p :: ps => sortPointsAux (sinkLeft p done) ps

/-- The call `sort.Slice(points, less)`. -/
def sortPoints (points : List Point) : List Point := sortPointsAux [] points

/-- The part of `ValidateAndNormalize` after the first pass: the count
check, the touch-count check, extraction, normalization and sorting. -/
def finishBlock (grid : List (List Int)) (hashCount : Nat) : Except Failure Piece :=
  if hashCount ≠ 4 then .error .mustHave4Blocks
  else
    match countTouches grid blockCells 0 with
    | .error e => .error e
    | .ok touches =>
      if touches ≠ 6 ∧ touches ≠ 8 then .error .notConnectedTetromino
      else
        match extractPoints grid blockCells [] with
        | .error e => .error e
        | .ok points =>
          match points with
          | [] => .error .indexOutOfRange
          | p0 :: _ =>
            let m := minXY points (p0.X, p0.Y)
            .ok ⟨sortPoints (points.map fun p => ⟨p.X - m.1, p.Y - m.2⟩)⟩

/-- The Go function `ValidateAndNormalize`. -/
def ValidateAndNormalize (block : List GoString) : Except Failure Piece :=
  if block.length ≠ 4 then .error .badPieceSize
  else
    match scanBlock block [0, 1, 2, 3] [[], [], [], []] 0 with
    | .error e => .error e
    | .ok (grid, hashCount) => finishBlock grid hashCount

/-! ## `ParseAndValidate` -/

/-- The call `strings.ReplaceAll(input, "\r\n", "\n")`: every non-overlapping
pair CR LF, found left to right, becomes LF. -/
def replaceCRLF : GoString → GoString
  | [] => []
  | [b] => [b]
  | b :: c :: rest =>
    if b = 13 ∧ c = 10 then 10 :: replaceCRLF rest else b :: replaceCRLF (c :: rest)

/-- The call `strings.Split(input, "\n")`: the pieces between the LF bytes;
an input with k LF bytes gives k + 1 pieces, the empty input gives one
empty piece. -/
def splitLines : GoString → List GoString
  | [] => [[]]
  | b :: rest =>
    if b = 10 then [] :: splitLines rest
    else
      match splitLines rest with
      | [] => [[b]]
      | l :: ls => (b :: l) :: ls

/-- The loop `for i < len(lines)` of `ParseAndValidate`, on the lines from
index `i` on and the pieces parsed so far; the result is `pieces` when the
loop is left by `break` or by its condition. -/
def parseLoop : List GoString → List Piece → Except Failure (List Piece)
  | [], pieces => .ok pieces
  | l0 :: rest, pieces =>
    if l0 = [] then
      if (l0 :: rest).all (fun l => decide (l = [])) then .ok pieces
      else .error .unexpectedEmptyLine
    else
      match rest with
      | l1 :: l2 :: l3 :: rest4 =>
        match ValidateAndNormalize [l0, l1, l2, l3] with
        | .error e => .error e
        | .ok p =>
          match rest4 with
          | [] => .ok (pieces ++ [p])
          | sep :: rest5 =>
            if sep = [] then parseLoop rest5 (pieces ++ [p])
            else .error .missingBlankSeparator
      | _ => .error .incompletePiece

/-- The Go function `ParseAndValidate`. -/
def ParseAndValidate (input : GoString) : Except Failure (List Piece) :=
  match parseLoop (splitLines (replaceCRLF input)) [] with
  | .error e => .error e
  | .ok pieces => if pieces.length = 0 then .error .noPieces else .ok pieces

/-! ## The solver -/

/-- A Go `[][]rune` board: rows of cells. -/
abbrev Board := List (List Int)

/-- The conversion of an `int` to `rune` (`int32`): the value modulo `2^32`,
taken in `[-2^31, 2^31)`. -/
def toRune (v : Int) : Int := (v + 2147483648) % 4294967296 - 2147483648

/-- The label `rune('A' + idx)` of the piece at index `idx`. -/
def label (idx : Nat) : Int := toRune (65 + (idx : Int))

/-- The conversion of a product of `int`s to `int` (64 bits, two's
complement): the value modulo `2^64`, taken in `[-2^63, 2^63)`. -/
def wrapInt64 (v : Int) : Int :=
  (v + 9223372036854775808) % 18446744073709551616 - 9223372036854775808

/-- The number of binary digits of `x`, for `x < 2 ^ fuel`. -/
def bitLength : Nat → Nat → Nat
  | 0, _ => 0
  | fuel + 1, x => if x = 0 then 0 else bitLength fuel (x / 2) + 1

/-- The nearest multiple of `2 ^ e` to `x`, the even one of the two when `x`
is half way. -/
def roundHalfEven (x e : Nat) : Nat :=
  let q := x / 2 ^ e
  let r := x % 2 ^ e
  if 2 * r < 2 ^ e then q * 2 ^ e
  else if 2 * r = 2 ^ e ∧ q % 2 = 0 then q * 2 ^ e
  else (q + 1) * 2 ^ e

/-- The conversion `float64(v)` of an `int` with `0 <= v < 2^63`: the
nearest number with 53 significant binary digits, ties to even. The result is
an integer. -/
def toFloat64 (v : Nat) : Nat := roundHalfEven v (bitLength 64 v - 53)

/-- The integer square root, one binary digit at a time: the greatest
`r + d` with `d < 2 ^ bits` and `(r + d)^2 <= x`. -/
def isqrtFrom (x : Nat) : Nat → Nat → Nat
  | 0, r => r
  | bits + 1, r =>
    if (r + 2 ^ bits) * (r + 2 ^ bits) ≤ x then isqrtFrom x bits (r + 2 ^ bits)
    else isqrtFrom x bits r

/-- The integer square root of `x < 2^128`. -/
def isqrt (x : Nat) : Nat := isqrtFrom x 64 0

/-- The call `math.Sqrt(f)` for a `float64` `f` that is an integer with
`0 <= f < 2^64`. The result is the `float64` nearest to the exact root (the
operation is correctly rounded, IEEE 754), given as the pair `(m, s)` that
stands for `m / 2^s`, with `2^52 <= m <= 2^53` when `f > 0`. The root of an
integer is never half way between two such numbers. -/
def sqrtFloat64 (f : Nat) : Nat × Nat :=
  let s := (106 - bitLength 64 f) / 2
  let g := f * 4 ^ s
  let m := isqrt g
  (if m * m + m < g then m + 1 else m, s)

/-- The conversion `int(math.Ceil(r))` of the `float64` `r = m / 2^s`. -/
def ceilToInt (r : Nat × Nat) : Nat := (r.1 + 2 ^ r.2 - 1) / 2 ^ r.2

/-- The conversion `int(NaN)`. The Go specification leaves it to the
implementation; on amd64 it is the least `int`, on arm64 it is 0, and
`MinStartSize` replaces both by 2. -/
def intOfNaN : Int := -9223372036854775808

/-- The Go function `MinStartSize`. The product `4 * nPieces` is an `int`
and wraps around; the root of a negative `float64` is NaN, and so is its
ceiling. -/
def MinStartSize (nPieces : Nat) : Nat :=
  let blocks := wrapInt64 (4 * (nPieces : Int))
  let size : Int :=
    if blocks < 0 then intOfNaN
    else ((ceilToInt (sqrtFloat64 (toFloat64 blocks.toNat)) : Nat) : Int)
  if size < 2 then 2 else size.toNat

/-- The Go function `NewBoard`. -/
def NewBoard (size : Nat) : Board := List.replicate size (List.replicate size 46)

/-- The loop of `CanPlace` over the blocks still to test; `none` is the
panic of reading `board[y][x]` outside a row. -/
def canPlaceLoop (board : Board) (ox oy : Int) : List Point → Option Bool
  | [] => some true
  | b :: bs =>
    let x := ox + b.X
    let y := oy + b.Y
    if x < 0 ∨ y < 0 ∨ x ≥ (board.length : Int) ∨ y ≥ (board.length : Int) then some false
    else
      match board[y.toNat]? with
      | none => none
      | some row =>
        match row[x.toNat]? with
        | none => none
        | some c => if c ≠ 46 then some false else canPlaceLoop board ox oy bs

/-- The Go function `CanPlace`. -/
def CanPlace (board : Board) (piece : Piece) (ox oy : Int) : Option Bool :=
  canPlaceLoop board ox oy piece.Blocks

/-- The loop of `Place` over the blocks still to write; `none` is the panic
of writing `board[y][x]` outside the board. -/
def placeLoop (ox oy : Int) (ch : Int) : List Point → Board → Option Board
  | [], board => some board
  | b :: bs, board =>
    let x := ox + b.X
    let y := oy + b.Y
    if x < 0 ∨ y < 0 then none
    else
      match board[y.toNat]? with
      | none => none
      | some row =>
        if x.toNat < row.length then
          placeLoop ox oy ch bs (board.set y.toNat (row.set x.toNat ch))
        else none

/-- The Go function `Place`; the board after the call. -/
def Place (board : Board) (piece : Piece) (ox oy : Int) (ch : Int) : Option Board :=
  placeLoop ox oy ch piece.Blocks board

/-- The anchors in the order of the loops `for y ... for x ...` of `Solve`:
pairs `(x, y)`. -/
def anchors (size : Nat) : List (Nat × Nat) :=
  (List.range size).flatMap fun y => (List.range size).map fun x => (x, y)

/-- The two nested loops of `Solve` over the anchors still to try; `next` is
the recursive call `Solve(board, pieces, idx+1)`. The result is the returned
boolean and the board after the call. -/
def scanAnchors (p : Piece) (ch : Int) (next : Board → Option (Bool × Board)) :
    List (Nat × Nat) → Board → Option (Bool × Board)
  | [], board => some (false, board)
  | (x, y) :: rest, board =>
    match CanPlace board p x y with
    | none => none
    | some false => scanAnchors p ch next rest board
    | some true =>
      match Place board p x y ch with
      | none => none
      | some placed =>
        match next placed with
        | none => none
        | some (true, solved) => some (true, solved)
        | some (false, back) =>
          match Place back p x y 46 with
          | none => none
          | some undone => scanAnchors p ch next rest undone

/-- The recursion of `Solve`, on the number of pieces still to place. -/
def solveFrom (pieces : List Piece) : Nat → Board → Nat → Option (Bool × Board)
  | 0, board, idx => if idx = pieces.length then some (true, board) else none
  | depth + 1, board, idx =>
    if idx = pieces.length then some (true, board)
    else
      match pieces[idx]? with
      | none => none
      | some p =>
        scanAnchors p (label idx) (fun b => solveFrom pieces depth b (idx + 1))
          (anchors board.length) board

/-- The Go function `Solve`: the returned boolean and the board after the
call, or `none` for a panic. Each call at `idx < len(pieces)` recurses only
at `idx + 1`, so `len(pieces) - idx` levels of recursion are all that the
call can use; at `idx > len(pieces)` the read `pieces[idx]` panics. The
stack is taken to hold these calls; `SolveOn` below is the call on a bounded
stack. -/
def Solve (board : Board) (pieces : List Piece) (idx : Nat) : Option (Bool × Board) :=
  solveFrom pieces (pieces.length - idx) board idx

/-! ## The solver on a bounded stack

`Solve` calls itself once per piece, so a run on `k` pieces nests `k + 1`
calls. The Go runtime gives a goroutine a stack of bounded size (1 GB at
most by default on 64-bit systems) and ends the program with
`fatal error: stack overflow` when a call does not fit. The number of nested
calls of `Solve` that fit is not in the source: it is the parameter `limit`
below. -/

/-- How a call of `Solve` ends on a bounded stack: it returns a boolean and
leaves a board, it panics on an index out of range, or a nested call does not
fit on the stack and the runtime ends the program. -/
inductive Outcome where
  | done (result : Bool) (board : Board)
  | panicked
  | overflow
deriving DecidableEq, Repr

/-- The two nested loops of `Solve` over the anchors still to try, as
`scanAnchors`, when the recursive call `next` may also end the program. -/
def scanAnchorsOn (p : Piece) (ch : Int) (next : Board → Outcome) :
    List (Nat × Nat) → Board → Outcome
  | [], board => .done false board
  | (x, y) :: rest, board =>
    match CanPlace board p x y with
    | none => .panicked
    | some false => scanAnchorsOn p ch next rest board
    | some true =>
      match Place board p x y ch with
      | none => .panicked
      | some placed =>
        match next placed with
        | .panicked => .panicked
        | .overflow => .overflow
        | .done true solved => .done true solved
        | .done false back =>
          match Place back p x y 46 with
          | none => .panicked
          | some undone => scanAnchorsOn p ch next rest undone

/-- The recursion of `Solve` when the stack has room for `stack` more nested
calls of `Solve`: with no room left the call itself overflows the stack. -/
def solveOn (pieces : List Piece) : Nat → Board → Nat → Outcome
  | 0, _, _ => .overflow
  | stack + 1, board, idx =>
    if idx = pieces.length then .done true board
    else
      match pieces[idx]? with
      | none => .panicked
      | some p =>
        scanAnchorsOn p (label idx) (fun b => solveOn pieces stack b (idx + 1))
          (anchors board.length) board

/-- The Go function `Solve`, called where the stack has room for `limit`
nested calls of `Solve`. -/
def SolveOn (limit : Nat) (board : Board) (pieces : List Piece) (idx : Nat) : Outcome :=
  solveOn pieces limit board idx

/-- The outcome of a call that the stack did not end. -/
def outcomeOf : Option (Bool × Board) → Outcome
  | none => .panicked
  | some (r, board) => .done r board

/-! ## The driver -/

/-- What a run of `main` does once the file is read: it prints `ERROR`, it
prints the board of the first size that `Solve` accepts, it panics, or it
has not ended after the number of boards that the model was given. -/
inductive Run where
  | error
  | solved (size : Nat) (board : Board)
  | panicked
  | unfinished
deriving DecidableEq, Repr

/-- The retry loop of `main`: try `size` on a fresh board, then `size + 1`,
...; at most `tries` boards are tried. -/
def retryLoop (pieces : List Piece) : Nat → Nat → Run
  | 0, _ => .unfinished
  | tries + 1, size =>
    match Solve (NewBoard size) pieces 0 with
    | none => .panicked
    | some (true, board) => .solved size board
    | some (false, _) => retryLoop pieces tries (size + 1)

/-- The Go function `main` from the content of the file on: parse, refuse
an empty piece list and one of more than 26 pieces, then run the retry loop
from `MinStartSize(len(pieces))`. -/
def main (content : GoString) (tries : Nat) : Run :=
  match ParseAndValidate content with
  | .error .indexOutOfRange => .panicked
  | .error _ => .error
  | .ok pieces =>
    if pieces.length = 0 then .error
    else if pieces.length > 26 then .error
    else retryLoop pieces tries (MinStartSize pieces.length)

/-! ## Specification-level notions -/

/-- The cell `board[y][x]`, when it exists. -/
def cellAt (board : Board) (x y : Nat) : Option Int :=
  match board[y]? with
  | none => none
  | some row => row[x]?

/-- A board of `n` rows of `n` cells. -/
def IsSquare (n : Nat) (board : Board) : Prop :=
  board.length = n ∧ ∀ row ∈ board, row.length = n

/-- The cell `(x, y)` lies on the board of edge `n`. -/
def InBoard (n : Nat) (x y : Int) : Prop := 0 ≤ x ∧ x < n ∧ 0 ≤ y ∧ y < n

/-- The cell `(x, y)` lies on the board and is empty. -/
def FreeAt (n : Nat) (board : Board) (x y : Int) : Prop :=
  InBoard n x y ∧ cellAt board x.toNat y.toNat = some 46

/-- The blocks `bs` anchored at `(ox, oy)` cover the cell `(x, y)`. -/
def Covers (bs : List Point) (ox oy : Int) (x y : Nat) : Prop :=
  ∃ blk ∈ bs, ox + blk.X = x ∧ oy + blk.Y = y

/-- The board cells of piece `p` anchored at `a`. -/
def pieceCells (p : Piece) (a : Int × Int) : List (Int × Int) :=
  p.Blocks.map fun b => (a.1 + b.X, a.2 + b.Y)

/-- The board cells of the `k`-th piece at the `k`-th anchor (none when
either is missing). -/
def cellsOf (ps : List Piece) (as : List (Int × Int)) (k : Nat) : List (Int × Int) :=
  match ps[k]?, as[k]? with
  | some p, some a => pieceCells p a
  | _, _ => []

/-- The anchor lies on the board of edge `n`: it is one that `Solve` scans. -/
def AnchorOnBoard (n : Nat) (a : Int × Int) : Prop := InBoard n a.1 a.2

/-- A valid placement of the pieces `ps` at the anchors `as` on the board of
edge `n`: one anchor per piece, every translated cell on the board, and no
cell shared by two pieces. -/
structure ValidPlacement (n : Nat) (ps : List Piece) (as : List (Int × Int)) : Prop where
  length_eq : as.length = ps.length
  inside : ∀ k, ∀ c ∈ cellsOf ps as k, InBoard n c.1 c.2
  disjoint : ∀ j k, j ≠ k → ∀ c ∈ cellsOf ps as j, c ∉ cellsOf ps as k

/-- The board `board` of edge `n` shows the placement: the label of piece
`k` at exactly the cells of piece `k`, and 46 (the dot) at exactly the cells
of no piece. -/
def Drawn (n : Nat) (ps : List Piece) (as : List (Int × Int)) (board : Board) : Prop :=
  IsSquare n board ∧ ∀ x y : Nat, x < n → y < n →
    (∀ k, k < ps.length →
      (cellAt board x y = some (label k) ↔ ((x : Int), (y : Int)) ∈ cellsOf ps as k)) ∧
    (cellAt board x y = some 46 ↔ ∀ k, ((x : Int), (y : Int)) ∉ cellsOf ps as k)

/-- Running the placements of `Solve` by hand: the pieces `ps`, the first of
them labelled `label idx`, are placed in order at the anchors `as`, each on
cells that `CanPlace` accepts when its turn comes; `final` is the board after
the last `Place`. -/
def Chain : List Piece → Nat → Board → List (Int × Int) → Board → Prop
  | [], _, board, [], final => final = board
  | p :: ps, idx, board, a :: as, final =>
    CanPlace board p a.1 a.2 = some true ∧
    ∃ placed, Place board p a.1 a.2 (label idx) = some placed ∧
      Chain ps (idx + 1) placed as final
  | _, _, _, _, _ => False

/-- A piece with a block in column 0 and a block in row 0: what
normalization guarantees. -/
def Anchored (p : Piece) : Prop := (∃ b ∈ p.Blocks, b.X = 0) ∧ (∃ b ∈ p.Blocks, b.Y = 0)

/-- The runes of a line of ASCII bytes. -/
def runesOf (line : GoString) : List Int := line.map fun b => (b.toNat : Int)

/-- A line of four cells: its bytes, its runes, its number of filled cells
and the columns of its filled cells. -/
structure Row where
  bytes : GoString
  runes : List Int
  count : Nat
  cols : List Nat

/-- The sixteen lines of four characters drawn from the dot (46) and the
hash (35). -/
def rowTable : List Row :=
  [⟨[46, 46, 46, 46], [46, 46, 46, 46], 0, []⟩, ⟨[46, 46, 46, 35], [46, 46, 46, 35], 1, [3]⟩,
   ⟨[46, 46, 35, 46], [46, 46, 35, 46], 1, [2]⟩, ⟨[46, 46, 35, 35], [46, 46, 35, 35], 2, [2, 3]⟩,
   ⟨[46, 35, 46, 46], [46, 35, 46, 46], 1, [1]⟩, ⟨[46, 35, 46, 35], [46, 35, 46, 35], 2, [1, 3]⟩,
   ⟨[46, 35, 35, 46], [46, 35, 35, 46], 2, [1, 2]⟩, ⟨[46, 35, 35, 35], [46, 35, 35, 35], 3, [1, 2, 3]⟩,
   ⟨[35, 46, 46, 46], [35, 46, 46, 46], 1, [0]⟩, ⟨[35, 46, 46, 35], [35, 46, 46, 35], 2, [0, 3]⟩,
   ⟨[35, 46, 35, 46], [35, 46, 35, 46], 2, [0, 2]⟩, ⟨[35, 46, 35, 35], [35, 46, 35, 35], 3, [0, 2, 3]⟩,
   ⟨[35, 35, 46, 46], [35, 35, 46, 46], 2, [0, 1]⟩, ⟨[35, 35, 46, 35], [35, 35, 46, 35], 3, [0, 1, 3]⟩,
   ⟨[35, 35, 35, 46], [35, 35, 35, 46], 3, [0, 1, 2]⟩, ⟨[35, 35, 35, 35], [35, 35, 35, 35], 4, [0, 1, 2, 3]⟩]

/-- A line of exactly four characters, each the dot or the hash. -/
def GoodLine (line : GoString) : Prop := line.length = 4 ∧ ∀ b ∈ line, b = 46 ∨ b = 35

/-- The filled cells of line `y` from column `x` on, left to right. -/
def rowCellsFrom (y : Nat) : Nat → GoString → List Point
  | _, [] => []
  | x, b :: bs =>
    if b = 35 then ⟨(x : Int), (y : Int)⟩ :: rowCellsFrom y (x + 1) bs
    else rowCellsFrom y (x + 1) bs

/-- The filled cells of the lines from row `y` on, row by row. -/
def hashCellsFrom : Nat → List GoString → List Point
  | _, [] => []
  | y, l :: ls => rowCellsFrom y 0 l ++ hashCellsFrom (y + 1) ls

/-- The filled cells of a block: the points `(x, y)` with the hash at
column `x` of line `y`, in row-major order. -/
def hashCells (block : List GoString) : List Point := hashCellsFrom 0 block

/-- Two cells share an edge. -/
def Adjacent (p q : Point) : Prop :=
  (p.X = q.X ∧ (p.Y = q.Y + 1 ∨ q.Y = p.Y + 1)) ∨ (p.Y = q.Y ∧ (p.X = q.X + 1 ∨ q.X = p.X + 1))

instance (p q : Point) : Decidable (Adjacent p q) := by
  unfold Adjacent
  infer_instance

/-- One step from a cell to an edge-adjacent cell of the set. -/
def StepIn (cells : List Point) (a b : Point) : Prop := b ∈ cells ∧ Adjacent a b

/-- The cells form a single 4-connected set: any two of them are joined by a
path of edge-adjacent cells of the set. -/
def Connected (cells : List Point) : Prop :=
  ∀ p ∈ cells, ∀ q ∈ cells, Relation.ReflTransGen (StepIn cells) p q

/-- Add to `reached` the cells not yet reached that are adjacent to a
reached cell. -/
def grow (cells reached : List Point) : List Point :=
  reached ++ cells.filter fun q =>
    !reached.contains q && reached.any fun p => decide (Adjacent p q)

/-- The cells found in three rounds of growth from the first cell. -/
def reachSet : List Point → List Point
  | [] => []
  | p :: cells => grow (p :: cells) (grow (p :: cells) (grow (p :: cells) [p]))

/-- Every cell is found from the first: a certificate of connectedness. -/
def allReached (cells : List Point) : Bool :=
  cells.all fun c => (reachSet cells).contains c

/-- The found cells are closed under adjacency and miss a cell: a
certificate of disconnectedness. -/
def cutFound (cells : List Point) : Bool :=
  ((reachSet cells).all fun p => cells.all fun q =>
    !decide (Adjacent p q) || (reachSet cells).contains q) &&
  cells.any fun c => !(reachSet cells).contains c

/-- The canonical-piece invariant: four distinct points, coordinates in
`0..3`, least `X` and least `Y` both 0. -/
def Canonical (p : Piece) : Prop :=
  p.Blocks.length = 4 ∧ p.Blocks.Nodup ∧
  (∀ b ∈ p.Blocks, 0 ≤ b.X ∧ b.X ≤ 3 ∧ 0 ≤ b.Y ∧ b.Y ≤ 3) ∧
  (∃ b ∈ p.Blocks, b.X = 0) ∧ (∃ b ∈ p.Blocks, b.Y = 0)

instance (p : Piece) : Decidable (Canonical p) := by
  unfold Canonical
  infer_instance

/-- The order by `Y`, then by `X`. -/
def RowMajorLt (a b : Point) : Prop := a.Y < b.Y ∨ (a.Y = b.Y ∧ a.X < b.X)

instance (a b : Point) : Decidable (RowMajorLt a b) := by
  unfold RowMajorLt
  infer_instance

/-- The least element of a list of integers (0 for the empty list). -/
def leastOf : List Int → Int
  | [] => 0
  | x :: xs => xs.foldl min x

/-- The blocks are the cells shifted by `(minX, minY)`, where `minX` and
`minY` are the least column and the least row of the cells, and they are in
strictly increasing order by `Y`, then by `X`. -/
def NormalizedFrom (cells blocks : List Point) : Prop :=
  (∃ c ∈ cells, c.X = leastOf (cells.map Point.X)) ∧
  (∀ c ∈ cells, leastOf (cells.map Point.X) ≤ c.X) ∧
  (∃ c ∈ cells, c.Y = leastOf (cells.map Point.Y)) ∧
  (∀ c ∈ cells, leastOf (cells.map Point.Y) ≤ c.Y) ∧
  blocks = cells.map (fun c =>
    ⟨c.X - leastOf (cells.map Point.X), c.Y - leastOf (cells.map Point.Y)⟩) ∧
  blocks.Pairwise RowMajorLt

instance (cells blocks : List Point) : Decidable (NormalizedFrom cells blocks) := by
  unfold NormalizedFrom
  infer_instance

/-- What is checked, block by block, of the outcome of the validator on a
block of four filled cells. -/
def BlockFacts (cells : List Point) : Except Failure Piece → Prop
  | .ok p => allReached cells = true ∧ Canonical p ∧ NormalizedFrom cells p.Blocks
  | .error e => e = .notConnectedTetromino ∧ cutFound cells = true

instance (cells : List Point) (res : Except Failure Piece) :
    Decidable (BlockFacts cells res) := by
  unfold BlockFacts
  split <;> infer_instance

/-- The filled cells of line `y`, from the columns of the table. -/
def tableRowCells (t : Row) (y : Int) : List Point :=
  t.cols.map fun (x : Nat) => ⟨(x : Int), y⟩

/-- The filled cells of a block of four table lines. -/
def tableCells (t0 t1 t2 t3 : Row) : List Point :=
  tableRowCells t0 0 ++ (tableRowCells t1 1 ++ (tableRowCells t2 2 ++ tableRowCells t3 3))

/-- The outcome of the validator on every block of four filled cells whose
first two lines are `t0` and `t1`. -/
def FactsFromPair (t0 t1 : Row) : Prop :=
  t0.count + t1.count ≤ 4 →
  ∀ t2 ∈ rowTable, t0.count + t1.count + t2.count ≤ 4 →
  ∀ t3 ∈ rowTable, t0.count + t1.count + t2.count + t3.count = 4 →
  BlockFacts (tableCells t0 t1 t2 t3) (finishBlock [t0.runes, t1.runes, t2.runes, t3.runes] 4)

instance (t0 t1 : Row) : Decidable (FactsFromPair t0 t1) := by
  unfold FactsFromPair
  infer_instance

/-- The outcome of the validator on every block of four filled cells whose
first line is `t0`. -/
def FactsFrom (t0 : Row) : Prop := ∀ t1 ∈ rowTable, FactsFromPair t0 t1

instance (t0 : Row) : Decidable (FactsFrom t0) := by
  unfold FactsFrom
  infer_instance

/-- The call `strings.Join(lines, "\n")`. -/
def joinLines : List GoString → GoString
  | [] => []
  | [l] => l
  | l :: m :: ls => l ++ 10 :: joinLines (m :: ls)

/-- The lines of a sequence of blocks, with one empty line between
consecutive blocks. -/
def blockLines : List (List GoString) → List GoString
  | [] => []
  | [b] => b
  | b :: c :: bs => b ++ [] :: blockLines (c :: bs)

/-- The blocks and the pieces that `ValidateAndNormalize` makes of them,
one by one. -/
def Validated (blocks : List (List GoString)) (pieces : List Piece) : Prop :=
  List.Forall₂ (fun b p => ValidateAndNormalize b = .ok p) blocks pieces

/-- One anchor per piece along the top row, four columns apart. -/
def rowAnchors (len : Nat) : List (Int × Int) :=
  (List.range len).map fun (i : Nat) => (4 * (i : Int), 0)

/-- The text with every `\n` replaced by `\r\n`. -/
def toCRLF : GoString → GoString
  | [] => []
  | b :: rest => if b = 10 then 13 :: 10 :: toCRLF rest else b :: toCRLF rest

/-- The least `s` at or after the start with `blocks <= s * s`, searched
upwards: the exact ceiling of the square root, for the comparison with
`MinStartSize`. -/
def ceilSqrtFrom (blocks : Nat) : Nat → Nat → Nat
  | 0, s => s
  | fuel + 1, s => if blocks ≤ s * s then s else ceilSqrtFrom blocks fuel (s + 1)

/-- The exact ceiling of the square root of `blocks`. -/
def ceilSqrt (blocks : Nat) : Nat := ceilSqrtFrom blocks blocks 0

/-- The anchors that put the `k`-th of `len` O pieces on the square of edge 2
at column `k % cols` and row `k / cols` of a grid of such squares. -/
def gridAnchors (cols len : Nat) : List (Int × Int) :=
  (List.range len).map fun (k : Nat) =>
    (((2 * (k % cols) : Nat) : Int), ((2 * (k / cols) : Nat) : Int))

/-- The row-major order of anchors: first by `y`, then by `x`. -/
def AnchorLt (a b : Int × Int) : Prop := a.2 < b.2 ∨ (a.2 = b.2 ∧ a.1 < b.1)

/-! ## Theorems -/

theorem isSquare_newBoard (n : Nat) : IsSquare n (NewBoard n) := by
  refine ⟨by simp [NewBoard], ?_⟩
  intro row hrow
  simp only [NewBoard] at hrow
  rw [List.eq_of_mem_replicate hrow]
  simp

theorem cellAt_newBoard (n x y : Nat) (hx : x < n) (hy : y < n) :
    cellAt (NewBoard n) x y = some 46 := by
  simp [cellAt, NewBoard, List.getElem?_replicate, hx, hy]

theorem cellAt_isSome {n : Nat} {board : Board} (hb : IsSquare n board) {x y : Nat}
    (hx : x < n) (hy : y < n) : ∃ c, cellAt board x y = some c := by
  obtain ⟨hlen, hrows⟩ := hb
  have hy2 : y < board.length := by omega
  have hrow : (board[y]).length = n := hrows _ (List.getElem_mem _)
  have hx2 : x < (board[y]).length := by omega
  refine ⟨(board[y])[x], ?_⟩
  simp [cellAt, List.getElem?_eq_getElem hy2, List.getElem?_eq_getElem hx2]

theorem board_ext {n : Nat} {b1 b2 : Board} (h1 : IsSquare n b1) (h2 : IsSquare n b2)
    (h : ∀ x y, cellAt b1 x y = cellAt b2 x y) : b1 = b2 := by
  apply List.ext_getElem?
  intro y
  by_cases hy : y < n
  · have hy1 : y < b1.length := by rw [h1.1]; exact hy
    have hy2 : y < b2.length := by rw [h2.1]; exact hy
    rw [List.getElem?_eq_getElem hy1, List.getElem?_eq_getElem hy2]
    congr 1
    apply List.ext_getElem?
    intro x
    have := h x y
    simpa [cellAt, List.getElem?_eq_getElem hy1, List.getElem?_eq_getElem hy2] using this
  · have hy1 : b1.length ≤ y := by rw [h1.1]; omega
    have hy2 : b2.length ≤ y := by rw [h2.1]; omega
    rw [List.getElem?_eq_none hy1, List.getElem?_eq_none hy2]

/-- Writing one cell of a square board. -/
theorem setCell_spec {n : Nat} {board : Board} (hb : IsSquare n board) {x y : Nat}
    {row : List Int} (hrow : board[y]? = some row) (ch : Int) (hx : x < row.length) :
    IsSquare n (board.set y (row.set x ch)) ∧
    cellAt (board.set y (row.set x ch)) x y = some ch ∧
    ∀ u v, ¬ (u = x ∧ v = y) → cellAt (board.set y (row.set x ch)) u v = cellAt board u v := by
  obtain ⟨hlen, hrows⟩ := hb
  have hy : y < board.length := by
    by_contra hcon
    rw [List.getElem?_eq_none (by omega)] at hrow
    cases hrow
  have hrowmem : row ∈ board := List.getElem?_mem hrow
  refine ⟨⟨by simp [hlen], ?_⟩, ?_, ?_⟩
  · intro r hr
    rcases List.mem_or_eq_of_mem_set hr with h | h
    · exact hrows r h
    · rw [h, List.length_set]; exact hrows row hrowmem
  · simp [cellAt, List.getElem?_set_self hy, List.getElem?_set_self hx]
  · intro u v huv
    by_cases hv : v = y
    · subst hv
      have hu : x ≠ u := fun h => huv ⟨h.symm, rfl⟩
      simp [cellAt, List.getElem?_set_self hy, hrow, List.getElem?_set_ne hu]
    · have hv2 : y ≠ v := fun h => hv h.symm
      simp [cellAt, List.getElem?_set_ne hv2]

theorem canPlaceLoop_spec {n : Nat} {board : Board} (hb : IsSquare n board) (ox oy : Int)
    (bs : List Point) :
    ∃ r, canPlaceLoop board ox oy bs = some r ∧
      (r = true ↔ ∀ blk ∈ bs, FreeAt n board (ox + blk.X) (oy + blk.Y)) := by
  induction bs with
  | nil => exact ⟨true, rfl, by simp⟩
  | cons b bs ih =>
    obtain ⟨r, hr, hiff⟩ := ih
    simp only [canPlaceLoop, hb.1]
    by_cases hout : ox + b.X < 0 ∨ oy + b.Y < 0 ∨ ox + b.X ≥ (n : Int) ∨ oy + b.Y ≥ (n : Int)
    · rw [if_pos hout]
      refine ⟨false, rfl, ?_⟩
      constructor
      · intro h; cases h
      · intro h
        have := (h b (List.mem_cons_self _ _)).1
        unfold InBoard at this
        omega
    · rw [if_neg hout]
      have hx : (ox + b.X).toNat < n := by omega
      have hy : (oy + b.Y).toNat < n := by omega
      obtain ⟨c, hc⟩ := cellAt_isSome hb hx hy
      have hy2 : (oy + b.Y).toNat < board.length := by rw [hb.1]; exact hy
      have hc2 := hc
      simp only [cellAt, List.getElem?_eq_getElem hy2] at hc2
      simp only [List.getElem?_eq_getElem hy2, hc2]
      by_cases hc46 : c = 46
      · subst hc46
        simp only [ne_eq, not_true_eq_false, if_false]
        refine ⟨r, hr, ?_⟩
        rw [hiff]
        constructor
        · intro h blk hblk
          rcases List.mem_cons.1 hblk with h1 | h1
          · subst h1
            exact ⟨⟨by omega, by omega, by omega, by omega⟩, hc⟩
          · exact h blk h1
        · intro h blk hblk
          exact h blk (List.mem_cons_of_mem _ hblk)
      · rw [if_pos hc46]
        refine ⟨false, rfl, ?_⟩
        constructor
        · intro h; cases h
        · intro h
          have := (h b (List.mem_cons_self _ _)).2
          rw [hc] at this
          exact absurd (Option.some.inj this) hc46

theorem placeLoop_spec {n : Nat} (ox oy ch : Int) (bs : List Point) :
    ∀ {board : Board}, IsSquare n board →
    (∀ blk ∈ bs, InBoard n (ox + blk.X) (oy + blk.Y)) →
    ∃ placed, placeLoop ox oy ch bs board = some placed ∧ IsSquare n placed ∧
      (∀ x y, Covers bs ox oy x y → cellAt placed x y = some ch) ∧
      (∀ x y, ¬ Covers bs ox oy x y → cellAt placed x y = cellAt board x y) := by
  induction bs with
  | nil =>
    intro board hb _
    exact ⟨board, rfl, hb, by simp [Covers], fun _ _ _ => rfl⟩
  | cons b bs ih =>
    intro board hb hin
    have hb0 := hin b (List.mem_cons_self _ _)
    unfold InBoard at hb0
    have hx : (ox + b.X).toNat < n := by omega
    have hy : (oy + b.Y).toNat < n := by omega
    have hy2 : (oy + b.Y).toNat < board.length := by rw [hb.1]; exact hy
    have hrowlen : (board[(oy + b.Y).toNat]).length = n := hb.2 _ (List.getElem_mem _)
    have hrow : board[(oy + b.Y).toNat]? = some (board[(oy + b.Y).toNat]) :=
      List.getElem?_eq_getElem hy2
    have hx2 : (ox + b.X).toNat < (board[(oy + b.Y).toNat]).length := by omega
    obtain ⟨hsq, hself, hother⟩ := setCell_spec hb hrow ch hx2
    obtain ⟨placed, hplaced, hsqp, hcov, hncov⟩ :=
      ih hsq (fun blk hblk => hin blk (List.mem_cons_of_mem _ hblk))
    refine ⟨placed, ?_, hsqp, ?_, ?_⟩
    · simp only [placeLoop]
      rw [if_neg (by omega), hrow]
      simp only [hx2, if_true]
      exact hplaced
    · intro x y hc
      by_cases hrest : Covers bs ox oy x y
      · exact hcov x y hrest
      · rw [hncov x y hrest]
        obtain ⟨blk, hblk, h1, h2⟩ := hc
        rcases List.mem_cons.1 hblk with h | h
        · subst h
          have e1 : (ox + blk.X).toNat = x := by omega
          have e2 : (oy + blk.Y).toNat = y := by omega
          rw [← e1, ← e2]; exact hself
        · exact absurd ⟨blk, h, h1, h2⟩ hrest
    · intro x y hc
      have hrest : ¬ Covers bs ox oy x y := by
        rintro ⟨blk, hblk, h⟩
        exact hc ⟨blk, List.mem_cons_of_mem _ hblk, h⟩
      rw [hncov x y hrest]
      apply hother
      rintro ⟨h1, h2⟩
      exact hc ⟨b, List.mem_cons_self _ _, by omega, by omega⟩

/-- Undo: erasing a piece that was placed on free cells restores the board. -/
theorem place_undo {n : Nat} {board placed : Board} (hb : IsSquare n board) (p : Piece)
    (ox oy ch : Int) (hcan : CanPlace board p ox oy = some true)
    (hplace : Place board p ox oy ch = some placed) :
    Place placed p ox oy 46 = some board := by
  obtain ⟨r, hr, hiff⟩ := canPlaceLoop_spec hb ox oy p.Blocks
  unfold CanPlace at hcan
  rw [hr] at hcan
  have hfree := hiff.1 (Option.some.inj hcan)
  have hin : ∀ blk ∈ p.Blocks, InBoard n (ox + blk.X) (oy + blk.Y) :=
    fun blk hblk => (hfree blk hblk).1
  obtain ⟨b1, hb1, hsq1, hcov1, hncov1⟩ := placeLoop_spec ox oy ch p.Blocks hb hin
  unfold Place at hplace
  rw [hb1] at hplace
  cases hplace
  obtain ⟨b2, hb2, hsq2, hcov2, hncov2⟩ := placeLoop_spec ox oy 46 p.Blocks hsq1 hin
  unfold Place
  rw [hb2]
  congr 1
  apply board_ext hsq2 hb
  intro x y
  by_cases hc : Covers p.Blocks ox oy x y
  · rw [hcov2 x y hc]
    obtain ⟨blk, hblk, h1, h2⟩ := hc
    have := (hfree blk hblk).2
    have e1 : (ox + blk.X).toNat = x := by omega
    have e2 : (oy + blk.Y).toNat = y := by omega
    rw [e1, e2] at this
    exact this.symm
  · rw [hncov2 x y hc, hncov1 x y hc]

theorem mem_anchors {n x y : Nat} : (x, y) ∈ anchors n ↔ x < n ∧ y < n := by
  simp only [anchors, List.mem_flatMap, List.mem_range, List.mem_map, Prod.mk.injEq]
  constructor
  · rintro ⟨b, hb, a, ha, rfl, rfl⟩; exact ⟨ha, hb⟩
  · rintro ⟨hx, hy⟩; exact ⟨y, hy, x, hx, rfl, rfl⟩

theorem mem_pieceCells {p : Piece} {a : Int × Int} {x y : Nat} :
    ((x : Int), (y : Int)) ∈ pieceCells p a ↔ Covers p.Blocks a.1 a.2 x y := by
  simp only [pieceCells, List.mem_map, Prod.mk.injEq, Covers]

theorem canPlace_true_iff {n : Nat} {board : Board} (hb : IsSquare n board) (p : Piece)
    (a : Int × Int) :
    CanPlace board p a.1 a.2 = some true ↔ ∀ c ∈ pieceCells p a, FreeAt n board c.1 c.2 := by
  obtain ⟨r, hr, hiff⟩ := canPlaceLoop_spec hb a.1 a.2 p.Blocks
  unfold CanPlace
  rw [hr]
  simp only [Option.some.injEq, hiff, pieceCells, List.mem_map, forall_exists_index, and_imp,
    forall_apply_eq_imp_iff₂]

theorem canPlace_total {n : Nat} {board : Board} (hb : IsSquare n board) (p : Piece)
    (ox oy : Int) : ∃ r, CanPlace board p ox oy = some r := by
  obtain ⟨r, hr, _⟩ := canPlaceLoop_spec hb ox oy p.Blocks
  exact ⟨r, hr⟩

/-- The effect of `Place` at an anchor that `CanPlace` accepts. -/
theorem place_spec {n : Nat} {board : Board} (hb : IsSquare n board) (p : Piece)
    (a : Int × Int) (ch : Int) (hcan : CanPlace board p a.1 a.2 = some true) :
    ∃ placed, Place board p a.1 a.2 ch = some placed ∧ IsSquare n placed ∧
      (∀ x y : Nat, ((x : Int), (y : Int)) ∈ pieceCells p a → cellAt placed x y = some ch) ∧
      (∀ x y : Nat, ((x : Int), (y : Int)) ∉ pieceCells p a →
        cellAt placed x y = cellAt board x y) := by
  have hfree := (canPlace_true_iff hb p a).1 hcan
  have hin : ∀ blk ∈ p.Blocks, InBoard n (a.1 + blk.X) (a.2 + blk.Y) := by
    intro blk hblk
    exact (hfree (a.1 + blk.X, a.2 + blk.Y) (List.mem_map.2 ⟨blk, hblk, rfl⟩)).1
  obtain ⟨placed, h1, h2, h3, h4⟩ := placeLoop_spec a.1 a.2 ch p.Blocks hb hin
  refine ⟨placed, h1, h2, ?_, ?_⟩
  · intro x y hxy; exact h3 x y (mem_pieceCells.1 hxy)
  · intro x y hxy; exact h4 x y (fun h => hxy (mem_pieceCells.2 h))

/-- The scan over the anchors: it always returns; on `false` the board is
restored and every scanned anchor was rejected or led to failure; on `true`
some scanned anchor was accepted and led to success. -/
theorem scanAnchors_spec {n : Nat} (p : Piece) (ch : Int)
    (next : Board → Option (Bool × Board))
    (hnext : ∀ b1, IsSquare n b1 → ∃ r b2, next b1 = some (r, b2) ∧ (r = false → b2 = b1)) :
    ∀ (l : List (Nat × Nat)) {board : Board}, IsSquare n board →
    ∃ r final, scanAnchors p ch next l board = some (r, final) ∧
      (r = false → final = board ∧ ∀ a ∈ l, ∀ placed,
        CanPlace board p (a.1 : Int) (a.2 : Int) = some true →
        Place board p (a.1 : Int) (a.2 : Int) ch = some placed →
        ∃ back, next placed = some (false, back)) ∧
      (r = true → ∃ a ∈ l, ∃ placed,
        CanPlace board p (a.1 : Int) (a.2 : Int) = some true ∧
        Place board p (a.1 : Int) (a.2 : Int) ch = some placed ∧
        next placed = some (true, final)) := by
  intro l
  induction l with
  | nil =>
    intro board _
    exact ⟨false, board, rfl, fun _ => ⟨rfl, by simp⟩, fun h => by cases h⟩
  | cons a l ih =>
    intro board hb
    obtain ⟨x, y⟩ := a
    obtain ⟨r0, final0, hscan, hfalse, htrue⟩ := ih hb
    obtain ⟨c, hc⟩ := canPlace_total hb p (x : Int) (y : Int)
    cases c with
    | false =>
      refine ⟨r0, final0, ?_, ?_, ?_⟩
      · simp only [scanAnchors, hc]; exact hscan
      · intro hr
        obtain ⟨h1, h2⟩ := hfalse hr
        refine ⟨h1, ?_⟩
        intro a ha placed hcan hplace
        rcases List.mem_cons.1 ha with h | h
        · subst h; rw [hc] at hcan; cases hcan
        · exact h2 a h placed hcan hplace
      · intro hr
        obtain ⟨a, ha, rest⟩ := htrue hr
        exact ⟨a, List.mem_cons_of_mem _ ha, rest⟩
    | true =>
      obtain ⟨placed, hplaced, hsq, _, _⟩ := place_spec hb p ((x : Int), (y : Int)) ch hc
      obtain ⟨r1, b2, hn, hsame⟩ := hnext placed hsq
      cases r1 with
      | true =>
        refine ⟨true, b2, ?_, (fun h => by cases h), fun _ => ?_⟩
        · simp only [scanAnchors, hc, hplaced, hn]
        · exact ⟨(x, y), List.mem_cons_self _ _, placed, hc, hplaced, hn⟩
      | false =>
        have hb2 : b2 = placed := hsame rfl
        subst hb2
        have hundo := place_undo hb p (x : Int) (y : Int) ch hc hplaced
        refine ⟨r0, final0, ?_, ?_, ?_⟩
        · simp only [scanAnchors, hc, hplaced, hn, hundo]; exact hscan
        · intro hr
          obtain ⟨h1, h2⟩ := hfalse hr
          refine ⟨h1, ?_⟩
          intro a ha placed2 hcan hplace
          rcases List.mem_cons.1 ha with h | h
          · subst h
            simp only at hplace
            rw [hplaced] at hplace
            cases hplace
            exact ⟨_, hn⟩
          · exact h2 a h placed2 hcan hplace
        · intro hr
          obtain ⟨a, ha, rest⟩ := htrue hr
          exact ⟨a, List.mem_cons_of_mem _ ha, rest⟩

theorem anchorOnBoard_cast {n : Nat} {a : Nat × Nat} (h : a ∈ anchors n) :
    AnchorOnBoard n ((a.1 : Int), (a.2 : Int)) := by
  obtain ⟨x, y⟩ := a
  have := mem_anchors.1 h
  simp only [AnchorOnBoard, InBoard]
  omega

theorem anchorOnBoard_mem {n : Nat} {a : Int × Int} (h : AnchorOnBoard n a) :
    (a.1.toNat, a.2.toNat) ∈ anchors n ∧ ((a.1.toNat : Int), (a.2.toNat : Int)) = a := by
  obtain ⟨x, y⟩ := a
  simp only [AnchorOnBoard, InBoard] at h
  refine ⟨mem_anchors.2 ⟨by omega, by omega⟩, ?_⟩
  simp only [Prod.mk.injEq]
  omega

/-- The search behind `Solve`: it always returns; on `false` the board is
unchanged and no sequence of scanned anchors places the remaining pieces; on
`true` the final board is reached by placing them at scanned anchors. -/
theorem solveFrom_spec (pieces : List Piece) {n : Nat} :
    ∀ (depth idx : Nat) {board : Board}, IsSquare n board → idx + depth = pieces.length →
    ∃ r final, solveFrom pieces depth board idx = some (r, final) ∧
      (r = false → final = board ∧ ∀ as final2, (∀ a ∈ as, AnchorOnBoard n a) →
        ¬ Chain (pieces.drop idx) idx board as final2) ∧
      (r = true → ∃ as, (∀ a ∈ as, AnchorOnBoard n a) ∧
        Chain (pieces.drop idx) idx board as final) := by
  intro depth
  induction depth with
  | zero =>
    intro idx board _ hlen
    have hidx : idx = pieces.length := by omega
    refine ⟨true, board, by simp [solveFrom, hidx], (fun h => by cases h), fun _ => ?_⟩
    refine ⟨[], by simp, ?_⟩
    rw [hidx, List.drop_length]
    rfl
  | succ d ih =>
    intro idx board hb hlen
    have hidx : idx < pieces.length := by omega
    have hne : idx ≠ pieces.length := by omega
    have hp : pieces[idx]? = some pieces[idx] := List.getElem?_eq_getElem hidx
    have hdrop : pieces.drop idx = pieces[idx] :: pieces.drop (idx + 1) :=
      List.drop_eq_getElem_cons hidx
    have hnext : ∀ b1, IsSquare n b1 →
        ∃ r b2, solveFrom pieces d b1 (idx + 1) = some (r, b2) ∧ (r = false → b2 = b1) := by
      intro b1 hb1
      obtain ⟨r, b2, h1, h2, _⟩ := ih (idx + 1) hb1 (by omega)
      exact ⟨r, b2, h1, fun hr => (h2 hr).1⟩
    obtain ⟨r, final, hscan, hfalse, htrue⟩ :=
      scanAnchors_spec pieces[idx] (label idx) (fun b => solveFrom pieces d b (idx + 1))
        hnext (anchors n) hb
    refine ⟨r, final, ?_, ?_, ?_⟩
    · simp only [solveFrom, if_neg hne, hp, hb.1]
      exact hscan
    · intro hr
      obtain ⟨h1, h2⟩ := hfalse hr
      refine ⟨h1, ?_⟩
      intro as final2 hon hchain
      rw [hdrop] at hchain
      cases as with
      | nil => exact hchain
      | cons a as =>
        obtain ⟨hcan, placed, hplace, hrest⟩ := hchain
        obtain ⟨hmem, hcast⟩ := anchorOnBoard_mem (hon a (List.mem_cons_self _ _))
        have hcan2 : CanPlace board pieces[idx] ((a.1.toNat : Nat) : Int) ((a.2.toNat : Nat) : Int)
            = some true := by
          have e1 := congrArg Prod.fst hcast
          have e2 := congrArg Prod.snd hcast
          simp only at e1 e2
          rw [e1, e2]; exact hcan
        have hplace2 : Place board pieces[idx] ((a.1.toNat : Nat) : Int) ((a.2.toNat : Nat) : Int)
            (label idx) = some placed := by
          have e1 := congrArg Prod.fst hcast
          have e2 := congrArg Prod.snd hcast
          simp only at e1 e2
          rw [e1, e2]; exact hplace
        obtain ⟨back, hback⟩ := h2 _ hmem placed hcan2 hplace2
        have hsq2 : IsSquare n placed := by
          obtain ⟨pl, hpl, hsqpl, _⟩ := place_spec hb pieces[idx] a (label idx) hcan
          rw [hplace] at hpl
          cases hpl
          exact hsqpl
        obtain ⟨r3, f3, h3, h3false, _⟩ := ih (idx + 1) hsq2 (by omega)
        rw [hback] at h3
        cases h3
        exact (h3false rfl).2 as final2 (fun a ha => hon a (List.mem_cons_of_mem _ ha)) hrest
    · intro hr
      obtain ⟨a, ha, placed, hcan, hplace, hn⟩ := htrue hr
      have hsq2 : IsSquare n placed := by
        obtain ⟨pl, hpl, hsqpl, _⟩ :=
          place_spec hb pieces[idx] ((a.1 : Int), (a.2 : Int)) (label idx) hcan
        rw [hplace] at hpl
        cases hpl
        exact hsqpl
      obtain ⟨r3, f3, h3, _, h3true⟩ := ih (idx + 1) hsq2 (by omega)
      rw [hn] at h3
      cases h3
      obtain ⟨as, hon, hchain⟩ := h3true rfl
      refine ⟨((a.1 : Int), (a.2 : Int)) :: as, ?_, ?_⟩
      · intro b hb2
        rcases List.mem_cons.1 hb2 with h | h
        · rw [h]; exact anchorOnBoard_cast ha
        · exact hon b h
      · rw [hdrop]
        exact ⟨hcan, placed, hplace, hchain⟩

theorem label_ne_dot {k : Nat} (h : k < 4294967277) : label k ≠ 46 := by
  unfold label toRune
  omega

theorem label_inj {j k : Nat} (hj : j < 4294967296) (hk : k < 4294967296)
    (h : label j = label k) : j = k := by
  unfold label toRune at h
  omega

theorem cellsOf_zero (p : Piece) (ps : List Piece) (a : Int × Int) (as : List (Int × Int)) :
    cellsOf (p :: ps) (a :: as) 0 = pieceCells p a := by
  simp [cellsOf]

theorem cellsOf_succ (p : Piece) (ps : List Piece) (a : Int × Int) (as : List (Int × Int))
    (k : Nat) : cellsOf (p :: ps) (a :: as) (k + 1) = cellsOf ps as k := by
  simp [cellsOf]

theorem cellsOf_nil_left (as : List (Int × Int)) (k : Nat) : cellsOf [] as k = [] := by
  simp [cellsOf]

theorem cellsOf_of_le (ps : List Piece) (as : List (Int × Int)) (k : Nat)
    (h : ps.length ≤ k) : cellsOf ps as k = [] := by
  simp [cellsOf, List.getElem?_eq_none h]

theorem inBoard_cast {n : Nat} {c : Int × Int} (h : InBoard n c.1 c.2) :
    c = ((c.1.toNat : Int), (c.2.toNat : Int)) ∧ c.1.toNat < n ∧ c.2.toNat < n := by
  obtain ⟨x, y⟩ := c
  simp only [InBoard] at h
  refine ⟨?_, by omega, by omega⟩
  simp only [Prod.mk.injEq]
  omega

/-- What a chain of placements means on the board: the cells of the placed
pieces were free at the start, are pairwise disjoint, carry the labels at the
end, and every other cell is unchanged. -/
theorem chain_geometry {n : Nat} :
    ∀ (ps : List Piece) (idx : Nat) (board : Board) (as : List (Int × Int)) (final : Board),
    IsSquare n board → Chain ps idx board as final →
    (∀ k, k < ps.length → label (idx + k) ≠ 46) →
    as.length = ps.length ∧
    (∀ k, ∀ c ∈ cellsOf ps as k, FreeAt n board c.1 c.2) ∧
    (∀ j k, j ≠ k → ∀ c ∈ cellsOf ps as j, c ∉ cellsOf ps as k) ∧
    IsSquare n final ∧
    (∀ (x y k : Nat), ((x : Int), (y : Int)) ∈ cellsOf ps as k →
      cellAt final x y = some (label (idx + k))) ∧
    (∀ (x y : Nat), (∀ k, ((x : Int), (y : Int)) ∉ cellsOf ps as k) →
      cellAt final x y = cellAt board x y) := by
  intro ps
  induction ps with
  | nil =>
    intro idx board as final hb hchain _
    cases as with
    | cons a as => exact absurd hchain (by simp [Chain])
    | nil =>
      simp only [Chain] at hchain
      subst hchain
      refine ⟨rfl, ?_, ?_, hb, ?_, fun _ _ _ => rfl⟩
      · intro k c hc; rw [cellsOf_nil_left] at hc; cases hc
      · intro j k _ c hc; rw [cellsOf_nil_left] at hc; cases hc
      · intro x y k hc; rw [cellsOf_nil_left] at hc; cases hc
  | cons p ps ih =>
    intro idx board as final hb hchain hlabel
    cases as with
    | nil => exact absurd hchain (by simp [Chain])
    | cons a as =>
      obtain ⟨hcan, placed, hplace, hrest⟩ := hchain
      obtain ⟨pl, hpl, hsq, hcov, hncov⟩ := place_spec hb p a (label idx) hcan
      rw [hplace] at hpl
      cases hpl
      have hlabel2 : ∀ k, k < ps.length → label (idx + 1 + k) ≠ 46 := by
        intro k hk
        have := hlabel (k + 1) (by simp; omega)
        rwa [show idx + (k + 1) = idx + 1 + k by omega] at this
      obtain ⟨hlen, hfree, hdisj, hsqf, hlab, hsame⟩ :=
        ih (idx + 1) placed as final hsq hrest hlabel2
      have hl0 : label idx ≠ 46 := by
        have := hlabel 0 (by simp)
        simpa using this
      have hsep : ∀ k, ∀ c ∈ cellsOf ps as k, c ∉ pieceCells p a := by
        intro k c hc hmem
        obtain ⟨hin, hcell⟩ := hfree k c hc
        obtain ⟨hcast, _, _⟩ := inBoard_cast hin
        rw [hcast] at hmem
        rw [hcov _ _ hmem] at hcell
        exact hl0 (Option.some.inj hcell)
      refine ⟨by simp [hlen], ?_, ?_, hsqf, ?_, ?_⟩
      · intro k c hc
        cases k with
        | zero =>
          rw [cellsOf_zero] at hc
          exact (canPlace_true_iff hb p a).1 hcan c hc
        | succ k =>
          rw [cellsOf_succ] at hc
          obtain ⟨hin, hcell⟩ := hfree k c hc
          refine ⟨hin, ?_⟩
          obtain ⟨hcast, _, _⟩ := inBoard_cast hin
          have hnot := hsep k c hc
          rw [hcast] at hnot
          rw [← hncov _ _ hnot]
          exact hcell
      · intro j k hjk c hc
        cases j with
        | zero =>
          cases k with
          | zero => exact absurd rfl hjk
          | succ k =>
            rw [cellsOf_zero] at hc
            rw [cellsOf_succ]
            intro hc2
            exact hsep k c hc2 hc
        | succ j =>
          rw [cellsOf_succ] at hc
          cases k with
          | zero =>
            rw [cellsOf_zero]
            exact hsep j c hc
          | succ k =>
            rw [cellsOf_succ]
            exact hdisj j k (by omega) c hc
      · intro x y k hc
        cases k with
        | zero =>
          rw [cellsOf_zero] at hc
          have hnone : ∀ k, ((x : Int), (y : Int)) ∉ cellsOf ps as k :=
            fun k hk => hsep k _ hk hc
          rw [hsame x y hnone, hcov x y hc]
          rfl
        | succ k =>
          rw [cellsOf_succ] at hc
          rw [hlab x y k hc, show idx + 1 + k = idx + (k + 1) by omega]
      · intro x y hnone
        have h0 : ((x : Int), (y : Int)) ∉ pieceCells p a := by
          have := hnone 0
          rwa [cellsOf_zero] at this
        have hrestnone : ∀ k, ((x : Int), (y : Int)) ∉ cellsOf ps as k := by
          intro k
          have := hnone (k + 1)
          rwa [cellsOf_succ] at this
        rw [hsame x y hrestnone, hncov x y h0]

/-- Pieces whose cells are free and pairwise disjoint can be placed one
after the other. -/
theorem chain_of_valid {n : Nat} :
    ∀ (ps : List Piece) (idx : Nat) (board : Board) (as : List (Int × Int)),
    IsSquare n board → as.length = ps.length →
    (∀ k, ∀ c ∈ cellsOf ps as k, FreeAt n board c.1 c.2) →
    (∀ j k, j ≠ k → ∀ c ∈ cellsOf ps as j, c ∉ cellsOf ps as k) →
    ∃ final, Chain ps idx board as final := by
  intro ps
  induction ps with
  | nil =>
    intro idx board as hb hlen _ _
    cases as with
    | nil => exact ⟨board, rfl⟩
    | cons a as => simp at hlen
  | cons p ps ih =>
    intro idx board as hb hlen hfree hdisj
    cases as with
    | nil => simp at hlen
    | cons a as =>
      have hcan : CanPlace board p a.1 a.2 = some true := by
        rw [canPlace_true_iff hb p a]
        intro c hc
        exact hfree 0 c (by rw [cellsOf_zero]; exact hc)
      obtain ⟨placed, hplace, hsq, _, hncov⟩ := place_spec hb p a (label idx) hcan
      have hfree2 : ∀ k, ∀ c ∈ cellsOf ps as k, FreeAt n placed c.1 c.2 := by
        intro k c hc
        have hc1 : c ∈ cellsOf (p :: ps) (a :: as) (k + 1) := by rw [cellsOf_succ]; exact hc
        obtain ⟨hin, hcell⟩ := hfree (k + 1) c hc1
        refine ⟨hin, ?_⟩
        obtain ⟨hcast, _, _⟩ := inBoard_cast hin
        have hnot : c ∉ pieceCells p a := by
          have := hdisj (k + 1) 0 (by omega) c hc1
          rwa [cellsOf_zero] at this
        rw [hcast] at hnot
        rw [hncov _ _ hnot]
        exact hcell
      have hdisj2 : ∀ j k, j ≠ k → ∀ c ∈ cellsOf ps as j, c ∉ cellsOf ps as k := by
        intro j k hjk c hc
        have := hdisj (j + 1) (k + 1) (by omega) c (by rw [cellsOf_succ]; exact hc)
        rwa [cellsOf_succ] at this
      obtain ⟨final, hfinal⟩ := ih (idx + 1) placed as hsq (by simpa using hlen) hfree2 hdisj2
      exact ⟨final, hcan, placed, hplace, hfinal⟩

theorem solve_eq_solveFrom (board : Board) (pieces : List Piece) :
    Solve board pieces 0 = solveFrom pieces pieces.length board 0 := by
  simp only [Solve, Nat.sub_zero]

theorem mem_cellsOf_lt {ps : List Piece} {as : List (Int × Int)} {k : Nat} {c : Int × Int}
    (h : c ∈ cellsOf ps as k) : k < ps.length := by
  by_contra hk
  rw [cellsOf_of_le ps as k (by omega)] at h
  cases h

/-- A run of placements on an empty board, with labels that do not wrap
around to the dot, is a valid placement, and the final board shows it. -/
theorem chain_drawn {n : Nat} {pieces : List Piece} {as : List (Int × Int)} {final : Board}
    (hlen : pieces.length ≤ 4294967277)
    (hchain : Chain pieces 0 (NewBoard n) as final) :
    ValidPlacement n pieces as ∧ Drawn n pieces as final := by
  have hlabel : ∀ k, k < pieces.length → label (0 + k) ≠ 46 := by
    intro k hk
    rw [Nat.zero_add]
    exact label_ne_dot (by omega)
  obtain ⟨hl, hfree, hdisj, hsq, hlab, hsame⟩ :=
    chain_geometry pieces 0 (NewBoard n) as final (isSquare_newBoard n) hchain hlabel
  refine ⟨⟨hl, fun k c hc => (hfree k c hc).1, hdisj⟩, hsq, ?_⟩
  intro x y hx hy
  constructor
  · intro k hk
    constructor
    · intro hcell
      by_contra hnot
      by_cases hex : ∃ j, ((x : Int), (y : Int)) ∈ cellsOf pieces as j
      · obtain ⟨j, hj⟩ := hex
        have hjl := mem_cellsOf_lt hj
        have h1 := hlab x y j hj
        rw [Nat.zero_add, hcell] at h1
        have := label_inj (by omega) (by omega) (Option.some.inj h1)
        subst this
        exact hnot hj
      · have hnone : ∀ j, ((x : Int), (y : Int)) ∉ cellsOf pieces as j :=
          fun j hj => hex ⟨j, hj⟩
        have h1 := hsame x y hnone
        rw [cellAt_newBoard n x y hx hy, hcell] at h1
        exact label_ne_dot (show k < 4294967277 by omega) (Option.some.inj h1)
    · intro hmem
      have := hlab x y k hmem
      rwa [Nat.zero_add] at this
  · constructor
    · intro hcell k hmem
      have h1 := hlab x y k hmem
      have hkl := mem_cellsOf_lt hmem
      rw [Nat.zero_add, hcell] at h1
      exact label_ne_dot (show k < 4294967277 by omega) (Option.some.inj h1).symm
    · intro hnone
      rw [hsame x y hnone, cellAt_newBoard n x y hx hy]

/-- Soundness of the search on an empty board, for labels that do not wrap
around to the dot. -/
theorem solve_true_valid {n : Nat} {pieces : List Piece} {final : Board}
    (hlen : pieces.length ≤ 4294967277)
    (h : Solve (NewBoard n) pieces 0 = some (true, final)) :
    ∃ as : List (Int × Int), (∀ a ∈ as, AnchorOnBoard n a) ∧ ValidPlacement n pieces as ∧
      Drawn n pieces as final := by
  rw [solve_eq_solveFrom] at h
  obtain ⟨r, f, hs, _, htrue⟩ :=
    solveFrom_spec pieces pieces.length 0 (isSquare_newBoard n) (by omega)
  rw [h] at hs
  cases hs
  obtain ⟨as, hon, hchain⟩ := htrue rfl
  rw [List.drop_zero] at hchain
  obtain ⟨hv, hd⟩ := chain_drawn hlen hchain
  exact ⟨as, hon, hv, hd⟩

/-- Completeness of the search on an empty board: a valid placement at
scanned anchors makes `Solve` return `true`. -/
theorem solve_true_of_valid {n : Nat} {pieces : List Piece} {as : List (Int × Int)}
    (hon : ∀ a ∈ as, AnchorOnBoard n a) (hv : ValidPlacement n pieces as) :
    ∃ final, Solve (NewBoard n) pieces 0 = some (true, final) := by
  obtain ⟨r, f, hs, hfalse, _⟩ :=
    solveFrom_spec pieces pieces.length 0 (isSquare_newBoard n) (by omega)
  rw [solve_eq_solveFrom]
  cases r with
  | true => exact ⟨f, hs⟩
  | false =>
    exfalso
    have hfree : ∀ k, ∀ c ∈ cellsOf pieces as k, FreeAt n (NewBoard n) c.1 c.2 := by
      intro k c hc
      have hin := hv.inside k c hc
      obtain ⟨_, hx, hy⟩ := inBoard_cast hin
      exact ⟨hin, cellAt_newBoard n _ _ hx hy⟩
    obtain ⟨final, hchain⟩ :=
      chain_of_valid pieces 0 (NewBoard n) as (isSquare_newBoard n) hv.length_eq hfree
        hv.disjoint
    refine (hfalse rfl).2 as final hon ?_
    rw [List.drop_zero]
    exact hchain

/-- `Solve` on an empty board always returns. -/
theorem solve_total (n : Nat) (pieces : List Piece) :
    ∃ r final, Solve (NewBoard n) pieces 0 = some (r, final) := by
  obtain ⟨r, f, hs, _, _⟩ :=
    solveFrom_spec pieces pieces.length 0 (isSquare_newBoard n) (by omega)
  exact ⟨r, f, by rw [solve_eq_solveFrom]; exact hs⟩

theorem valid_anchors_onBoard {n : Nat} {pieces : List Piece} {as : List (Int × Int)}
    (hp : ∀ p ∈ pieces, Anchored p) (hv : ValidPlacement n pieces as) :
    ∀ a ∈ as, AnchorOnBoard n a := by
  intro a ha
  obtain ⟨k, hk⟩ := List.mem_iff_getElem?.1 ha
  have hkl : k < as.length := by
    by_contra hcon
    rw [List.getElem?_eq_none (by omega)] at hk
    cases hk
  have hkp : k < pieces.length := by rw [← hv.length_eq]; exact hkl
  have hpk : pieces[k]? = some pieces[k] := List.getElem?_eq_getElem hkp
  obtain ⟨⟨bx, hbx, hx0⟩, ⟨b_y, hby, hy0⟩⟩ := hp pieces[k] (List.getElem_mem _)
  have hcells : cellsOf pieces as k = pieceCells pieces[k] a := by
    simp [cellsOf, hpk, hk]
  have h1 := hv.inside k (a.1 + bx.X, a.2 + bx.Y)
    (by rw [hcells]; exact List.mem_map.2 ⟨bx, hbx, rfl⟩)
  have h2 := hv.inside k (a.1 + b_y.X, a.2 + b_y.Y)
    (by rw [hcells]; exact List.mem_map.2 ⟨b_y, hby, rfl⟩)
  simp only [InBoard] at h1 h2
  simp only [AnchorOnBoard, InBoard]
  omega

/-- The scan on a bounded stack is the scan itself when the recursive call
is. -/
theorem scanAnchorsOn_lift (p : Piece) (ch : Int) (next : Board → Option (Bool × Board)) :
    ∀ (l : List (Nat × Nat)) (board : Board),
    scanAnchorsOn p ch (fun b => outcomeOf (next b)) l board
      = outcomeOf (scanAnchors p ch next l board)
  | [], board => rfl
  | (x, y) :: rest, board => by
    simp only [scanAnchorsOn, scanAnchors]
    cases CanPlace board p x y with
    | none => rfl
    | some c =>
      cases c with
      | false => exact scanAnchorsOn_lift p ch next rest board
      | true =>
        simp only
        cases Place board p x y ch with
        | none => rfl
        | some placed =>
          simp only
          cases next placed with
          | none => rfl
          | some rb =>
            obtain ⟨r, back⟩ := rb
            cases r with
            | true => rfl
            | false =>
              simp only [outcomeOf]
              cases Place back p x y 46 with
              | none => rfl
              | some undone => exact scanAnchorsOn_lift p ch next rest undone

/-- A scan that returns on a bounded stack returns the same without the
bound, when the recursive call does. -/
theorem scanAnchorsOn_done (p : Piece) (ch : Int) (next2 : Board → Outcome)
    (next : Board → Option (Bool × Board))
    (hnext : ∀ b r f, next2 b = .done r f → next b = some (r, f)) :
    ∀ (l : List (Nat × Nat)) (board : Board) (r : Bool) (f : Board),
    scanAnchorsOn p ch next2 l board = .done r f → scanAnchors p ch next l board = some (r, f)
  | [], board, r, f, h => by
    simp only [scanAnchorsOn, Outcome.done.injEq] at h
    simp only [scanAnchors, h.1, h.2]
  | (x, y) :: rest, board, r, f, h => by
    simp only [scanAnchorsOn] at h
    simp only [scanAnchors]
    cases hc : CanPlace board p x y with
    | none => rw [hc] at h; cases h
    | some c =>
      rw [hc] at h
      cases c with
      | false => exact scanAnchorsOn_done p ch next2 next hnext rest board r f h
      | true =>
        simp only at h ⊢
        cases hp : Place board p x y ch with
        | none => rw [hp] at h; cases h
        | some placed =>
          rw [hp] at h
          simp only at h ⊢
          cases hn : next2 placed with
          | panicked => rw [hn] at h; cases h
          | overflow => rw [hn] at h; cases h
          | done r2 back =>
            rw [hn] at h
            rw [hnext placed r2 back hn]
            cases r2 with
            | true =>
              simp only [Outcome.done.injEq] at h
              simp only [h.1, h.2]
            | false =>
              simp only at h ⊢
              cases hu : Place back p x y 46 with
              | none => rw [hu] at h; cases h
              | some undone =>
                rw [hu] at h
                exact scanAnchorsOn_done p ch next2 next hnext rest undone r f h

/-- A scan that returns `true` got it from a recursive call. -/
theorem scanAnchorsOn_true (p : Piece) (ch : Int) (next2 : Board → Outcome) :
    ∀ (l : List (Nat × Nat)) (board : Board) (f : Board),
    scanAnchorsOn p ch next2 l board = .done true f → ∃ b, next2 b = .done true f
  | [], board, f, h => by
    simp [scanAnchorsOn] at h
  | (x, y) :: rest, board, f, h => by
    simp only [scanAnchorsOn] at h
    cases hc : CanPlace board p x y with
    | none => rw [hc] at h; cases h
    | some c =>
      rw [hc] at h
      cases c with
      | false => exact scanAnchorsOn_true p ch next2 rest board f h
      | true =>
        simp only at h
        cases hp : Place board p x y ch with
        | none => rw [hp] at h; cases h
        | some placed =>
          rw [hp] at h
          simp only at h
          cases hn : next2 placed with
          | panicked => rw [hn] at h; cases h
          | overflow => rw [hn] at h; cases h
          | done r2 back =>
            rw [hn] at h
            cases r2 with
            | true =>
              simp only [Outcome.done.injEq, true_and] at h
              exact ⟨placed, by rw [hn, h]⟩
            | false =>
              simp only at h
              cases hu : Place back p x y 46 with
              | none => rw [hu] at h; cases h
              | some undone =>
                rw [hu] at h
                exact scanAnchorsOn_true p ch next2 rest undone f h

/-- Enough stack: with room for more than `len(pieces) - idx` nested calls
the stack never ends the call, which is then the call of `Solve`. -/
theorem solveOn_enough (pieces : List Piece) : ∀ (stack idx : Nat) (board : Board),
    idx ≤ pieces.length → pieces.length - idx < stack →
    solveOn pieces stack board idx = outcomeOf (Solve board pieces idx) := by
  intro stack
  induction stack with
  | zero => intro idx board _ h; omega
  | succ s ih =>
    intro idx board h1 h2
    unfold Solve
    by_cases hidx : idx = pieces.length
    · have h0 : pieces.length - idx = 0 := by omega
      rw [h0]
      simp [solveOn, solveFrom, hidx, outcomeOf]
    · obtain ⟨k, hk⟩ : ∃ k, pieces.length - idx = k + 1 :=
        ⟨pieces.length - idx - 1, by omega⟩
      have hfun : (fun b => solveOn pieces s b (idx + 1))
          = (fun b => outcomeOf (solveFrom pieces k b (idx + 1))) := by
        funext b
        rw [ih (idx + 1) b (by omega) (by omega)]
        unfold Solve
        have h3 : pieces.length - (idx + 1) = k := by omega
        rw [h3]
      rw [hk]
      simp only [solveOn, solveFrom, if_neg hidx, hfun]
      cases pieces[idx]? with
      | none => rfl
      | some p => exact scanAnchorsOn_lift p (label idx) _ _ _

/-- A call that returns on a bounded stack returns the same without the
bound. -/
theorem solveOn_done (pieces : List Piece) : ∀ (stack idx : Nat) (board : Board) (r : Bool)
    (f : Board), solveOn pieces stack board idx = .done r f →
    idx ≤ pieces.length ∧ Solve board pieces idx = some (r, f) := by
  intro stack
  induction stack with
  | zero => intro idx board r f h; simp [solveOn] at h
  | succ s ih =>
    intro idx board r f h
    unfold Solve
    by_cases hidx : idx = pieces.length
    · have h0 : pieces.length - idx = 0 := by omega
      rw [h0]
      simp only [solveOn, hidx, if_true, Outcome.done.injEq] at h
      refine ⟨by omega, ?_⟩
      simp [solveFrom, hidx, h.1, h.2]
    · simp only [solveOn, if_neg hidx] at h
      cases hp : pieces[idx]? with
      | none => rw [hp] at h; cases h
      | some p =>
        rw [hp] at h
        have hlt : idx < pieces.length := by
          by_contra hcon
          rw [List.getElem?_eq_none (by omega)] at hp
          cases hp
        obtain ⟨k, hk⟩ : ∃ k, pieces.length - idx = k + 1 :=
          ⟨pieces.length - idx - 1, by omega⟩
        refine ⟨by omega, ?_⟩
        rw [hk]
        simp only [solveFrom, if_neg hidx, hp]
        refine scanAnchorsOn_done p (label idx) _ _ ?_ _ _ r f h
        intro b r2 f2 hb
        have := (ih (idx + 1) b r2 f2 hb).2
        unfold Solve at this
        have h3 : pieces.length - (idx + 1) = k := by omega
        rw [h3] at this
        exact this

/-- A call that returns `true` nested one call per piece still to place, and
one more. -/
theorem solveOn_true_depth (pieces : List Piece) : ∀ (stack idx : Nat) (board : Board)
    (f : Board), solveOn pieces stack board idx = .done true f →
    pieces.length - idx < stack := by
  intro stack
  induction stack with
  | zero => intro idx board f h; simp [solveOn] at h
  | succ s ih =>
    intro idx board f h
    by_cases hidx : idx = pieces.length
    · omega
    · simp only [solveOn, if_neg hidx] at h
      cases hp : pieces[idx]? with
      | none => rw [hp] at h; cases h
      | some p =>
        rw [hp] at h
        obtain ⟨b, hb⟩ := scanAnchorsOn_true p (label idx) _ _ _ f h
        have := ih (idx + 1) b f hb
        omega

/-- On the empty board: `Solve` returns `true` on a bounded stack exactly when
the list is shorter than the number of calls that fit and `Solve` returns
`true`. -/
theorem solveOn_true_iff (limit n : Nat) (pieces : List Piece) (final : Board) :
    SolveOn limit (NewBoard n) pieces 0 = .done true final ↔
      pieces.length < limit ∧ Solve (NewBoard n) pieces 0 = some (true, final) := by
  unfold SolveOn
  constructor
  · intro h
    have h1 := solveOn_true_depth pieces limit 0 _ final h
    exact ⟨by omega, (solveOn_done pieces limit 0 _ true final h).2⟩
  · rintro ⟨h1, h2⟩
    rw [solveOn_enough pieces limit 0 _ (by omega) (by omega), h2]
    rfl

/-- On a square board a scan on a bounded stack does not panic: the stack
ends it, or it returns `true`, or it returns `false` on the restored board. -/
theorem scanAnchorsOn_total {n : Nat} (p : Piece) (ch : Int) (next2 : Board → Outcome)
    (hnext : ∀ b, IsSquare n b →
      next2 b = .overflow ∨ (∃ f, next2 b = .done true f) ∨ next2 b = .done false b) :
    ∀ (l : List (Nat × Nat)) {board : Board}, IsSquare n board →
    scanAnchorsOn p ch next2 l board = .overflow ∨
      (∃ f, scanAnchorsOn p ch next2 l board = .done true f) ∨
      scanAnchorsOn p ch next2 l board = .done false board := by
  intro l
  induction l with
  | nil =>
    intro board _
    exact Or.inr (Or.inr rfl)
  | cons a l ih =>
    intro board hb
    obtain ⟨x, y⟩ := a
    obtain ⟨c, hc⟩ := canPlace_total hb p (x : Int) (y : Int)
    cases c with
    | false =>
      simp only [scanAnchorsOn, hc]
      exact ih hb
    | true =>
      obtain ⟨placed, hplaced, hsq, _, _⟩ := place_spec hb p ((x : Int), (y : Int)) ch hc
      simp only at hplaced
      rcases hnext placed hsq with h | ⟨f, h⟩ | h
      · left
        simp only [scanAnchorsOn, hc, hplaced, h]
      · right; left
        exact ⟨f, by simp only [scanAnchorsOn, hc, hplaced, h]⟩
      · have hundo := place_undo hb p (x : Int) (y : Int) ch hc hplaced
        simp only [scanAnchorsOn, hc, hplaced, h, hundo]
        exact ih hb

/-- On a square board a call of `Solve` on a bounded stack does not panic:
the stack ends it, or it returns `true`, or it returns `false` on the
unchanged board. -/
theorem solveOn_total (pieces : List Piece) {n : Nat} :
    ∀ (stack idx : Nat) {board : Board}, IsSquare n board → idx ≤ pieces.length →
    solveOn pieces stack board idx = .overflow ∨
      (∃ f, solveOn pieces stack board idx = .done true f) ∨
      solveOn pieces stack board idx = .done false board := by
  intro stack
  induction stack with
  | zero =>
    intro idx board _ _
    exact Or.inl rfl
  | succ s ih =>
    intro idx board hb hidx
    by_cases he : idx = pieces.length
    · right; left
      exact ⟨board, by simp only [solveOn, he, if_true]⟩
    · have hlt : idx < pieces.length := by omega
      have hp : pieces[idx]? = some pieces[idx] := List.getElem?_eq_getElem hlt
      simp only [solveOn, if_neg he, hp, hb.1]
      exact scanAnchorsOn_total pieces[idx] (label idx) _
        (fun b hsq => ih (idx + 1) hsq (by omega)) (anchors n) hb

/-- A list with a valid placement at scanned anchors and at least as many
pieces as calls of `Solve` fit on the stack: the search reaches the end of
the stack, and the program ends there with a stack overflow. -/
theorem solveOn_overflow {n limit : Nat} {pieces : List Piece} {as : List (Int × Int)}
    (hon : ∀ a ∈ as, AnchorOnBoard n a) (hv : ValidPlacement n pieces as)
    (hl : limit ≤ pieces.length) : SolveOn limit (NewBoard n) pieces 0 = .overflow := by
  unfold SolveOn
  rcases solveOn_total pieces limit 0 (isSquare_newBoard n) (Nat.zero_le _) with h | ⟨f, h⟩ | h
  · exact h
  · have := solveOn_true_depth pieces limit 0 _ f h
    omega
  · exfalso
    have h1 := (solveOn_done pieces limit 0 _ false _ h).2
    obtain ⟨final, h2⟩ := solve_true_of_valid hon hv
    rw [h1] at h2
    cases h2

/-- C1: soundness of `Solve`. The call runs on a stack with room for `limit`
nested calls of `Solve`, for any `limit` up to 4294967277 (the Go runtime's
stack of at most 1 GB holds far fewer). For every edge length `n` and every
piece list, if `Solve(NewBoard(n), pieces, 0)` returns `true` then there is
one anchor per piece such that every translated cell lies on the board, the
cells of different pieces are disjoint, and the final board holds the label
of piece `i` at exactly the cells of piece `i` and the dot at exactly the
other cells. -/
theorem solve_sound (limit n : Nat) (pieces : List Piece) (final : Board)
    (hlimit : limit ≤ 4294967277)
    (h : SolveOn limit (NewBoard n) pieces 0 = .done true final) :
    ∃ as : List (Int × Int), ValidPlacement n pieces as ∧ Drawn n pieces as final := by
  obtain ⟨hlen, hs⟩ := (solveOn_true_iff limit n pieces final).1 h
  obtain ⟨as, _, hv, hd⟩ := solve_true_valid (by omega) hs
  exact ⟨as, hv, hd⟩

/-- C1, witness: the pieces I, O, I, O on the board of edge 4, on a stack
with room for a million calls. -/
theorem solve_sound_witness :
    1000000 ≤ 4294967277 ∧
    SolveOn 1000000 (NewBoard 4)
        [⟨[⟨0, 0⟩, ⟨0, 1⟩, ⟨0, 2⟩, ⟨0, 3⟩]⟩, ⟨[⟨0, 0⟩, ⟨1, 0⟩, ⟨0, 1⟩, ⟨1, 1⟩]⟩,
         ⟨[⟨0, 0⟩, ⟨0, 1⟩, ⟨0, 2⟩, ⟨0, 3⟩]⟩, ⟨[⟨0, 0⟩, ⟨1, 0⟩, ⟨0, 1⟩, ⟨1, 1⟩]⟩] 0
      = .done true [[65, 66, 66, 67], [65, 66, 66, 67], [65, 68, 68, 67], [65, 68, 68, 67]] ∧
    ∃ as : List (Int × Int),
      ValidPlacement 4
        [⟨[⟨0, 0⟩, ⟨0, 1⟩, ⟨0, 2⟩, ⟨0, 3⟩]⟩, ⟨[⟨0, 0⟩, ⟨1, 0⟩, ⟨0, 1⟩, ⟨1, 1⟩]⟩,
         ⟨[⟨0, 0⟩, ⟨0, 1⟩, ⟨0, 2⟩, ⟨0, 3⟩]⟩, ⟨[⟨0, 0⟩, ⟨1, 0⟩, ⟨0, 1⟩, ⟨1, 1⟩]⟩] as ∧
      Drawn 4
        [⟨[⟨0, 0⟩, ⟨0, 1⟩, ⟨0, 2⟩, ⟨0, 3⟩]⟩, ⟨[⟨0, 0⟩, ⟨1, 0⟩, ⟨0, 1⟩, ⟨1, 1⟩]⟩,
         ⟨[⟨0, 0⟩, ⟨0, 1⟩, ⟨0, 2⟩, ⟨0, 3⟩]⟩, ⟨[⟨0, 0⟩, ⟨1, 0⟩, ⟨0, 1⟩, ⟨1, 1⟩]⟩] as
        [[65, 66, 66, 67], [65, 66, 66, 67], [65, 68, 68, 67], [65, 68, 68, 67]] :=
  ⟨by decide, by decide, solve_sound 1000000 4 _ _ (by decide) (by decide)⟩

theorem byte_eq_of_toNat {a b : UInt8} (h : a.toNat = b.toNat) : a = b :=
  UInt8.eq_of_val_eq (Fin.ext h)

theorem byte_cases {b : UInt8} (h : (b.toNat : Int) = 46 ∨ (b.toNat : Int) = 35) :
    b = 46 ∨ b = 35 := by
  rcases h with h | h
  · left; apply byte_eq_of_toNat; have : (46 : UInt8).toNat = 46 := rfl; omega
  · right; apply byte_eq_of_toNat; have : (35 : UInt8).toNat = 35 := rfl; omega

theorem decodeRune_ascii (b : UInt8) (rest : GoString) (h : b.toNat < 128) :
    decodeRune (b :: rest) = ((b.toNat : Int), 1) := by
  simp [decodeRune, h]

theorem decodeRune_high (b : UInt8) (rest : GoString) (h : 128 ≤ b.toNat) :
    128 ≤ (decodeRune (b :: rest)).1 := by
  simp only [decodeRune, runeError]
  split_ifs <;> try omega
  all_goals
    split
    · split_ifs with h6
      · simp only [Bool.and_eq_true, decide_eq_true_eq, isCont] at h6
        simp only
        omega
      · simp
    · simp

theorem decodeRunes_cons_ascii (b : UInt8) (rest : GoString) (h : b.toNat < 128) :
    decodeRunes (b :: rest) = (b.toNat : Int) :: decodeRunes rest := by
  simp [decodeRunes, decodeRunesAux, decodeRune_ascii b rest h]

theorem decodeRunes_head (b : UInt8) (rest : GoString) :
    (decodeRunes (b :: rest))[0]? = some (decodeRune (b :: rest)).1 := by
  simp [decodeRunes, decodeRunesAux]

theorem decodeRunes_good (line : GoString) (h : ∀ b ∈ line, b = 46 ∨ b = 35) :
    decodeRunes line = runesOf line := by
  induction line with
  | nil => rfl
  | cons b rest ih =>
    have hb : b.toNat < 128 := by
      rcases h b (List.mem_cons_self _ _) with h1 | h1 <;> subst h1 <;> decide
    rw [decodeRunes_cons_ascii b rest hb, ih (fun c hc => h c (List.mem_cons_of_mem _ hc))]
    rfl

/-- A line whose runes are all the dot or the hash consists of these two
bytes: a byte of a multi-byte or invalid encoding decodes to a rune of 128
or more. -/
theorem bytes_of_runes (line : GoString) :
    (∀ i, i < line.length → ∃ r, (decodeRunes line)[i]? = some r ∧ (r = 46 ∨ r = 35)) →
    ∀ b ∈ line, b = 46 ∨ b = 35 := by
  induction line with
  | nil => intro _ b hb; cases hb
  | cons b rest ih =>
    intro h
    obtain ⟨r, hr, hr2⟩ := h 0 (by simp)
    rw [decodeRunes_head] at hr
    have hr3 : (decodeRune (b :: rest)).1 = r := Option.some.inj hr
    have hb : b.toNat < 128 := by
      by_contra hcon
      have := decodeRune_high b rest (by omega)
      omega
    rw [decodeRune_ascii b rest hb] at hr3
    have hb2 : b = 46 ∨ b = 35 := byte_cases (by simp only at hr3; omega)
    have hrest : ∀ c ∈ rest, c = 46 ∨ c = 35 := by
      apply ih
      intro i hi
      obtain ⟨r2, h1, h2⟩ := h (i + 1) (by simp; omega)
      rw [decodeRunes_cons_ascii b rest hb] at h1
      exact ⟨r2, by simpa using h1, h2⟩
    intro c hc
    rcases List.mem_cons.1 hc with h1 | h1
    · rw [h1]; exact hb2
    · exact hrest c h1

theorem scanRow_ok {row : List Int} :
    ∀ (xs : List Nat) (hc hc2 : Nat), scanRow row xs hc = .ok hc2 →
    ∀ x ∈ xs, ∃ r, row[x]? = some r ∧ (r = 46 ∨ r = 35) := by
  intro xs
  induction xs with
  | nil => intro _ _ _ x hx; cases hx
  | cons x0 xs ih =>
    intro hc hc2 h x hx
    simp only [scanRow, List.get?_eq_getElem?] at h
    cases hrow : row[x0]? with
    | none => rw [hrow] at h; cases h
    | some r =>
      rw [hrow] at h
      simp only at h
      by_cases hbad : r ≠ 46 ∧ r ≠ 35
      · rw [if_pos hbad] at h; cases h
      · rw [if_neg hbad] at h
        rcases List.mem_cons.1 hx with h1 | h1
        · subst h1
          exact ⟨r, hrow, by omega⟩
        · exact ih _ _ h x h1

theorem goodLine_of_scanRow {line : GoString} (hlen : line.length = 4) {hc hc2 : Nat}
    (h : scanRow (decodeRunes line) [0, 1, 2, 3] hc = .ok hc2) : GoodLine line := by
  refine ⟨hlen, bytes_of_runes line ?_⟩
  intro i hi
  apply scanRow_ok _ _ _ h
  rw [hlen] at hi
  simp only [List.mem_cons, List.mem_singleton, List.mem_nil_iff, or_false]
  omega

theorem goodLine_mem_table {line : GoString} (h : GoodLine line) :
    ∃ t ∈ rowTable, t.bytes = line := by
  obtain ⟨hlen, hb⟩ := h
  match line, hlen with
  | [a, b, c, d], _ =>
    have ha := hb a (by simp)
    have hb2 := hb b (by simp)
    have hc := hb c (by simp)
    have hd := hb d (by simp)
    rcases ha with rfl | rfl <;> rcases hb2 with rfl | rfl <;> rcases hc with rfl | rfl <;>
      rcases hd with rfl | rfl <;> simp [rowTable]

theorem table_goodLine : ∀ t ∈ rowTable, GoodLine t.bytes ∧ runesOf t.bytes = t.runes := by
  intro t ht
  simp only [rowTable, List.mem_cons, List.mem_singleton, List.mem_nil_iff, or_false] at ht
  rcases ht with rfl | rfl | rfl | rfl | rfl | rfl | rfl | rfl | rfl | rfl | rfl | rfl | rfl |
    rfl | rfl | rfl <;> exact ⟨⟨rfl, by decide⟩, rfl⟩

theorem table_scanRow : ∀ t ∈ rowTable, ∀ hc : Nat,
    scanRow t.runes [0, 1, 2, 3] hc = .ok (hc + t.count) := by
  intro t ht hc
  simp only [rowTable, List.mem_cons, List.mem_singleton, List.mem_nil_iff, or_false] at ht
  rcases ht with rfl | rfl | rfl | rfl | rfl | rfl | rfl | rfl | rfl | rfl | rfl | rfl | rfl |
    rfl | rfl | rfl <;> simp [scanRow]

/-- On a block of four table lines the first pass of `ValidateAndNormalize`
succeeds, and the function is the rest of its body on the grid of runes. -/
theorem validate_table (t0 t1 t2 t3 : Row) (h0 : t0 ∈ rowTable) (h1 : t1 ∈ rowTable)
    (h2 : t2 ∈ rowTable) (h3 : t3 ∈ rowTable) :
    ValidateAndNormalize [t0.bytes, t1.bytes, t2.bytes, t3.bytes]
      = finishBlock [t0.runes, t1.runes, t2.runes, t3.runes]
          (t0.count + t1.count + t2.count + t3.count) := by
  have d0 : decodeRunes t0.bytes = t0.runes := by
    rw [decodeRunes_good _ (table_goodLine t0 h0).1.2, (table_goodLine t0 h0).2]
  have d1 : decodeRunes t1.bytes = t1.runes := by
    rw [decodeRunes_good _ (table_goodLine t1 h1).1.2, (table_goodLine t1 h1).2]
  have d2 : decodeRunes t2.bytes = t2.runes := by
    rw [decodeRunes_good _ (table_goodLine t2 h2).1.2, (table_goodLine t2 h2).2]
  have d3 : decodeRunes t3.bytes = t3.runes := by
    rw [decodeRunes_good _ (table_goodLine t3 h3).1.2, (table_goodLine t3 h3).2]
  simp [ValidateAndNormalize, scanBlock, (table_goodLine t0 h0).1.1, (table_goodLine t1 h1).1.1,
    (table_goodLine t2 h2).1.1, (table_goodLine t3 h3).1.1, d0, d1, d2, d3,
    table_scanRow t0 h0, table_scanRow t1 h1, table_scanRow t2 h2, table_scanRow t3 h3]

/-- A block that `ValidateAndNormalize` accepts is made of four table lines. -/
theorem table_of_validate {block : List GoString} {p : Piece}
    (h : ValidateAndNormalize block = .ok p) :
    ∃ t0 ∈ rowTable, ∃ t1 ∈ rowTable, ∃ t2 ∈ rowTable, ∃ t3 ∈ rowTable,
      block = [t0.bytes, t1.bytes, t2.bytes, t3.bytes] := by
  unfold ValidateAndNormalize at h
  by_cases hlen : block.length ≠ 4
  · rw [if_pos hlen] at h; cases h
  · rw [if_neg hlen] at h
    match block, not_not.1 hlen with
    | [l0, l1, l2, l3], _ =>
      simp only [scanBlock, List.get?_eq_getElem?, List.getElem?_cons_zero,
        List.getElem?_cons_succ] at h
      by_cases e0 : l0.length ≠ 4
      · simp [e0] at h
      rw [if_neg e0] at h
      cases s0 : scanRow (decodeRunes l0) [0, 1, 2, 3] 0 with
      | error e => simp [s0] at h
      | ok c0 =>
        simp only [s0] at h
        by_cases e1 : l1.length ≠ 4
        · simp [e1] at h
        rw [if_neg e1] at h
        cases s1 : scanRow (decodeRunes l1) [0, 1, 2, 3] c0 with
        | error e => simp [s1] at h
        | ok c1 =>
          simp only [s1] at h
          by_cases e2 : l2.length ≠ 4
          · simp [e2] at h
          rw [if_neg e2] at h
          cases s2 : scanRow (decodeRunes l2) [0, 1, 2, 3] c1 with
          | error e => simp [s2] at h
          | ok c2 =>
            simp only [s2] at h
            by_cases e3 : l3.length ≠ 4
            · simp [e3] at h
            rw [if_neg e3] at h
            cases s3 : scanRow (decodeRunes l3) [0, 1, 2, 3] c2 with
            | error e => simp [s3] at h
            | ok c3 =>
              obtain ⟨t0, m0, b0⟩ := goodLine_mem_table (goodLine_of_scanRow (not_not.1 e0) s0)
              obtain ⟨t1, m1, b1⟩ := goodLine_mem_table (goodLine_of_scanRow (not_not.1 e1) s1)
              obtain ⟨t2, m2, b2⟩ := goodLine_mem_table (goodLine_of_scanRow (not_not.1 e2) s2)
              obtain ⟨t3, m3, b3⟩ := goodLine_mem_table (goodLine_of_scanRow (not_not.1 e3) s3)
              exact ⟨t0, m0, t1, m1, t2, m2, t3, m3, by rw [b0, b1, b2, b3]⟩

set_option maxRecDepth 1000000 in
/-- The blocks of four filled cells with first lines `....` and `....`, by
evaluation. -/
theorem table_facts_0_0 :
    FactsFromPair ⟨[46, 46, 46, 46], [46, 46, 46, 46], 0, []⟩
      ⟨[46, 46, 46, 46], [46, 46, 46, 46], 0, []⟩ := by
  decide!

set_option maxRecDepth 1000000 in
/-- The blocks of four filled cells with first lines `....` and `...#`, by
evaluation. -/
theorem table_facts_0_1 :
    FactsFromPair ⟨[46, 46, 46, 46], [46, 46, 46, 46], 0, []⟩
      ⟨[46, 46, 46, 35], [46, 46, 46, 35], 1, [3]⟩ := by
  decide!

set_option maxRecDepth 1000000 in
/-- The blocks of four filled cells with first lines `....` and `..#.`, by
evaluation. -/
theorem table_facts_0_2 :
    FactsFromPair ⟨[46, 46, 46, 46], [46, 46, 46, 46], 0, []⟩
      ⟨[46, 46, 35, 46], [46, 46, 35, 46], 1, [2]⟩ := by
  decide!

set_option maxRecDepth 1000000 in
/-- The blocks of four filled cells with first lines `....` and `..##`, by
evaluation. -/
theorem table_facts_0_3 :
    FactsFromPair ⟨[46, 46, 46, 46], [46, 46, 46, 46], 0, []⟩
      ⟨[46, 46, 35, 35], [46, 46, 35, 35], 2, [2, 3]⟩ := by
  decide!

set_option maxRecDepth 1000000 in
/-- The blocks of four filled cells with first lines `....` and `.#..`, by
evaluation. -/
theorem table_facts_0_4 :
    FactsFromPair ⟨[46, 46, 46, 46], [46, 46, 46, 46], 0, []⟩
      ⟨[46, 35, 46, 46], [46, 35, 46, 46], 1, [1]⟩ := by
  decide!

set_option maxRecDepth 1000000 in
/-- The blocks of four filled cells with first lines `....` and `.#.#`, by
evaluation. -/
theorem table_facts_0_5 :
    FactsFromPair ⟨[46, 46, 46, 46], [46, 46, 46, 46], 0, []⟩
      ⟨[46, 35, 46, 35], [46, 35, 46, 35], 2, [1, 3]⟩ := by
  decide!

set_option maxRecDepth 1000000 in
/-- The blocks of four filled cells with first lines `....` and `.##.`, by
evaluation. -/
theorem table_facts_0_6 :
    FactsFromPair ⟨[46, 46, 46, 46], [46, 46, 46, 46], 0, []⟩
      ⟨[46, 35, 35, 46], [46, 35, 35, 46], 2, [1, 2]⟩ := by
  decide!

set_option maxRecDepth 1000000 in
/-- The blocks of four filled cells with first lines `....` and `.###`, by
evaluation. -/
theorem table_facts_0_7 :
    FactsFromPair ⟨[46, 46, 46, 46], [46, 46, 46, 46], 0, []⟩
      ⟨[46, 35, 35, 35], [46, 35, 35, 35], 3, [1, 2, 3]⟩ := by
  decide!

set_option maxRecDepth 1000000 in
/-- The blocks of four filled cells with first lines `....` and `#...`, by
evaluation. -/
theorem table_facts_0_8 :
    FactsFromPair ⟨[46, 46, 46, 46], [46, 46, 46, 46], 0, []⟩
      ⟨[35, 46, 46, 46], [35, 46, 46, 46], 1, [0]⟩ := by
  decide!

set_option maxRecDepth 1000000 in
/-- The blocks of four filled cells with first lines `....` and `#..#`, by
evaluation. -/
theorem table_facts_0_9 :
    FactsFromPair ⟨[46, 46, 46, 46], [46, 46, 46, 46], 0, []⟩
      ⟨[35, 46, 46, 35], [35, 46, 46, 35], 2, [0, 3]⟩ := by
  decide!

set_option maxRecDepth 1000000 in
/-- The blocks of four filled cells with first lines `....` and `#.#.`, by
evaluation. -/
theorem table_facts_0_10 :
    FactsFromPair ⟨[46, 46, 46, 46], [46, 46, 46, 46], 0, []⟩
      ⟨[35, 46, 35, 46], [35, 46, 35, 46], 2, [0, 2]⟩ := by
  decide!

set_option maxRecDepth 1000000 in
/-- The blocks of four filled cells with first lines `....` and `#.##`, by
evaluation. -/
theorem table_facts_0_11 :
    FactsFromPair ⟨[46, 46, 46, 46], [46, 46, 46, 46], 0, []⟩
      ⟨[35, 46, 35, 35], [35, 46, 35, 35], 3, [0, 2, 3]⟩ := by
  decide!

set_option maxRecDepth 1000000 in
/-- The blocks of four filled cells with first lines `....` and `##..`, by
evaluation. -/
theorem table_facts_0_12 :
    FactsFromPair ⟨[46, 46, 46, 46], [46, 46, 46, 46], 0, []⟩
      ⟨[35, 35, 46, 46], [35, 35, 46, 46], 2, [0, 1]⟩ := by
  decide!

set_option maxRecDepth 1000000 in
/-- The blocks of four filled cells with first lines `....` and `##.#`, by
evaluation. -/
theorem table_facts_0_13 :
    FactsFromPair ⟨[46, 46, 46, 46], [46, 46, 46, 46], 0, []⟩
      ⟨[35, 35, 46, 35], [35, 35, 46, 35], 3, [0, 1, 3]⟩ := by
  decide!

set_option maxRecDepth 1000000 in
/-- The blocks of four filled cells with first lines `....` and `###.`, by
evaluation. -/
theorem table_facts_0_14 :
    FactsFromPair ⟨[46, 46, 46, 46], [46, 46, 46, 46], 0, []⟩
      ⟨[35, 35, 35, 46], [35, 35, 35, 46], 3, [0, 1, 2]⟩ := by
  decide!

set_option maxRecDepth 1000000 in
/-- The blocks of four filled cells with first lines `....` and `####`, by
evaluation. -/
theorem table_facts_0_15 :
    FactsFromPair ⟨[46, 46, 46, 46], [46, 46, 46, 46], 0, []⟩
      ⟨[35, 35, 35, 35], [35, 35, 35, 35], 4, [0, 1, 2, 3]⟩ := by
  decide!

/-- The blocks of four filled cells with first line `....`. -/
theorem table_facts_0 : FactsFrom ⟨[46, 46, 46, 46], [46, 46, 46, 46], 0, []⟩ := by
  intro t1 h
  simp only [rowTable, List.mem_cons, List.mem_singleton, List.mem_nil_iff, or_false] at h
  rcases h with rfl | rfl | rfl | rfl | rfl | rfl | rfl | rfl | rfl | rfl | rfl | rfl | rfl |
    rfl | rfl | rfl
  · exact table_facts_0_0
  · exact table_facts_0_1
  · exact table_facts_0_2
  · exact table_facts_0_3
  · exact table_facts_0_4
  · exact table_facts_0_5
  · exact table_facts_0_6
  · exact table_facts_0_7
  · exact table_facts_0_8
  · exact table_facts_0_9
  · exact table_facts_0_10
  · exact table_facts_0_11
  · exact table_facts_0_12
  · exact table_facts_0_13
  · exact table_facts_0_14
  · exact table_facts_0_15

set_option maxRecDepth 1000000 in
/-- The blocks of four filled cells with first lines `...#` and `....`, by
evaluation. -/
theorem table_facts_1_0 :
    FactsFromPair ⟨[46, 46, 46, 35], [46, 46, 46, 35], 1, [3]⟩
      ⟨[46, 46, 46, 46], [46, 46, 46, 46], 0, []⟩ := by
  decide!

set_option maxRecDepth 1000000 in
/-- The blocks of four filled cells with first lines `...#` and `...#`, by
evaluation. -/
theorem table_facts_1_1 :
    FactsFromPair ⟨[46, 46, 46, 35], [46, 46, 46, 35], 1, [3]⟩
      ⟨[46, 46, 46, 35], [46, 46, 46, 35], 1, [3]⟩ := by
  decide!

set_option maxRecDepth 1000000 in
/-- The blocks of four filled cells with first lines `...#` and `..#.`, by
evaluation. -/
theorem table_facts_1_2 :
    FactsFromPair ⟨[46, 46, 46, 35], [46, 46, 46, 35], 1, [3]⟩
      ⟨[46, 46, 35, 46], [46, 46, 35, 46], 1, [2]⟩ := by
  decide!

set_option maxRecDepth 1000000 in
/-- The blocks of four filled cells with first lines `...#` and `..##`, by
evaluation. -/
theorem table_facts_1_3 :
    FactsFromPair ⟨[46, 46, 46, 35], [46, 46, 46, 35], 1, [3]⟩
      ⟨[46, 46, 35, 35], [46, 46, 35, 35], 2, [2, 3]⟩ := by
  decide!

set_option maxRecDepth 1000000 in
/-- The blocks of four filled cells with first lines `...#` and `.#..`, by
evaluation. -/
theorem table_facts_1_4 :
    FactsFromPair ⟨[46, 46, 46, 35], [46, 46, 46, 35], 1, [3]⟩
      ⟨[46, 35, 46, 46], [46, 35, 46, 46], 1, [1]⟩ := by
  decide!

set_option maxRecDepth 1000000 in
/-- The blocks of four filled cells with first lines `...#` and `.#.#`, by
evaluation. -/
theorem table_facts_1_5 :
    FactsFromPair ⟨[46, 46, 46, 35], [46, 46, 46, 35], 1, [3]⟩
      ⟨[46, 35, 46, 35], [46, 35, 46, 35], 2, [1, 3]⟩ := by
  decide!

set_option maxRecDepth 1000000 in
/-- The blocks of four filled cells with first lines `...#` and `.##.`, by
evaluation. -/
theorem table_facts_1_6 :
    FactsFromPair ⟨[46, 46, 46, 35], [46, 46, 46, 35], 1, [3]⟩
      ⟨[46, 35, 35, 46], [46, 35, 35, 46], 2, [1, 2]⟩ := by
  decide!

set_option maxRecDepth 1000000 in
/-- The blocks of four filled cells with first lines `...#` and `.###`, by
evaluation. -/
theorem table_facts_1_7 :
    FactsFromPair ⟨[46, 46, 46, 35], [46, 46, 46, 35], 1, [3]⟩
      ⟨[46, 35, 35, 35], [46, 35, 35, 35], 3, [1, 2, 3]⟩ := by
  decide!

set_option maxRecDepth 1000000 in
/-- The blocks of four filled cells with first lines `...#` and `#...`, by
evaluation. -/
theorem table_facts_1_8 :
    FactsFromPair ⟨[46, 46, 46, 35], [46, 46, 46, 35], 1, [3]⟩
      ⟨[35, 46, 46, 46], [35, 46, 46, 46], 1, [0]⟩ := by
  decide!

set_option maxRecDepth 1000000 in
/-- The blocks of four filled cells with first lines `...#` and `#..#`, by
evaluation. -/
theorem table_facts_1_9 :
    FactsFromPair ⟨[46, 46, 46, 35], [46, 46, 46, 35], 1, [3]⟩
      ⟨[35, 46, 46, 35], [35, 46, 46, 35], 2, [0, 3]⟩ := by
  decide!

set_option maxRecDepth 1000000 in
/-- The blocks of four filled cells with first lines `...#` and `#.#.`, by
evaluation. -/
theorem table_facts_1_10 :
    FactsFromPair ⟨[46, 46, 46, 35], [46, 46, 46, 35], 1, [3]⟩
      ⟨[35, 46, 35, 46], [35, 46, 35, 46], 2, [0, 2]⟩ := by
  decide!

set_option maxRecDepth 1000000 in
/-- The blocks of four filled cells with first lines `...#` and `#.##`, by
evaluation. -/
theorem table_facts_1_11 :
    FactsFromPair ⟨[46, 46, 46, 35], [46, 46, 46, 35], 1, [3]⟩
      ⟨[35, 46, 35, 35], [35, 46, 35, 35], 3, [0, 2, 3]⟩ := by
  decide!

set_option maxRecDepth 1000000 in
/-- The blocks of four filled cells with first lines `...#` and `##..`, by
evaluation. -/
theorem table_facts_1_12 :
    FactsFromPair ⟨[46, 46, 46, 35], [46, 46, 46, 35], 1, [3]⟩
      ⟨[35, 35, 46, 46], [35, 35, 46, 46], 2, [0, 1]⟩ := by
  decide!

set_option maxRecDepth 1000000 in
/-- The blocks of four filled cells with first lines `...#` and `##.#`, by
evaluation. -/
theorem table_facts_1_13 :
    FactsFromPair ⟨[46, 46, 46, 35], [46, 46, 46, 35], 1, [3]⟩
      ⟨[35, 35, 46, 35], [35, 35, 46, 35], 3, [0, 1, 3]⟩ := by
  decide!

set_option maxRecDepth 1000000 in
/-- The blocks of four filled cells with first lines `...#` and `###.`, by
evaluation. -/
theorem table_facts_1_14 :
    FactsFromPair ⟨[46, 46, 46, 35], [46, 46, 46, 35], 1, [3]⟩
      ⟨[35, 35, 35, 46], [35, 35, 35, 46], 3, [0, 1, 2]⟩ := by
  decide!

set_option maxRecDepth 1000000 in
/-- The blocks of four filled cells with first lines `...#` and `####`, by
evaluation. -/
theorem table_facts_1_15 :
    FactsFromPair ⟨[46, 46, 46, 35], [46, 46, 46, 35], 1, [3]⟩
      ⟨[35, 35, 35, 35], [35, 35, 35, 35], 4, [0, 1, 2, 3]⟩ := by
  decide!

/-- The blocks of four filled cells with first line `...#`. -/
theorem table_facts_1 : FactsFrom ⟨[46, 46, 46, 35], [46, 46, 46, 35], 1, [3]⟩ := by
  intro t1 h
  simp only [rowTable, List.mem_cons, List.mem_singleton, List.mem_nil_iff, or_false] at h
  rcases h with rfl | rfl | rfl | rfl | rfl | rfl | rfl | rfl | rfl | rfl | rfl | rfl | rfl |
    rfl | rfl | rfl
  · exact table_facts_1_0
  · exact table_facts_1_1
  · exact table_facts_1_2
  · exact table_facts_1_3
  · exact table_facts_1_4
  · exact table_facts_1_5
  · exact table_facts_1_6
  · exact table_facts_1_7
  · exact table_facts_1_8
  · exact table_facts_1_9
  · exact table_facts_1_10
  · exact table_facts_1_11
  · exact table_facts_1_12
  · exact table_facts_1_13
  · exact table_facts_1_14
  · exact table_facts_1_15

set_option maxRecDepth 1000000 in
/-- The blocks of four filled cells with first lines `..#.` and `....`, by
evaluation. -/
theorem table_facts_2_0 :
    FactsFromPair ⟨[46, 46, 35, 46], [46, 46, 35, 46], 1, [2]⟩
      ⟨[46, 46, 46, 46], [46, 46, 46, 46], 0, []⟩ := by
  decide!

set_option maxRecDepth 1000000 in
/-- The blocks of four filled cells with first lines `..#.` and `...#`, by
evaluation. -/
theorem table_facts_2_1 :
    FactsFromPair ⟨[46, 46, 35, 46], [46, 46, 35, 46], 1, [2]⟩
      ⟨[46, 46, 46, 35], [46, 46, 46, 35], 1, [3]⟩ := by
  decide!

set_option maxRecDepth 1000000 in
/-- The blocks of four filled cells with first lines `..#.` and `..#.`, by
evaluation. -/
theorem table_facts_2_2 :
    FactsFromPair ⟨[46, 46, 35, 46], [46, 46, 35, 46], 1, [2]⟩
      ⟨[46, 46, 35, 46], [46, 46, 35, 46], 1, [2]⟩ := by
  decide!

set_option maxRecDepth 1000000 in
/-- The blocks of four filled cells with first lines `..#.` and `..##`, by
evaluation. -/
theorem table_facts_2_3 :
    FactsFromPair ⟨[46, 46, 35, 46], [46, 46, 35, 46], 1, [2]⟩
      ⟨[46, 46, 35, 35], [46, 46, 35, 35], 2, [2, 3]⟩ := by
  decide!

set_option maxRecDepth 1000000 in
/-- The blocks of four filled cells with first lines `..#.` and `.#..`, by
evaluation. -/
theorem table_facts_2_4 :
    FactsFromPair ⟨[46, 46, 35, 46], [46, 46, 35, 46], 1, [2]⟩
      ⟨[46, 35, 46, 46], [46, 35, 46, 46], 1, [1]⟩ := by
  decide!

set_option maxRecDepth 1000000 in
/-- The blocks of four filled cells with first lines `..#.` and `.#.#`, by
evaluation. -/
theorem table_facts_2_5 :
    FactsFromPair ⟨[46, 46, 35, 46], [46, 46, 35, 46], 1, [2]⟩
      ⟨[46, 35, 46, 35], [46, 35, 46, 35], 2, [1, 3]⟩ := by
  decide!

set_option maxRecDepth 1000000 in
/-- The blocks of four filled cells with first lines `..#.` and `.##.`, by
evaluation. -/
theorem table_facts_2_6 :
    FactsFromPair ⟨[46, 46, 35, 46], [46, 46, 35, 46], 1, [2]⟩
      ⟨[46, 35, 35, 46], [46, 35, 35, 46], 2, [1, 2]⟩ := by
  decide!

set_option maxRecDepth 1000000 in
/-- The blocks of four filled cells with first lines `..#.` and `.###`, by
evaluation. -/
theorem table_facts_2_7 :
    FactsFromPair ⟨[46, 46, 35, 46], [46, 46, 35, 46], 1, [2]⟩
      ⟨[46, 35, 35, 35], [46, 35, 35, 35], 3, [1, 2, 3]⟩ := by
  decide!

set_option maxRecDepth 1000000 in
/-- The blocks of four filled cells with first lines `..#.` and `#...`, by
evaluation. -/
theorem table_facts_2_8 :
    FactsFromPair ⟨[46, 46, 35, 46], [46, 46, 35, 46], 1, [2]⟩
      ⟨[35, 46, 46, 46], [35, 46, 46, 46], 1, [0]⟩ := by
  decide!

set_option maxRecDepth 1000000 in
/-- The blocks of four filled cells with first lines `..#.` and `#..#`, by
evaluation. -/
theorem table_facts_2_9 :
    FactsFromPair ⟨[46, 46, 35, 46], [46, 46, 35, 46], 1, [2]⟩
      ⟨[35, 46, 46, 35], [35, 46, 46, 35], 2, [0, 3]⟩ := by
  decide!

set_option maxRecDepth 1000000 in
/-- The blocks of four filled cells with first lines `..#.` and `#.#.`, by
evaluation. -/
theorem table_facts_2_10 :
    FactsFromPair ⟨[46, 46, 35, 46], [46, 46, 35, 46], 1, [2]⟩
      ⟨[35, 46, 35, 46], [35, 46, 35, 46], 2, [0, 2]⟩ := by
  decide!

set_option maxRecDepth 1000000 in
/-- The blocks of four filled cells with first lines `..#.` and `#.##`, by
evaluation. -/
theorem table_facts_2_11 :
    FactsFromPair ⟨[46, 46, 35, 46], [46, 46, 35, 46], 1, [2]⟩
      ⟨[35, 46, 35, 35], [35, 46, 35, 35], 3, [0, 2, 3]⟩ := by
  decide!

set_option maxRecDepth 1000000 in
/-- The blocks of four filled cells with first lines `..#.` and `##..`, by
evaluation. -/
theorem table_facts_2_12 :
    FactsFromPair ⟨[46, 46, 35, 46], [46, 46, 35, 46], 1, [2]⟩
      ⟨[35, 35, 46, 46], [35, 35, 46, 46], 2, [0, 1]⟩ := by
  decide!

set_option maxRecDepth 1000000 in
/-- The blocks of four filled cells with first lines `..#.` and `##.#`, by
evaluation. -/
theorem table_facts_2_13 :
    FactsFromPair ⟨[46, 46, 35, 46], [46, 46, 35, 46], 1, [2]⟩
      ⟨[35, 35, 46, 35], [35, 35, 46, 35], 3, [0, 1, 3]⟩ := by
  decide!

set_option maxRecDepth 1000000 in
/-- The blocks of four filled cells with first lines `..#.` and `###.`, by
evaluation. -/
theorem table_facts_2_14 :
    FactsFromPair ⟨[46, 46, 35, 46], [46, 46, 35, 46], 1, [2]⟩
      ⟨[35, 35, 35, 46], [35, 35, 35, 46], 3, [0, 1, 2]⟩ := by
  decide!

set_option maxRecDepth 1000000 in
/-- The blocks of four filled cells with first lines `..#.` and `####`, by
evaluation. -/
theorem table_facts_2_15 :
    FactsFromPair ⟨[46, 46, 35, 46], [46, 46, 35, 46], 1, [2]⟩
      ⟨[35, 35, 35, 35], [35, 35, 35, 35], 4, [0, 1, 2, 3]⟩ := by
  decide!

/-- The blocks of four filled cells with first line `..#.`. -/
theorem table_facts_2 : FactsFrom ⟨[46, 46, 35, 46], [46, 46, 35, 46], 1, [2]⟩ := by
  intro t1 h
  simp only [rowTable, List.mem_cons, List.mem_singleton, List.mem_nil_iff, or_false] at h
  rcases h with rfl | rfl | rfl | rfl | rfl | rfl | rfl | rfl | rfl | rfl | rfl | rfl | rfl |
    rfl | rfl | rfl
  · exact table_facts_2_0
  · exact table_facts_2_1
  · exact table_facts_2_2
  · exact table_facts_2_3
  · exact table_facts_2_4
  · exact table_facts_2_5
  · exact table_facts_2_6
  · exact table_facts_2_7
  · exact table_facts_2_8
  · exact table_facts_2_9
  · exact table_facts_2_10
  · exact table_facts_2_11
  · exact table_facts_2_12
  · exact table_facts_2_13
  · exact table_facts_2_14
  · exact table_facts_2_15

set_option maxRecDepth 1000000 in
/-- The blocks of four filled cells with first line `..##`, by evaluation. -/
theorem table_facts_3 : FactsFrom ⟨[46, 46, 35, 35], [46, 46, 35, 35], 2, [2, 3]⟩ := by
  decide!

set_option maxRecDepth 1000000 in
/-- The blocks of four filled cells with first lines `.#..` and `....`, by
evaluation. -/
theorem table_facts_4_0 :
    FactsFromPair ⟨[46, 35, 46, 46], [46, 35, 46, 46], 1, [1]⟩
      ⟨[46, 46, 46, 46], [46, 46, 46, 46], 0, []⟩ := by
  decide!

set_option maxRecDepth 1000000 in
/-- The blocks of four filled cells with first lines `.#..` and `...#`, by
evaluation. -/
theorem table_facts_4_1 :
    FactsFromPair ⟨[46, 35, 46, 46], [46, 35, 46, 46], 1, [1]⟩
      ⟨[46, 46, 46, 35], [46, 46, 46, 35], 1, [3]⟩ := by
  decide!

set_option maxRecDepth 1000000 in
/-- The blocks of four filled cells with first lines `.#..` and `..#.`, by
evaluation. -/
theorem table_facts_4_2 :
    FactsFromPair ⟨[46, 35, 46, 46], [46, 35, 46, 46], 1, [1]⟩
      ⟨[46, 46, 35, 46], [46, 46, 35, 46], 1, [2]⟩ := by
  decide!

set_option maxRecDepth 1000000 in
/-- The blocks of four filled cells with first lines `.#..` and `..##`, by
evaluation. -/
theorem table_facts_4_3 :
    FactsFromPair ⟨[46, 35, 46, 46], [46, 35, 46, 46], 1, [1]⟩
      ⟨[46, 46, 35, 35], [46, 46, 35, 35], 2, [2, 3]⟩ := by
  decide!

set_option maxRecDepth 1000000 in
/-- The blocks of four filled cells with first lines `.#..` and `.#..`, by
evaluation. -/
theorem table_facts_4_4 :
    FactsFromPair ⟨[46, 35, 46, 46], [46, 35, 46, 46], 1, [1]⟩
      ⟨[46, 35, 46, 46], [46, 35, 46, 46], 1, [1]⟩ := by
  decide!

set_option maxRecDepth 1000000 in
/-- The blocks of four filled cells with first lines `.#..` and `.#.#`, by
evaluation. -/
theorem table_facts_4_5 :
    FactsFromPair ⟨[46, 35, 46, 46], [46, 35, 46, 46], 1, [1]⟩
      ⟨[46, 35, 46, 35], [46, 35, 46, 35], 2, [1, 3]⟩ := by
  decide!

set_option maxRecDepth 1000000 in
/-- The blocks of four filled cells with first lines `.#..` and `.##.`, by
evaluation. -/
theorem table_facts_4_6 :
    FactsFromPair ⟨[46, 35, 46, 46], [46, 35, 46, 46], 1, [1]⟩
      ⟨[46, 35, 35, 46], [46, 35, 35, 46], 2, [1, 2]⟩ := by
  decide!

set_option maxRecDepth 1000000 in
/-- The blocks of four filled cells with first lines `.#..` and `.###`, by
evaluation. -/
theorem table_facts_4_7 :
    FactsFromPair ⟨[46, 35, 46, 46], [46, 35, 46, 46], 1, [1]⟩
      ⟨[46, 35, 35, 35], [46, 35, 35, 35], 3, [1, 2, 3]⟩ := by
  decide!

set_option maxRecDepth 1000000 in
/-- The blocks of four filled cells with first lines `.#..` and `#...`, by
evaluation. -/
theorem table_facts_4_8 :
    FactsFromPair ⟨[46, 35, 46, 46], [46, 35, 46, 46], 1, [1]⟩
      ⟨[35, 46, 46, 46], [35, 46, 46, 46], 1, [0]⟩ := by
  decide!

set_option maxRecDepth 1000000 in
/-- The blocks of four filled cells with first lines `.#..` and `#..#`, by
evaluation. -/
theorem table_facts_4_9 :
    FactsFromPair ⟨[46, 35, 46, 46], [46, 35, 46, 46], 1, [1]⟩
      ⟨[35, 46, 46, 35], [35, 46, 46, 35], 2, [0, 3]⟩ := by
  decide!

set_option maxRecDepth 1000000 in
/-- The blocks of four filled cells with first lines `.#..` and `#.#.`, by
evaluation. -/
theorem table_facts_4_10 :
    FactsFromPair ⟨[46, 35, 46, 46], [46, 35, 46, 46], 1, [1]⟩
      ⟨[35, 46, 35, 46], [35, 46, 35, 46], 2, [0, 2]⟩ := by
  decide!

set_option maxRecDepth 1000000 in
/-- The blocks of four filled cells with first lines `.#..` and `#.##`, by
evaluation. -/
theorem table_facts_4_11 :
    FactsFromPair ⟨[46, 35, 46, 46], [46, 35, 46, 46], 1, [1]⟩
      ⟨[35, 46, 35, 35], [35, 46, 35, 35], 3, [0, 2, 3]⟩ := by
  decide!

set_option maxRecDepth 1000000 in
/-- The blocks of four filled cells with first lines `.#..` and `##..`, by
evaluation. -/
theorem table_facts_4_12 :
    FactsFromPair ⟨[46, 35, 46, 46], [46, 35, 46, 46], 1, [1]⟩
      ⟨[35, 35, 46, 46], [35, 35, 46, 46], 2, [0, 1]⟩ := by
  decide!

set_option maxRecDepth 1000000 in
/-- The blocks of four filled cells with first lines `.#..` and `##.#`, by
evaluation. -/
theorem table_facts_4_13 :
    FactsFromPair ⟨[46, 35, 46, 46], [46, 35, 46, 46], 1, [1]⟩
      ⟨[35, 35, 46, 35], [35, 35, 46, 35], 3, [0, 1, 3]⟩ := by
  decide!

set_option maxRecDepth 1000000 in
/-- The blocks of four filled cells with first lines `.#..` and `###.`, by
evaluation. -/
theorem table_facts_4_14 :
    FactsFromPair ⟨[46, 35, 46, 46], [46, 35, 46, 46], 1, [1]⟩
      ⟨[35, 35, 35, 46], [35, 35, 35, 46], 3, [0, 1, 2]⟩ := by
  decide!

set_option maxRecDepth 1000000 in
/-- The blocks of four filled cells with first lines `.#..` and `####`, by
evaluation. -/
theorem table_facts_4_15 :
    FactsFromPair ⟨[46, 35, 46, 46], [46, 35, 46, 46], 1, [1]⟩
      ⟨[35, 35, 35, 35], [35, 35, 35, 35], 4, [0, 1, 2, 3]⟩ := by
  decide!

/-- The blocks of four filled cells with first line `.#..`. -/
theorem table_facts_4 : FactsFrom ⟨[46, 35, 46, 46], [46, 35, 46, 46], 1, [1]⟩ := by
  intro t1 h
  simp only [rowTable, List.mem_cons, List.mem_singleton, List.mem_nil_iff, or_false] at h
  rcases h with rfl | rfl | rfl | rfl | rfl | rfl | rfl | rfl | rfl | rfl | rfl | rfl | rfl |
    rfl | rfl | rfl
  · exact table_facts_4_0
  · exact table_facts_4_1
  · exact table_facts_4_2
  · exact table_facts_4_3
  · exact table_facts_4_4
  · exact table_facts_4_5
  · exact table_facts_4_6
  · exact table_facts_4_7
  · exact table_facts_4_8
  · exact table_facts_4_9
  · exact table_facts_4_10
  · exact table_facts_4_11
  · exact table_facts_4_12
  · exact table_facts_4_13
  · exact table_facts_4_14
  · exact table_facts_4_15

set_option maxRecDepth 1000000 in
/-- The blocks of four filled cells with first line `.#.#`, by evaluation. -/
theorem table_facts_5 : FactsFrom ⟨[46, 35, 46, 35], [46, 35, 46, 35], 2, [1, 3]⟩ := by
  decide!

set_option maxRecDepth 1000000 in
/-- The blocks of four filled cells with first line `.##.`, by evaluation. -/
theorem table_facts_6 : FactsFrom ⟨[46, 35, 35, 46], [46, 35, 35, 46], 2, [1, 2]⟩ := by
  decide!

set_option maxRecDepth 1000000 in
/-- The blocks of four filled cells with first line `.###`, by evaluation. -/
theorem table_facts_7 : FactsFrom ⟨[46, 35, 35, 35], [46, 35, 35, 35], 3, [1, 2, 3]⟩ := by
  decide!

set_option maxRecDepth 1000000 in
/-- The blocks of four filled cells with first lines `#...` and `....`, by
evaluation. -/
theorem table_facts_8_0 :
    FactsFromPair ⟨[35, 46, 46, 46], [35, 46, 46, 46], 1, [0]⟩
      ⟨[46, 46, 46, 46], [46, 46, 46, 46], 0, []⟩ := by
  decide!

set_option maxRecDepth 1000000 in
/-- The blocks of four filled cells with first lines `#...` and `...#`, by
evaluation. -/
theorem table_facts_8_1 :
    FactsFromPair ⟨[35, 46, 46, 46], [35, 46, 46, 46], 1, [0]⟩
      ⟨[46, 46, 46, 35], [46, 46, 46, 35], 1, [3]⟩ := by
  decide!

set_option maxRecDepth 1000000 in
/-- The blocks of four filled cells with first lines `#...` and `..#.`, by
evaluation. -/
theorem table_facts_8_2 :
    FactsFromPair ⟨[35, 46, 46, 46], [35, 46, 46, 46], 1, [0]⟩
      ⟨[46, 46, 35, 46], [46, 46, 35, 46], 1, [2]⟩ := by
  decide!

set_option maxRecDepth 1000000 in
/-- The blocks of four filled cells with first lines `#...` and `..##`, by
evaluation. -/
theorem table_facts_8_3 :
    FactsFromPair ⟨[35, 46, 46, 46], [35, 46, 46, 46], 1, [0]⟩
      ⟨[46, 46, 35, 35], [46, 46, 35, 35], 2, [2, 3]⟩ := by
  decide!

set_option maxRecDepth 1000000 in
/-- The blocks of four filled cells with first lines `#...` and `.#..`, by
evaluation. -/
theorem table_facts_8_4 :
    FactsFromPair ⟨[35, 46, 46, 46], [35, 46, 46, 46], 1, [0]⟩
      ⟨[46, 35, 46, 46], [46, 35, 46, 46], 1, [1]⟩ := by
  decide!

set_option maxRecDepth 1000000 in
/-- The blocks of four filled cells with first lines `#...` and `.#.#`, by
evaluation. -/
theorem table_facts_8_5 :
    FactsFromPair ⟨[35, 46, 46, 46], [35, 46, 46, 46], 1, [0]⟩
      ⟨[46, 35, 46, 35], [46, 35, 46, 35], 2, [1, 3]⟩ := by
  decide!

set_option maxRecDepth 1000000 in
/-- The blocks of four filled cells with first lines `#...` and `.##.`, by
evaluation. -/
theorem table_facts_8_6 :
    FactsFromPair ⟨[35, 46, 46, 46], [35, 46, 46, 46], 1, [0]⟩
      ⟨[46, 35, 35, 46], [46, 35, 35, 46], 2, [1, 2]⟩ := by
  decide!

set_option maxRecDepth 1000000 in
/-- The blocks of four filled cells with first lines `#...` and `.###`, by
evaluation. -/
theorem table_facts_8_7 :
    FactsFromPair ⟨[35, 46, 46, 46], [35, 46, 46, 46], 1, [0]⟩
      ⟨[46, 35, 35, 35], [46, 35, 35, 35], 3, [1, 2, 3]⟩ := by
  decide!

set_option maxRecDepth 1000000 in
/-- The blocks of four filled cells with first lines `#...` and `#...`, by
evaluation. -/
theorem table_facts_8_8 :
    FactsFromPair ⟨[35, 46, 46, 46], [35, 46, 46, 46], 1, [0]⟩
      ⟨[35, 46, 46, 46], [35, 46, 46, 46], 1, [0]⟩ := by
  decide!

set_option maxRecDepth 1000000 in
/-- The blocks of four filled cells with first lines `#...` and `#..#`, by
evaluation. -/
theorem table_facts_8_9 :
    FactsFromPair ⟨[35, 46, 46, 46], [35, 46, 46, 46], 1, [0]⟩
      ⟨[35, 46, 46, 35], [35, 46, 46, 35], 2, [0, 3]⟩ := by
  decide!

set_option maxRecDepth 1000000 in
/-- The blocks of four filled cells with first lines `#...` and `#.#.`, by
evaluation. -/
theorem table_facts_8_10 :
    FactsFromPair ⟨[35, 46, 46, 46], [35, 46, 46, 46], 1, [0]⟩
      ⟨[35, 46, 35, 46], [35, 46, 35, 46], 2, [0, 2]⟩ := by
  decide!

set_option maxRecDepth 1000000 in
/-- The blocks of four filled cells with first lines `#...` and `#.##`, by
evaluation. -/
theorem table_facts_8_11 :
    FactsFromPair ⟨[35, 46, 46, 46], [35, 46, 46, 46], 1, [0]⟩
      ⟨[35, 46, 35, 35], [35, 46, 35, 35], 3, [0, 2, 3]⟩ := by
  decide!

set_option maxRecDepth 1000000 in
/-- The blocks of four filled cells with first lines `#...` and `##..`, by
evaluation. -/
theorem table_facts_8_12 :
    FactsFromPair ⟨[35, 46, 46, 46], [35, 46, 46, 46], 1, [0]⟩
      ⟨[35, 35, 46, 46], [35, 35, 46, 46], 2, [0, 1]⟩ := by
  decide!

set_option maxRecDepth 1000000 in
/-- The blocks of four filled cells with first lines `#...` and `##.#`, by
evaluation. -/
theorem table_facts_8_13 :
    FactsFromPair ⟨[35, 46, 46, 46], [35, 46, 46, 46], 1, [0]⟩
      ⟨[35, 35, 46, 35], [35, 35, 46, 35], 3, [0, 1, 3]⟩ := by
  decide!

set_option maxRecDepth 1000000 in
/-- The blocks of four filled cells with first lines `#...` and `###.`, by
evaluation. -/
theorem table_facts_8_14 :
    FactsFromPair ⟨[35, 46, 46, 46], [35, 46, 46, 46], 1, [0]⟩
      ⟨[35, 35, 35, 46], [35, 35, 35, 46], 3, [0, 1, 2]⟩ := by
  decide!

set_option maxRecDepth 1000000 in
/-- The blocks of four filled cells with first lines `#...` and `####`, by
evaluation. -/
theorem table_facts_8_15 :
    FactsFromPair ⟨[35, 46, 46, 46], [35, 46, 46, 46], 1, [0]⟩
      ⟨[35, 35, 35, 35], [35, 35, 35, 35], 4, [0, 1, 2, 3]⟩ := by
  decide!

/-- The blocks of four filled cells with first line `#...`. -/
theorem table_facts_8 : FactsFrom ⟨[35, 46, 46, 46], [35, 46, 46, 46], 1, [0]⟩ := by
  intro t1 h
  simp only [rowTable, List.mem_cons, List.mem_singleton, List.mem_nil_iff, or_false] at h
  rcases h with rfl | rfl | rfl | rfl | rfl | rfl | rfl | rfl | rfl | rfl | rfl | rfl | rfl |
    rfl | rfl | rfl
  · exact table_facts_8_0
  · exact table_facts_8_1
  · exact table_facts_8_2
  · exact table_facts_8_3
  · exact table_facts_8_4
  · exact table_facts_8_5
  · exact table_facts_8_6
  · exact table_facts_8_7
  · exact table_facts_8_8
  · exact table_facts_8_9
  · exact table_facts_8_10
  · exact table_facts_8_11
  · exact table_facts_8_12
  · exact table_facts_8_13
  · exact table_facts_8_14
  · exact table_facts_8_15

set_option maxRecDepth 1000000 in
/-- The blocks of four filled cells with first line `#..#`, by evaluation. -/
theorem table_facts_9 : FactsFrom ⟨[35, 46, 46, 35], [35, 46, 46, 35], 2, [0, 3]⟩ := by
  decide!

set_option maxRecDepth 1000000 in
/-- The blocks of four filled cells with first line `#.#.`, by evaluation. -/
theorem table_facts_10 : FactsFrom ⟨[35, 46, 35, 46], [35, 46, 35, 46], 2, [0, 2]⟩ := by
  decide!

set_option maxRecDepth 1000000 in
/-- The blocks of four filled cells with first line `#.##`, by evaluation. -/
theorem table_facts_11 : FactsFrom ⟨[35, 46, 35, 35], [35, 46, 35, 35], 3, [0, 2, 3]⟩ := by
  decide!

set_option maxRecDepth 1000000 in
/-- The blocks of four filled cells with first line `##..`, by evaluation. -/
theorem table_facts_12 : FactsFrom ⟨[35, 35, 46, 46], [35, 35, 46, 46], 2, [0, 1]⟩ := by
  decide!

set_option maxRecDepth 1000000 in
/-- The blocks of four filled cells with first line `##.#`, by evaluation. -/
theorem table_facts_13 : FactsFrom ⟨[35, 35, 46, 35], [35, 35, 46, 35], 3, [0, 1, 3]⟩ := by
  decide!

set_option maxRecDepth 1000000 in
/-- The blocks of four filled cells with first line `###.`, by evaluation. -/
theorem table_facts_14 : FactsFrom ⟨[35, 35, 35, 46], [35, 35, 35, 46], 3, [0, 1, 2]⟩ := by
  decide!

set_option maxRecDepth 1000000 in
/-- The blocks of four filled cells with first line `####`, by evaluation. -/
theorem table_facts_15 : FactsFrom ⟨[35, 35, 35, 35], [35, 35, 35, 35], 4, [0, 1, 2, 3]⟩ := by
  decide!

/-- The outcome of the validator on each of the 1820 blocks of four filled
cells. -/
theorem table_facts :
    ∀ t0 ∈ rowTable, ∀ t1 ∈ rowTable, t0.count + t1.count ≤ 4 →
    ∀ t2 ∈ rowTable, t0.count + t1.count + t2.count ≤ 4 →
    ∀ t3 ∈ rowTable, t0.count + t1.count + t2.count + t3.count = 4 →
    BlockFacts (tableCells t0 t1 t2 t3)
      (finishBlock [t0.runes, t1.runes, t2.runes, t3.runes] 4) := by
  intro t0 h
  simp only [rowTable, List.mem_cons, List.mem_singleton, List.mem_nil_iff, or_false] at h
  rcases h with rfl | rfl | rfl | rfl | rfl | rfl | rfl | rfl | rfl | rfl | rfl | rfl | rfl |
    rfl | rfl | rfl
  · exact table_facts_0
  · exact table_facts_1
  · exact table_facts_2
  · exact table_facts_3
  · exact table_facts_4
  · exact table_facts_5
  · exact table_facts_6
  · exact table_facts_7
  · exact table_facts_8
  · exact table_facts_9
  · exact table_facts_10
  · exact table_facts_11
  · exact table_facts_12
  · exact table_facts_13
  · exact table_facts_14
  · exact table_facts_15

theorem table_rowCells : ∀ t ∈ rowTable, ∀ y : Nat,
    rowCellsFrom y 0 t.bytes = tableRowCells t (y : Int) ∧ t.cols.length = t.count := by
  intro t ht y
  simp only [rowTable, List.mem_cons, List.mem_singleton, List.mem_nil_iff, or_false] at ht
  rcases ht with rfl | rfl | rfl | rfl | rfl | rfl | rfl | rfl | rfl | rfl | rfl | rfl | rfl |
    rfl | rfl | rfl <;> simp [rowCellsFrom, tableRowCells]

theorem hashCells_table (t0 t1 t2 t3 : Row) (h0 : t0 ∈ rowTable) (h1 : t1 ∈ rowTable)
    (h2 : t2 ∈ rowTable) (h3 : t3 ∈ rowTable) :
    hashCells [t0.bytes, t1.bytes, t2.bytes, t3.bytes] = tableCells t0 t1 t2 t3 ∧
    (tableCells t0 t1 t2 t3).length = t0.count + t1.count + t2.count + t3.count := by
  have e0 := table_rowCells t0 h0 0
  have e1 := table_rowCells t1 h1 1
  have e2 := table_rowCells t2 h2 2
  have e3 := table_rowCells t3 h3 3
  constructor
  · simp only [hashCells, hashCellsFrom, tableCells, List.append_nil]
    rw [e0.1, e1.1, e2.1, e3.1]
    rfl
  · have c0 := e0.2
    have c1 := e1.2
    have c2 := e2.2
    have c3 := e3.2
    simp only [tableCells, List.length_append, tableRowCells, List.length_map]
    omega

theorem contains_true_iff {l : List Point} {a : Point} : l.contains a = true ↔ a ∈ l := by
  simp

theorem stepIn_mem {cells : List Point} {a b : Point}
    (h : Relation.ReflTransGen (StepIn cells) a b) (ha : a ∈ cells) : b ∈ cells := by
  induction h with
  | refl => exact ha
  | tail _ hbc _ => exact hbc.1

theorem adjacent_symm {p q : Point} (h : Adjacent p q) : Adjacent q p := by
  unfold Adjacent at *
  omega

theorem stepIn_reverse {cells : List Point} {a b : Point}
    (h : Relation.ReflTransGen (StepIn cells) a b) (ha : a ∈ cells) :
    Relation.ReflTransGen (StepIn cells) b a := by
  induction h with
  | refl => exact Relation.ReflTransGen.refl
  | tail hab hbc ih =>
    have hb := stepIn_mem hab ha
    exact Relation.ReflTransGen.head ⟨hb, adjacent_symm hbc.2⟩ ih

theorem grow_reachable {cells reached : List Point} {p0 : Point}
    (h : ∀ r ∈ reached, Relation.ReflTransGen (StepIn cells) p0 r) :
    ∀ r ∈ grow cells reached, Relation.ReflTransGen (StepIn cells) p0 r := by
  intro r hr
  simp only [grow, List.mem_append, List.mem_filter, Bool.and_eq_true, List.any_eq_true,
    decide_eq_true_eq] at hr
  rcases hr with hr | ⟨hmem, _, p, hp, hadj⟩
  · exact h r hr
  · exact Relation.ReflTransGen.tail (h p hp) ⟨hmem, hadj⟩

theorem subset_grow (cells reached : List Point) : ∀ r ∈ reached, r ∈ grow cells reached := by
  intro r hr
  simp only [grow, List.mem_append]
  exact Or.inl hr

theorem reachSet_reachable (p0 : Point) (cells : List Point) :
    ∀ r ∈ reachSet (p0 :: cells), Relation.ReflTransGen (StepIn (p0 :: cells)) p0 r := by
  simp only [reachSet]
  apply grow_reachable
  apply grow_reachable
  apply grow_reachable
  intro r hr
  rw [List.mem_singleton.1 hr]

theorem head_mem_reachSet (p0 : Point) (cells : List Point) : p0 ∈ reachSet (p0 :: cells) := by
  simp only [reachSet]
  apply subset_grow
  apply subset_grow
  apply subset_grow
  exact List.mem_singleton_self _

/-- The certificate of connectedness is sound. -/
theorem connected_of_allReached {cells : List Point} (h : allReached cells = true) :
    Connected cells := by
  cases cells with
  | nil => intro p hp; cases hp
  | cons p0 rest =>
    simp only [allReached, List.all_eq_true, contains_true_iff] at h
    have hreach : ∀ q ∈ p0 :: rest, Relation.ReflTransGen (StepIn (p0 :: rest)) p0 q :=
      fun q hq => reachSet_reachable p0 rest q (by simpa using h q hq)
    intro p hp q hq
    exact Relation.ReflTransGen.trans
      (stepIn_reverse (hreach p hp) (List.mem_cons_self _ _)) (hreach q hq)

/-- The certificate of disconnectedness is sound. -/
theorem not_connected_of_cutFound {cells : List Point} (h : cutFound cells = true) :
    ¬ Connected cells := by
  cases cells with
  | nil => simp [cutFound] at h
  | cons p0 rest =>
    simp only [cutFound, Bool.and_eq_true, List.all_eq_true, Bool.or_eq_true,
      Bool.not_eq_true', decide_eq_false_iff_not, List.any_eq_true, contains_true_iff]
      at h
    obtain ⟨hclosed, q, hq, hqnot⟩ := h
    intro hconn
    have hpath := hconn p0 (List.mem_cons_self _ _) q hq
    have hstay : ∀ a b, Relation.ReflTransGen (StepIn (p0 :: rest)) a b →
        a ∈ reachSet (p0 :: rest) → b ∈ reachSet (p0 :: rest) := by
      intro a b hab
      induction hab with
      | refl => exact id
      | tail _ hbc ih =>
        intro ha
        rcases hclosed _ (ih ha) _ hbc.1 with h1 | h1
        · exact absurd hbc.2 h1
        · simpa using h1
    have := hstay p0 q hpath (head_mem_reachSet p0 rest)
    simp [this] at hqnot

theorem finishBlock_count {grid : List (List Int)} {n : Nat} (h : n ≠ 4) :
    finishBlock grid n = .error .mustHave4Blocks := by
  simp [finishBlock, h]

/-- The facts of the table, for the validator itself on the bytes. -/
theorem validate_block_facts (t0 t1 t2 t3 : Row) (h0 : t0 ∈ rowTable) (h1 : t1 ∈ rowTable)
    (h2 : t2 ∈ rowTable) (h3 : t3 ∈ rowTable)
    (hsum : t0.count + t1.count + t2.count + t3.count = 4) :
    BlockFacts (hashCells [t0.bytes, t1.bytes, t2.bytes, t3.bytes])
      (ValidateAndNormalize [t0.bytes, t1.bytes, t2.bytes, t3.bytes]) := by
  rw [validate_table t0 t1 t2 t3 h0 h1 h2 h3, (hashCells_table t0 t1 t2 t3 h0 h1 h2 h3).1, hsum]
  exact table_facts t0 h0 t1 h1 (by omega) t2 h2 (by omega) t3 h3 hsum

/-- Everything that is checked of an accepted block. -/
theorem validate_ok_facts {block : List GoString} {p : Piece}
    (h : ValidateAndNormalize block = .ok p) :
    (hashCells block).length = 4 ∧ allReached (hashCells block) = true ∧ Canonical p ∧
      NormalizedFrom (hashCells block) p.Blocks := by
  obtain ⟨t0, h0, t1, h1, t2, h2, t3, h3, rfl⟩ := table_of_validate h
  by_cases hsum : t0.count + t1.count + t2.count + t3.count = 4
  · have hf := validate_block_facts t0 t1 t2 t3 h0 h1 h2 h3 hsum
    rw [h] at hf
    refine ⟨?_, hf⟩
    rw [(hashCells_table t0 t1 t2 t3 h0 h1 h2 h3).1, (hashCells_table t0 t1 t2 t3 h0 h1 h2 h3).2,
      hsum]
  · rw [validate_table t0 t1 t2 t3 h0 h1 h2 h3, finishBlock_count hsum] at h
    cases h

/-- C4: exactness of the shape check. For every block of four lines of four
characters, each the dot or the hash, `ValidateAndNormalize` returns a piece
if and only if the block has exactly four filled cells and they form a
single 4-connected set. -/
theorem validate_exact (block : List GoString) (hlen : block.length = 4)
    (hgood : ∀ line ∈ block, GoodLine line) :
    (∃ p, ValidateAndNormalize block = .ok p) ↔
      ((hashCells block).length = 4 ∧ Connected (hashCells block)) := by
  constructor
  · rintro ⟨p, hp⟩
    obtain ⟨h4, hreach, _, _⟩ := validate_ok_facts hp
    exact ⟨h4, connected_of_allReached hreach⟩
  · rintro ⟨h4, hconn⟩
    match block, hlen with
    | [l0, l1, l2, l3], _ =>
      obtain ⟨t0, h0, rfl⟩ := goodLine_mem_table (hgood l0 (by simp))
      obtain ⟨t1, h1, rfl⟩ := goodLine_mem_table (hgood l1 (by simp))
      obtain ⟨t2, h2, rfl⟩ := goodLine_mem_table (hgood l2 (by simp))
      obtain ⟨t3, h3, rfl⟩ := goodLine_mem_table (hgood l3 (by simp))
      have hsum : t0.count + t1.count + t2.count + t3.count = 4 := by
        rw [← (hashCells_table t0 t1 t2 t3 h0 h1 h2 h3).2,
          ← (hashCells_table t0 t1 t2 t3 h0 h1 h2 h3).1]
        exact h4
      have hf := validate_block_facts t0 t1 t2 t3 h0 h1 h2 h3 hsum
      cases hres : ValidateAndNormalize [t0.bytes, t1.bytes, t2.bytes, t3.bytes] with
      | ok p => exact ⟨p, rfl⟩
      | error e =>
        rw [hres] at hf
        exact absurd hconn (not_connected_of_cutFound hf.2)

/-- C4, witness: the T block `.... / ..#. / .### / ....` is accepted; its
four cells are connected. -/
theorem validate_exact_witness :
    ([[46, 46, 46, 46], [46, 46, 35, 46], [46, 35, 35, 35], [46, 46, 46, 46]] :
        List GoString).length = 4 ∧
    (∀ line ∈ ([[46, 46, 46, 46], [46, 46, 35, 46], [46, 35, 35, 35], [46, 46, 46, 46]] :
        List GoString), GoodLine line) ∧
    ((∃ p, ValidateAndNormalize
        [[46, 46, 46, 46], [46, 46, 35, 46], [46, 35, 35, 35], [46, 46, 46, 46]] = .ok p) ↔
      ((hashCells [[46, 46, 46, 46], [46, 46, 35, 46], [46, 35, 35, 35],
          [46, 46, 46, 46]]).length = 4 ∧
        Connected (hashCells [[46, 46, 46, 46], [46, 46, 35, 46], [46, 35, 35, 35],
          [46, 46, 46, 46]]))) := by
  have hg : ∀ line ∈ ([[46, 46, 46, 46], [46, 46, 35, 46], [46, 35, 35, 35],
      [46, 46, 46, 46]] : List GoString), GoodLine line := by
    intro line hl
    simp only [List.mem_cons, List.mem_singleton, List.mem_nil_iff, or_false] at hl
    rcases hl with rfl | rfl | rfl | rfl <;> exact ⟨rfl, by decide⟩
  exact ⟨rfl, hg, validate_exact _ rfl hg⟩

/-- C6: the normalization result. For every block that `ValidateAndNormalize`
accepts, the returned blocks are the filled cells `(x, y)` of the block, each
shifted to `(x - minX, y - minY)` where `minX` and `minY` are the least
column and the least row of the filled cells, and the list is in strictly
increasing order by `Y`, then by `X`. -/
theorem validate_normalized (block : List GoString) (p : Piece)
    (h : ValidateAndNormalize block = .ok p) :
    NormalizedFrom (hashCells block) p.Blocks :=
  (validate_ok_facts h).2.2.2

/-- C6, witness: the T block `.... / ..#. / .### / ....`. -/
theorem validate_normalized_witness :
    ValidateAndNormalize [[46, 46, 46, 46], [46, 46, 35, 46], [46, 35, 35, 35], [46, 46, 46, 46]]
      = .ok ⟨[⟨1, 0⟩, ⟨0, 1⟩, ⟨1, 1⟩, ⟨2, 1⟩]⟩ ∧
    NormalizedFrom
      (hashCells [[46, 46, 46, 46], [46, 46, 35, 46], [46, 35, 35, 35], [46, 46, 46, 46]])
      [⟨1, 0⟩, ⟨0, 1⟩, ⟨1, 1⟩, ⟨2, 1⟩] :=
  ⟨rfl, validate_normalized _ ⟨[⟨1, 0⟩, ⟨0, 1⟩, ⟨1, 1⟩, ⟨2, 1⟩]⟩ rfl⟩

theorem splitLines_ne_nil (s : GoString) : splitLines s ≠ [] := by
  cases s with
  | nil => simp [splitLines]
  | cons b rest =>
    simp only [splitLines]
    split_ifs
    · simp
    · split <;> simp

theorem splitLines_cons_ne (b : UInt8) (rest : GoString) (hb : b ≠ 10) :
    ∃ l ls, splitLines rest = l :: ls ∧ splitLines (b :: rest) = (b :: l) :: ls := by
  cases h : splitLines rest with
  | nil => exact absurd h (splitLines_ne_nil rest)
  | cons l ls => exact ⟨l, ls, rfl, by simp [splitLines, hb, h]⟩

theorem splitLines_line (l : GoString) (h : (10 : UInt8) ∉ l) : splitLines l = [l] := by
  induction l with
  | nil => rfl
  | cons b rest ih =>
    have hb : b ≠ 10 := fun e => h (by simp [e])
    obtain ⟨l2, ls, h1, h2⟩ := splitLines_cons_ne b rest hb
    rw [ih (fun hm => h (List.mem_cons_of_mem _ hm))] at h1
    cases h1
    exact h2

theorem splitLines_append (l rest : GoString) (h : (10 : UInt8) ∉ l) :
    splitLines (l ++ 10 :: rest) = l :: splitLines rest := by
  induction l with
  | nil => simp [splitLines]
  | cons b l2 ih =>
    have hb : b ≠ 10 := fun e => h (by simp [e])
    obtain ⟨l3, ls, h1, h2⟩ := splitLines_cons_ne b (l2 ++ 10 :: rest) hb
    rw [ih (fun hm => h (List.mem_cons_of_mem _ hm))] at h1
    cases h1
    exact h2

theorem splitLines_join : ∀ lines : List GoString, lines ≠ [] →
    (∀ l ∈ lines, (10 : UInt8) ∉ l) → splitLines (joinLines lines) = lines
  | [], h, _ => absurd rfl h
  | [l], _, hl => by
    simpa [joinLines] using splitLines_line l (hl l (by simp))
  | l :: m :: ls, _, hl => by
    simp only [joinLines]
    rw [splitLines_append l _ (hl l (by simp)),
      splitLines_join (m :: ls) (by simp) (fun x hx => hl x (List.mem_cons_of_mem _ hx))]

theorem joinLines_append_empty : ∀ lines : List GoString, lines ≠ [] →
    joinLines (lines ++ [[]]) = joinLines lines ++ [10]
  | [], h => absurd rfl h
  | [l], _ => by simp [joinLines]
  | l :: m :: ls, _ => by
    have := joinLines_append_empty (m :: ls) (by simp)
    simp only [List.cons_append] at this
    simp [joinLines, this]

theorem mem_splitLines {s : GoString} {b : UInt8} (hb : b ∈ s) (hne : b ≠ 10) :
    ∃ l ∈ splitLines s, b ∈ l := by
  induction s with
  | nil => cases hb
  | cons c rest ih =>
    by_cases hc : c = 10
    · have hrest : b ∈ rest := by
        rcases List.mem_cons.1 hb with h | h
        · exact absurd (h.trans hc) hne
        · exact h
      obtain ⟨l, hl, hbl⟩ := ih hrest
      exact ⟨l, by simp [splitLines, hc, hl], hbl⟩
    · obtain ⟨l, ls, h1, h2⟩ := splitLines_cons_ne c rest hc
      rw [h2]
      rcases List.mem_cons.1 hb with h | h
      · exact ⟨c :: l, by simp, by simp [h]⟩
      · obtain ⟨l2, hl2, hbl2⟩ := ih h
        rw [h1] at hl2
        rcases List.mem_cons.1 hl2 with h3 | h3
        · exact ⟨c :: l, by simp, by simp [← h3, hbl2]⟩
        · exact ⟨l2, by simp [h3], hbl2⟩

theorem replaceCRLF_id : ∀ s : GoString, (13 : UInt8) ∉ s → replaceCRLF s = s
  | [], _ => rfl
  | [_], _ => rfl
  | b :: c :: rest, h => by
    have hb : b ≠ 13 := fun e => h (by simp [e])
    have ih := replaceCRLF_id (c :: rest) (fun hm => h (List.mem_cons_of_mem _ hm))
    simp [replaceCRLF, hb, ih]

theorem parseLoop_block (l0 l1 l2 l3 : GoString) (rest4 : List GoString) (acc : List Piece)
    (h0 : l0 ≠ []) :
    parseLoop (l0 :: l1 :: l2 :: l3 :: rest4) acc =
      match ValidateAndNormalize [l0, l1, l2, l3] with
      | .error e => .error e
      | .ok p =>
        match rest4 with
        | [] => .ok (acc ++ [p])
        | sep :: rest5 =>
          if sep = [] then parseLoop rest5 (acc ++ [p]) else .error .missingBlankSeparator := by
  simp [parseLoop, h0]

theorem parseLoop_empty_line (rest : List GoString) (acc : List Piece) :
    parseLoop ([] :: rest) acc =
      if (([] : GoString) :: rest).all (fun l => decide (l = [])) then .ok acc
      else .error .unexpectedEmptyLine := by
  rcases rest with _ | ⟨l1, _ | ⟨l2, _ | ⟨l3, rest4⟩⟩⟩ <;> simp [parseLoop]

theorem parseLoop_empties (m : Nat) (acc : List Piece) :
    parseLoop (List.replicate m []) acc = .ok acc := by
  cases m with
  | zero => rfl
  | succ m =>
    have hall : (([] : GoString) :: List.replicate m []).all (fun l => decide (l = [])) = true := by
      rw [List.all_eq_true]
      intro l hl
      rcases List.mem_cons.1 hl with h | h
      · simp [h]
      · simp [List.eq_of_mem_replicate h]
    rw [List.replicate_succ, parseLoop_empty_line, if_pos hall]

theorem validate_shape {b : List GoString} {p : Piece} (h : ValidateAndNormalize b = .ok p) :
    ∃ l0 l1 l2 l3, b = [l0, l1, l2, l3] ∧ GoodLine l0 ∧ GoodLine l1 ∧ GoodLine l2 ∧
      GoodLine l3 := by
  obtain ⟨t0, h0, t1, h1, t2, h2, t3, h3, rfl⟩ := table_of_validate h
  exact ⟨_, _, _, _, rfl, (table_goodLine t0 h0).1, (table_goodLine t1 h1).1,
    (table_goodLine t2 h2).1, (table_goodLine t3 h3).1⟩

theorem goodLine_ne_nil {l : GoString} (h : GoodLine l) : l ≠ [] := by
  intro e
  have := h.1
  rw [e] at this
  cases this

/-- One accepted block in front of the remaining lines. -/
theorem parseLoop_accept {b : List GoString} {p : Piece}
    (h : ValidateAndNormalize b = .ok p) (rest4 : List GoString) (acc : List Piece) :
    parseLoop (b ++ rest4) acc =
      match rest4 with
      | [] => .ok (acc ++ [p])
      | sep :: rest5 =>
        if sep = [] then parseLoop rest5 (acc ++ [p]) else .error .missingBlankSeparator := by
  obtain ⟨l0, l1, l2, l3, rfl, g0, _, _, _⟩ := validate_shape h
  simp only [List.cons_append, List.nil_append]
  rw [parseLoop_block l0 l1 l2 l3 rest4 acc (goodLine_ne_nil g0), h]

/-- The parser accepts a sequence of accepted blocks, one empty line between
consecutive blocks, followed by any number of empty lines. -/
theorem parseLoop_blocks : ∀ (blocks : List (List GoString)) (pieces : List Piece)
    (m : Nat) (acc : List Piece), Validated blocks pieces →
    parseLoop (blockLines blocks ++ List.replicate m []) acc = .ok (acc ++ pieces)
  | [], pieces, m, acc, h => by
    cases h
    simpa [blockLines] using parseLoop_empties m acc
  | [b], pieces, m, acc, h => by
    cases h with
    | cons hb hrest =>
      cases hrest
      simp only [blockLines]
      rw [parseLoop_accept hb]
      cases m with
      | zero => rfl
      | succ m => simp [List.replicate_succ, parseLoop_empties]
  | b :: c :: bs, [], m, acc, h => by cases h
  | b :: c :: bs, p :: ps, m, acc, h => by
    obtain ⟨hb, hrest⟩ := List.forall₂_cons.1 h
    have ih := parseLoop_blocks (c :: bs) ps m (acc ++ [p]) hrest
    simp only [blockLines, List.append_assoc, List.cons_append]
    rw [parseLoop_accept hb]
    simp only [if_true]
    rw [ih]
    simp

/-- The parser accepts only such sequences. -/
theorem parseLoop_shape : ∀ (n : Nat) (lines : List GoString) (acc pieces : List Piece),
    lines.length ≤ n → parseLoop lines acc = .ok pieces →
    ∃ blocks ps m, lines = blockLines blocks ++ List.replicate m [] ∧ pieces = acc ++ ps ∧
      Validated blocks ps := by
  intro n
  induction n with
  | zero =>
    intro lines acc pieces hlen h
    have : lines = [] := List.length_eq_zero.1 (by omega)
    subst this
    simp only [parseLoop] at h
    cases h
    exact ⟨[], [], 0, rfl, by simp, List.Forall₂.nil⟩
  | succ n ih =>
    intro lines acc pieces hlen h
    match lines with
    | [] =>
      simp only [parseLoop] at h
      cases h
      exact ⟨[], [], 0, rfl, by simp, List.Forall₂.nil⟩
    | l0 :: rest =>
      by_cases h0 : l0 = []
      · subst h0
        rw [parseLoop_empty_line] at h
        split_ifs at h with hall
        cases h
        refine ⟨[], [], ([] :: rest).length, ?_, by simp, List.Forall₂.nil⟩
        simp only [blockLines, List.nil_append]
        rw [List.eq_replicate_iff]
        refine ⟨rfl, ?_⟩
        intro l hl
        simpa using (List.all_eq_true.1 hall) l hl
      · match rest with
        | [] => simp [parseLoop, h0] at h
        | [_] => simp [parseLoop, h0] at h
        | [_, _] => simp [parseLoop, h0] at h
        | l1 :: l2 :: l3 :: rest4 =>
          rw [parseLoop_block l0 l1 l2 l3 rest4 acc h0] at h
          cases hv : ValidateAndNormalize [l0, l1, l2, l3] with
          | error e => rw [hv] at h; cases h
          | ok p =>
            rw [hv] at h
            match rest4 with
            | [] =>
              simp only at h
              cases h
              exact ⟨[[l0, l1, l2, l3]], [p], 0, by simp [blockLines], rfl,
                List.Forall₂.cons hv List.Forall₂.nil⟩
            | sep :: rest5 =>
              simp only at h
              by_cases hsep : sep = []
              · rw [if_pos hsep] at h
                subst hsep
                obtain ⟨bs, ps, m, hl, hp, hval⟩ := ih rest5 (acc ++ [p]) pieces
                  (by simp only [List.length_cons] at hlen; omega) h
                subst hl
                refine ⟨[l0, l1, l2, l3] :: bs, p :: ps, (if bs = [] then m + 1 else m), ?_,
                  by simp [hp], List.Forall₂.cons hv hval⟩
                cases bs with
                | nil => simp [blockLines, List.replicate_succ]
                | cons c bs => simp [blockLines]
              · rw [if_neg hsep] at h
                cases h

theorem scanRow_shift (r : Int) (row : List Int) : ∀ (xs : List Nat) (hc : Nat),
    scanRow (r :: row) (xs.map (· + 1)) hc = scanRow row xs hc := by
  intro xs
  induction xs with
  | nil => intro hc; rfl
  | cons x xs ih =>
    intro hc
    simp only [List.map_cons, scanRow, List.get?_cons_succ]
    cases row.get? x with
    | none => rfl
    | some c =>
      simp only
      split_ifs
      · rfl
      · exact ih _
      · exact ih _

/-- The first pass over a line never reads past the runes of the line: it
ends with a count or with the failure `invalidChar`. -/
theorem scanRow_line : ∀ (line : GoString) (hc : Nat),
    (∃ hc2, scanRow (decodeRunes line) (List.range line.length) hc = .ok hc2) ∨
    scanRow (decodeRunes line) (List.range line.length) hc = .error .invalidChar := by
  intro line
  induction line with
  | nil => intro hc; exact Or.inl ⟨hc, rfl⟩
  | cons b rest ih =>
    intro hc
    rw [List.length_cons, List.range_succ_eq_map]
    have hdec : decodeRunes (b :: rest) = (decodeRune (b :: rest)).1 ::
        decodeRunesAux rest.length ((b :: rest).drop (decodeRune (b :: rest)).2) := by
      simp [decodeRunes, decodeRunesAux]
    rw [hdec]
    simp only [scanRow, List.get?_cons_zero]
    by_cases hbad : (decodeRune (b :: rest)).1 ≠ 46 ∧ (decodeRune (b :: rest)).1 ≠ 35
    · rw [if_pos hbad]
      exact Or.inr rfl
    · rw [if_neg hbad]
      have hb : b.toNat < 128 := by
        by_contra hcon
        have := decodeRune_high b rest (by omega)
        omega
      rw [decodeRune_ascii b rest hb]
      simp only [List.drop_succ_cons, List.drop_zero]
      rw [scanRow_shift]
      exact ih _

theorem range_four : List.range 4 = [0, 1, 2, 3] := by decide

theorem scanRow_four (line : GoString) (hlen : line.length = 4) (hc : Nat) :
    (∃ hc2, scanRow (decodeRunes line) [0, 1, 2, 3] hc = .ok hc2) ∨
    scanRow (decodeRunes line) [0, 1, 2, 3] hc = .error .invalidChar := by
  have := scanRow_line line hc
  rwa [hlen, range_four] at this

/-- The outcomes of the first pass of `ValidateAndNormalize`: a block of
another size, a line of another length, or a character other than the dot
and the hash is refused with the failure of that name; any other block is
made of four table lines. -/
theorem validate_cases (block : List GoString) :
    ValidateAndNormalize block = .error .badPieceSize ∨
    ValidateAndNormalize block = .error .badLineLength ∨
    ValidateAndNormalize block = .error .invalidChar ∨
    ∃ t0 ∈ rowTable, ∃ t1 ∈ rowTable, ∃ t2 ∈ rowTable, ∃ t3 ∈ rowTable,
      block = [t0.bytes, t1.bytes, t2.bytes, t3.bytes] := by
  unfold ValidateAndNormalize
  by_cases hlen : block.length ≠ 4
  · rw [if_pos hlen]; exact Or.inl rfl
  · rw [if_neg hlen]
    match block, not_not.1 hlen with
    | [l0, l1, l2, l3], _ =>
      simp only [scanBlock, List.get?_cons_zero, List.get?_cons_succ]
      by_cases e0 : l0.length ≠ 4
      · rw [if_pos e0]; exact Or.inr (Or.inl rfl)
      rw [if_neg e0]
      rcases scanRow_four l0 (not_not.1 e0) 0 with ⟨c0, s0⟩ | s0
      swap
      · rw [s0]; exact Or.inr (Or.inr (Or.inl rfl))
      rw [s0]
      simp only
      by_cases e1 : l1.length ≠ 4
      · rw [if_pos e1]; exact Or.inr (Or.inl rfl)
      rw [if_neg e1]
      rcases scanRow_four l1 (not_not.1 e1) c0 with ⟨c1, s1⟩ | s1
      swap
      · rw [s1]; exact Or.inr (Or.inr (Or.inl rfl))
      rw [s1]
      simp only
      by_cases e2 : l2.length ≠ 4
      · rw [if_pos e2]; exact Or.inr (Or.inl rfl)
      rw [if_neg e2]
      rcases scanRow_four l2 (not_not.1 e2) c1 with ⟨c2, s2⟩ | s2
      swap
      · rw [s2]; exact Or.inr (Or.inr (Or.inl rfl))
      rw [s2]
      simp only
      by_cases e3 : l3.length ≠ 4
      · rw [if_pos e3]; exact Or.inr (Or.inl rfl)
      rw [if_neg e3]
      rcases scanRow_four l3 (not_not.1 e3) c2 with ⟨c3, s3⟩ | s3
      swap
      · rw [s3]; exact Or.inr (Or.inr (Or.inl rfl))
      obtain ⟨t0, m0, b0⟩ := goodLine_mem_table (goodLine_of_scanRow (not_not.1 e0) s0)
      obtain ⟨t1, m1, b1⟩ := goodLine_mem_table (goodLine_of_scanRow (not_not.1 e1) s1)
      obtain ⟨t2, m2, b2⟩ := goodLine_mem_table (goodLine_of_scanRow (not_not.1 e2) s2)
      obtain ⟨t3, m3, b3⟩ := goodLine_mem_table (goodLine_of_scanRow (not_not.1 e3) s3)
      exact Or.inr (Or.inr (Or.inr ⟨t0, m0, t1, m1, t2, m2, t3, m3, by rw [b0, b1, b2, b3]⟩))

/-- `ValidateAndNormalize` does not panic. -/
theorem validate_no_panic (block : List GoString) :
    ValidateAndNormalize block ≠ .error .indexOutOfRange := by
  rcases validate_cases block with h | h | h | ⟨t0, h0, t1, h1, t2, h2, t3, h3, rfl⟩
  · rw [h]; simp
  · rw [h]; simp
  · rw [h]; simp
  · by_cases hsum : t0.count + t1.count + t2.count + t3.count = 4
    · have hf := validate_block_facts t0 t1 t2 t3 h0 h1 h2 h3 hsum
      cases hres : ValidateAndNormalize [t0.bytes, t1.bytes, t2.bytes, t3.bytes] with
      | ok p => simp
      | error e =>
        rw [hres] at hf
        rw [hf.1]
        simp
    · rw [validate_table t0 t1 t2 t3 h0 h1 h2 h3, finishBlock_count hsum]
      simp

/-- The loop of `ParseAndValidate` does not panic. -/
theorem parseLoop_no_panic : ∀ (n : Nat) (lines : List GoString) (acc : List Piece),
    lines.length ≤ n → parseLoop lines acc ≠ .error .indexOutOfRange := by
  intro n
  induction n with
  | zero =>
    intro lines acc hlen
    have : lines = [] := List.length_eq_zero.1 (by omega)
    subst this
    simp [parseLoop]
  | succ n ih =>
    intro lines acc hlen
    match lines with
    | [] => simp [parseLoop]
    | l0 :: rest =>
      by_cases h0 : l0 = []
      · subst h0
        rw [parseLoop_empty_line]
        split_ifs <;> simp
      · match rest with
        | [] => simp [parseLoop, h0]
        | [_] => simp [parseLoop, h0]
        | [_, _] => simp [parseLoop, h0]
        | l1 :: l2 :: l3 :: rest4 =>
          rw [parseLoop_block l0 l1 l2 l3 rest4 acc h0]
          cases hv : ValidateAndNormalize [l0, l1, l2, l3] with
          | error e =>
            simp only
            intro hcon
            have he : e = .indexOutOfRange := Except.error.inj hcon
            have := validate_no_panic [l0, l1, l2, l3]
            rw [hv, he] at this
            exact this rfl
          | ok p =>
            simp only
            match rest4 with
            | [] => simp
            | sep :: rest5 =>
              simp only
              split_ifs
              · exact ih rest5 _ (by simp only [List.length_cons] at hlen; omega)
              · simp

theorem parse_ok_iff (input : GoString) (pieces : List Piece) :
    ParseAndValidate input = .ok pieces ↔
      parseLoop (splitLines (replaceCRLF input)) [] = .ok pieces ∧ pieces ≠ [] := by
  unfold ParseAndValidate
  cases h : parseLoop (splitLines (replaceCRLF input)) [] with
  | error e => simp
  | ok ps =>
    simp only
    by_cases hps : ps.length = 0
    · rw [if_pos hps]
      have : ps = [] := List.length_eq_zero.1 hps
      subst this
      constructor
      · intro h2; cases h2
      · rintro ⟨h2, h3⟩
        cases h2
        exact absurd rfl h3
    · rw [if_neg hps]
      constructor
      · intro h2
        cases h2
        exact ⟨rfl, fun e => hps (by rw [e]; rfl)⟩
      · rintro ⟨h2, _⟩
        rw [h2]

/-- `ParseAndValidate` does not panic. -/
theorem parse_no_panic (input : GoString) :
    ParseAndValidate input ≠ .error .indexOutOfRange := by
  unfold ParseAndValidate
  cases h : parseLoop (splitLines (replaceCRLF input)) [] with
  | error e =>
    simp only
    intro hcon
    have he : e = .indexOutOfRange := Except.error.inj hcon
    have := parseLoop_no_panic _ (splitLines (replaceCRLF input)) [] (le_refl _)
    rw [h, he] at this
    exact this rfl
  | ok ps =>
    simp only
    split_ifs <;> simp

theorem validated_length {blocks : List (List GoString)} {pieces : List Piece}
    (h : Validated blocks pieces) : pieces.length = blocks.length :=
  (List.Forall₂.length_eq h).symm

theorem validated_goodLines {blocks : List (List GoString)} {pieces : List Piece}
    (h : Validated blocks pieces) : ∀ b ∈ blocks, b.length = 4 ∧ ∀ l ∈ b, GoodLine l := by
  induction h with
  | nil => intro b hb; cases hb
  | cons hv _ ih =>
    intro b hb
    rcases List.mem_cons.1 hb with h1 | h1
    · subst h1
      obtain ⟨l0, l1, l2, l3, rfl, g0, g1, g2, g3⟩ := validate_shape hv
      refine ⟨rfl, ?_⟩
      intro l hl
      simp only [List.mem_cons, List.mem_singleton, List.mem_nil_iff, or_false] at hl
      rcases hl with rfl | rfl | rfl | rfl <;> assumption
    · exact ih b h1

theorem mem_blockLines : ∀ (blocks : List (List GoString)) (l : GoString),
    l ∈ blockLines blocks → l = [] ∨ ∃ b ∈ blocks, l ∈ b
  | [], l, h => by cases h
  | [b], l, h => Or.inr ⟨b, by simp, by simpa [blockLines] using h⟩
  | b :: c :: bs, l, h => by
    simp only [blockLines, List.mem_append, List.mem_cons] at h
    rcases h with h | h | h
    · exact Or.inr ⟨b, by simp, h⟩
    · exact Or.inl h
    · rcases mem_blockLines (c :: bs) l h with h1 | ⟨d, hd, hl⟩
      · exact Or.inl h1
      · exact Or.inr ⟨d, List.mem_cons_of_mem _ hd, hl⟩

theorem blockLines_ne_nil {blocks : List (List GoString)} {pieces : List Piece}
    (h : Validated blocks pieces) (hne : blocks ≠ []) : blockLines blocks ≠ [] := by
  match blocks, pieces, h with
  | [b], _, h =>
    have := (validated_goodLines h b (by simp)).1
    simp only [blockLines]
    intro e
    rw [e] at this
    cases this
  | b :: c :: bs, _, h =>
    have := (validated_goodLines h b (by simp)).1
    simp only [blockLines]
    intro e
    have h2 := congrArg List.length e
    simp at h2

theorem mem_joinLines : ∀ (lines : List GoString) (b : UInt8),
    b ∈ joinLines lines → b = 10 ∨ ∃ l ∈ lines, b ∈ l
  | [], b, h => by cases h
  | [l], b, h => Or.inr ⟨l, by simp, by simpa [joinLines] using h⟩
  | l :: m :: ls, b, h => by
    simp only [joinLines, List.mem_append, List.mem_cons] at h
    rcases h with h | h | h
    · exact Or.inr ⟨l, by simp, h⟩
    · exact Or.inl h
    · rcases mem_joinLines (m :: ls) b h with h1 | ⟨d, hd, hl⟩
      · exact Or.inl h1
      · exact Or.inr ⟨d, List.mem_cons_of_mem _ hd, hl⟩

theorem joinLines_append_empties : ∀ (m : Nat) (lines : List GoString), lines ≠ [] →
    joinLines (lines ++ List.replicate m []) = joinLines lines ++ List.replicate m 10 := by
  intro m
  induction m with
  | zero => intro lines _; simp
  | succ m ih =>
    intro lines hne
    have h1 : lines ++ List.replicate (m + 1) ([] : GoString)
        = (lines ++ [[]]) ++ List.replicate m [] := by
      rw [List.replicate_succ]; simp
    rw [h1, ih (lines ++ [[]]) (by simp), joinLines_append_empty lines hne,
      List.replicate_succ]
    simp

/-- The parser on a text made of accepted blocks followed by any number of
newline characters. -/
theorem parse_blocks_newlines (blocks : List (List GoString)) (pieces : List Piece) (m : Nat)
    (hne : blocks ≠ []) (hval : Validated blocks pieces) :
    ParseAndValidate (joinLines (blockLines blocks) ++ List.replicate m 10) = .ok pieces := by
  have hgood := validated_goodLines hval
  have hlines : ∀ l ∈ blockLines blocks ++ List.replicate m [],
      ∀ b ∈ l, b = 46 ∨ b = 35 := by
    intro l hl b hb
    rcases List.mem_append.1 hl with h | h
    · rcases mem_blockLines blocks l h with h1 | ⟨blk, hblk, hl2⟩
      · rw [h1] at hb; cases hb
      · exact ((hgood blk hblk).2 l hl2).2 b hb
    · rw [List.eq_of_mem_replicate h] at hb; cases hb
  have hnn := blockLines_ne_nil hval hne
  have htext : joinLines (blockLines blocks) ++ List.replicate m 10
      = joinLines (blockLines blocks ++ List.replicate m []) :=
    (joinLines_append_empties m _ hnn).symm
  rw [htext, parse_ok_iff]
  have hno13 : (13 : UInt8) ∉ joinLines (blockLines blocks ++ List.replicate m []) := by
    intro h13
    rcases mem_joinLines _ _ h13 with h | ⟨l, hl, hb⟩
    · exact absurd h (by decide)
    · rcases hlines l hl 13 hb with h | h <;> exact absurd h (by decide)
  have hno10 : ∀ l ∈ blockLines blocks ++ List.replicate m [], (10 : UInt8) ∉ l := by
    intro l hl h10
    rcases hlines l hl 10 h10 with h | h <;> exact absurd h (by decide)
  rw [replaceCRLF_id _ hno13, splitLines_join _ (by simp [hnn]) hno10,
    parseLoop_blocks blocks pieces m [] hval]
  refine ⟨by simp, ?_⟩
  intro e
  have := validated_length hval
  rw [e] at this
  exact hne (List.length_eq_zero.1 this.symm)

/-- The line list of an accepted input. -/
theorem parse_ok_shape {input : GoString} {pieces : List Piece}
    (h : ParseAndValidate input = .ok pieces) :
    ∃ blocks m, blocks ≠ [] ∧
      splitLines (replaceCRLF input) = blockLines blocks ++ List.replicate m [] ∧
      Validated blocks pieces := by
  obtain ⟨h1, h2⟩ := (parse_ok_iff input pieces).1 h
  obtain ⟨blocks, ps, m, hl, hp, hval⟩ := parseLoop_shape _ _ [] pieces (le_refl _) h1
  simp only [List.nil_append] at hp
  subst hp
  refine ⟨blocks, m, ?_, hl, hval⟩
  intro e
  subst e
  cases hval
  exact h2 rfl

theorem validated_canonical {blocks : List (List GoString)} {pieces : List Piece}
    (h : Validated blocks pieces) : ∀ p ∈ pieces, Canonical p := by
  induction h with
  | nil => intro q hq; cases hq
  | cons hb _ ih =>
    intro q hq
    rcases List.mem_cons.1 hq with h1 | h1
    · rw [h1]; exact (validate_ok_facts hb).2.2.1
    · exact ih q h1

/-- Every piece of a list that the parser returns is canonical. -/
theorem parse_canonical {input : GoString} {pieces : List Piece}
    (h : ParseAndValidate input = .ok pieces) : ∀ p ∈ pieces, Canonical p := by
  obtain ⟨blocks, m, _, _, hval⟩ := parse_ok_shape h
  exact validated_canonical hval

/-- C5: the canonical-piece invariant. Whenever `ValidateAndNormalize`
returns a piece, and hence for every piece of a list that `ParseAndValidate`
returns, the piece has exactly 4 pairwise distinct points, every coordinate
is in `0..3`, the least `X` is 0 and the least `Y` is 0. -/
theorem canonical_pieces :
    (∀ (block : List GoString) (p : Piece), ValidateAndNormalize block = .ok p → Canonical p) ∧
    (∀ (input : GoString) (pieces : List Piece), ParseAndValidate input = .ok pieces →
      ∀ p ∈ pieces, Canonical p) := by
  exact ⟨fun block p h => (validate_ok_facts h).2.2.1, fun input pieces h => parse_canonical h⟩

/-- C5, witness: the vertical I block `#... / #... / #... / #...`, alone and
as the text of the test. -/
theorem canonical_pieces_witness :
    (ValidateAndNormalize [[35, 46, 46, 46], [35, 46, 46, 46], [35, 46, 46, 46], [35, 46, 46, 46]]
        = .ok ⟨[⟨0, 0⟩, ⟨0, 1⟩, ⟨0, 2⟩, ⟨0, 3⟩]⟩ ∧
      Canonical ⟨[⟨0, 0⟩, ⟨0, 1⟩, ⟨0, 2⟩, ⟨0, 3⟩]⟩) ∧
    (ParseAndValidate [35, 46, 46, 46, 10, 35, 46, 46, 46, 10, 35, 46, 46, 46, 10,
        35, 46, 46, 46, 10] = .ok [⟨[⟨0, 0⟩, ⟨0, 1⟩, ⟨0, 2⟩, ⟨0, 3⟩]⟩] ∧
      ∀ p ∈ [(⟨[⟨0, 0⟩, ⟨0, 1⟩, ⟨0, 2⟩, ⟨0, 3⟩]⟩ : Piece)], Canonical p) :=
  ⟨⟨rfl, canonical_pieces.1
      [[35, 46, 46, 46], [35, 46, 46, 46], [35, 46, 46, 46], [35, 46, 46, 46]] _ rfl⟩,
    ⟨rfl, canonical_pieces.2
      [35, 46, 46, 46, 10, 35, 46, 46, 46, 10, 35, 46, 46, 46, 10, 35, 46, 46, 46, 10] _ rfl⟩⟩

/-- C7: the parser accepts well-formed input and keeps order. For every
non-empty sequence of blocks, each accepted by `ValidateAndNormalize`, the
text made of the lines of the blocks joined by newlines, with one empty line
between consecutive blocks, followed or not by one final newline, is parsed
without error into one piece per block: the `i`-th piece is the piece that
`ValidateAndNormalize` makes of the `i`-th block. -/
theorem parse_wellformed (blocks : List (List GoString)) (pieces : List Piece)
    (final : Bool) (hne : blocks ≠ []) (hval : Validated blocks pieces) :
    ParseAndValidate (joinLines (blockLines blocks) ++ (if final then [10] else []))
      = .ok pieces ∧ pieces.length = blocks.length := by
  refine ⟨?_, validated_length hval⟩
  cases final with
  | false => simpa using parse_blocks_newlines blocks pieces 0 hne hval
  | true => simpa using parse_blocks_newlines blocks pieces 1 hne hval

/-- C7, witness: the text of the test, `#...\n#...\n#...\n#...\n`, parses to
exactly one piece. -/
theorem parse_wellformed_witness :
    ([[[35, 46, 46, 46], [35, 46, 46, 46], [35, 46, 46, 46], [35, 46, 46, 46]]] :
        List (List GoString)) ≠ [] ∧
    Validated [[[35, 46, 46, 46], [35, 46, 46, 46], [35, 46, 46, 46], [35, 46, 46, 46]]]
      [⟨[⟨0, 0⟩, ⟨0, 1⟩, ⟨0, 2⟩, ⟨0, 3⟩]⟩] ∧
    ParseAndValidate [35, 46, 46, 46, 10, 35, 46, 46, 46, 10, 35, 46, 46, 46, 10,
      35, 46, 46, 46, 10] = .ok [⟨[⟨0, 0⟩, ⟨0, 1⟩, ⟨0, 2⟩, ⟨0, 3⟩]⟩] ∧
    [(⟨[⟨0, 0⟩, ⟨0, 1⟩, ⟨0, 2⟩, ⟨0, 3⟩]⟩ : Piece)].length = 1 :=
  ⟨by simp, List.Forall₂.cons rfl List.Forall₂.nil,
    parse_wellformed [[[35, 46, 46, 46], [35, 46, 46, 46], [35, 46, 46, 46], [35, 46, 46, 46]]]
      [⟨[⟨0, 0⟩, ⟨0, 1⟩, ⟨0, 2⟩, ⟨0, 3⟩]⟩] true (by simp)
      (List.Forall₂.cons rfl List.Forall₂.nil)⟩

/-- C8: the parser rejects every framing error. If `ParseAndValidate`
returns a piece list, then the lines of the input (split at newlines, after
the replacement of `\r\n`) are `k >= 1` groups of four non-empty lines, each
group accepted by `ValidateAndNormalize` with the pieces returned in order,
one empty line between consecutive groups, followed only by empty lines. -/
theorem parse_framing (input : GoString) (pieces : List Piece)
    (h : ParseAndValidate input = .ok pieces) :
    ∃ (blocks : List (List GoString)) (m : Nat), blocks ≠ [] ∧
      (∀ b ∈ blocks, b.length = 4 ∧ ∀ l ∈ b, l ≠ []) ∧
      splitLines (replaceCRLF input) = blockLines blocks ++ List.replicate m [] ∧
      Validated blocks pieces := by
  obtain ⟨blocks, m, hne, hl, hval⟩ := parse_ok_shape h
  refine ⟨blocks, m, hne, ?_, hl, hval⟩
  intro b hb
  obtain ⟨h4, hg⟩ := validated_goodLines hval b hb
  exact ⟨h4, fun l hl2 => goodLine_ne_nil (hg l hl2)⟩

/-- C8, witness: the text of the test, `#...\n#...\n#...\n#...\n`. -/
theorem parse_framing_witness :
    ParseAndValidate [35, 46, 46, 46, 10, 35, 46, 46, 46, 10, 35, 46, 46, 46, 10,
      35, 46, 46, 46, 10] = .ok [⟨[⟨0, 0⟩, ⟨0, 1⟩, ⟨0, 2⟩, ⟨0, 3⟩]⟩] ∧
    ∃ (blocks : List (List GoString)) (m : Nat), blocks ≠ [] ∧
      (∀ b ∈ blocks, b.length = 4 ∧ ∀ l ∈ b, l ≠ []) ∧
      splitLines (replaceCRLF [35, 46, 46, 46, 10, 35, 46, 46, 46, 10, 35, 46, 46, 46, 10,
        35, 46, 46, 46, 10]) = blockLines blocks ++ List.replicate m [] ∧
      Validated blocks [⟨[⟨0, 0⟩, ⟨0, 1⟩, ⟨0, 2⟩, ⟨0, 3⟩]⟩] :=
  ⟨rfl, parse_framing _ _ rfl⟩

/-- C9: the text `#...\n#...\n#...\n#...\n\n`, one block followed by two
newline characters, is accepted: the parser returns its piece. -/
theorem parse_two_trailing_newlines :
    ParseAndValidate [35, 46, 46, 46, 10, 35, 46, 46, 46, 10, 35, 46, 46, 46, 10,
      35, 46, 46, 46, 10, 10] = .ok [⟨[⟨0, 0⟩, ⟨0, 1⟩, ⟨0, 2⟩, ⟨0, 3⟩]⟩] :=
  rfl

/-- C10: invalid characters are always rejected. If the input, after the
replacement of each `\r\n` by `\n`, has a byte other than the dot, the hash
and the newline, wherever it is, `ParseAndValidate` returns an error (and
does not panic). A character other than these three is made of such bytes
only, and every such byte belongs to such a character. -/
theorem parse_rejects_bad_byte (input : GoString) (b : UInt8)
    (hb : b ∈ replaceCRLF input) (h46 : b ≠ 46) (h35 : b ≠ 35) (h10 : b ≠ 10) :
    ∃ e, ParseAndValidate input = .error e ∧ e ≠ .indexOutOfRange := by
  cases hres : ParseAndValidate input with
  | error e =>
    refine ⟨e, rfl, ?_⟩
    intro he
    rw [he] at hres
    exact parse_no_panic input hres
  | ok pieces =>
    exfalso
    obtain ⟨blocks, m, _, hl, hval⟩ := parse_ok_shape hres
    obtain ⟨l, hl1, hbl⟩ := mem_splitLines hb h10
    rw [hl] at hl1
    rcases List.mem_append.1 hl1 with h1 | h1
    · rcases mem_blockLines blocks l h1 with h2 | ⟨blk, hblk, hl2⟩
      · rw [h2] at hbl; cases hbl
      · rcases ((validated_goodLines hval blk hblk).2 l hl2).2 b hbl with h3 | h3
        · exact h46 h3
        · exact h35 h3
    · rw [List.eq_of_mem_replicate h1] at hbl; cases hbl

/-- C10, witness: the text of the test, `....\n..#.\n..X.\n....\n`, is
rejected: the `X` is an invalid character. -/
theorem parse_rejects_bad_byte_witness :
    (88 : UInt8) ∈ replaceCRLF [46, 46, 46, 46, 10, 46, 46, 35, 46, 10, 46, 46, 88, 46, 10,
      46, 46, 46, 46, 10] ∧
    ∃ e, ParseAndValidate [46, 46, 46, 46, 10, 46, 46, 35, 46, 10, 46, 46, 88, 46, 10,
      46, 46, 46, 46, 10] = .error e ∧ e ≠ .indexOutOfRange :=
  ⟨by decide, parse_rejects_bad_byte _ 88 (by decide) (by decide) (by decide) (by decide)⟩

theorem bitLength_zero (fuel : Nat) : bitLength fuel 0 = 0 := by
  cases fuel <;> simp [bitLength]

/-- The binary digits of a positive number below `2 ^ fuel`. -/
theorem bitLength_spec : ∀ (fuel x : Nat), x < 2 ^ fuel → x ≠ 0 →
    ∃ k, bitLength fuel x = k + 1 ∧ 2 ^ k ≤ x ∧ x < 2 ^ (k + 1)
  | 0, x, h, h0 => by
    simp only [pow_zero] at h
    omega
  | fuel + 1, x, h, h0 => by
    simp only [bitLength, if_neg h0]
    by_cases hx : x / 2 = 0
    · have h1 : x = 1 := by omega
      refine ⟨0, ?_, ?_, ?_⟩
      · rw [hx, bitLength_zero]
      · rw [h1]; norm_num
      · rw [h1]; norm_num
    · have hlt : x / 2 < 2 ^ fuel := by
        rw [pow_succ] at h
        omega
      obtain ⟨k, hk, h1, h2⟩ := bitLength_spec fuel (x / 2) hlt hx
      refine ⟨k + 1, by rw [hk], ?_, ?_⟩
      · rw [pow_succ]; omega
      · rw [pow_succ] at h2 ⊢; omega

theorem roundHalfEven_le (x e : Nat) : 2 * roundHalfEven x e ≤ 2 * x + 2 ^ e := by
  have hx := Nat.div_add_mod' x (2 ^ e)
  have hP : 0 < 2 ^ e := Nat.two_pow_pos _
  unfold roundHalfEven
  simp only
  split_ifs with h1 h2
  · omega
  · omega
  · rw [Nat.add_mul, Nat.one_mul]
    omega

theorem roundHalfEven_ge (x e : Nat) : x / 2 ^ e * 2 ^ e ≤ roundHalfEven x e := by
  unfold roundHalfEven
  simp only
  split_ifs with h1 h2
  · exact le_refl _
  · exact le_refl _
  · rw [Nat.add_mul, Nat.one_mul]
    omega

theorem roundHalfEven_of_dvd (x e : Nat) (h : x % 2 ^ e = 0) : roundHalfEven x e = x := by
  have hx := Nat.div_add_mod' x (2 ^ e)
  have hP : 0 < 2 ^ e := Nat.two_pow_pos _
  unfold roundHalfEven
  simp only
  rw [h] at hx ⊢
  rw [if_pos (by omega)]
  omega

/-- The digit by digit square root keeps `r^2 <= x < (r + 2^bits)^2`. -/
theorem isqrtFrom_spec (x : Nat) : ∀ (bits r : Nat), r * r ≤ x →
    x < (r + 2 ^ bits) * (r + 2 ^ bits) →
    isqrtFrom x bits r * isqrtFrom x bits r ≤ x ∧
      x < (isqrtFrom x bits r + 1) * (isqrtFrom x bits r + 1)
  | 0, r, h1, h2 => by
    simp only [isqrtFrom]
    simp only [pow_zero] at h2
    exact ⟨h1, h2⟩
  | bits + 1, r, h1, h2 => by
    simp only [isqrtFrom]
    split_ifs with h
    · apply isqrtFrom_spec x bits _ h
      have e : r + 2 ^ bits + 2 ^ bits = r + 2 ^ (bits + 1) := by
        rw [pow_succ]; omega
      rw [e]
      exact h2
    · exact isqrtFrom_spec x bits r h1 (Nat.lt_of_not_le h)

theorem isqrt_spec (x : Nat) (hx : x < 2 ^ 128) :
    isqrt x * isqrt x ≤ x ∧ x < (isqrt x + 1) * (isqrt x + 1) := by
  apply isqrtFrom_spec x 64 0 (Nat.zero_le _)
  have e : (0 + 2 ^ 64) * (0 + 2 ^ 64) = 2 ^ 128 := by norm_num
  rw [e]
  exact hx

theorem four_pow (s : Nat) : 4 ^ s = 2 ^ s * 2 ^ s := by
  rw [← Nat.mul_pow]

/-- The scale of the root: the square has 105 or 106 binary digits, so the
root has 53. -/
theorem sqrt_scale (f : Nat) (h0 : f ≠ 0) (hf : f < 2 ^ 64) :
    2 ^ 104 ≤ f * 4 ^ ((106 - bitLength 64 f) / 2) ∧
      f * 4 ^ ((106 - bitLength 64 f) / 2) < 2 ^ 106 := by
  obtain ⟨k, hk, h1, h2⟩ := bitLength_spec 64 f hf h0
  have hk64 : k < 64 := by
    by_contra hcon
    have : 2 ^ 64 ≤ 2 ^ k := Nat.pow_le_pow_right (by norm_num) (by omega)
    omega
  rw [hk]
  have e4 : (4 : Nat) ^ ((106 - (k + 1)) / 2) = 2 ^ (2 * ((106 - (k + 1)) / 2)) := by
    rw [pow_mul]; norm_num
  rw [e4]
  constructor
  · calc 2 ^ 104 ≤ 2 ^ (k + 2 * ((106 - (k + 1)) / 2)) :=
          Nat.pow_le_pow_right (by norm_num) (by omega)
      _ = 2 ^ k * 2 ^ (2 * ((106 - (k + 1)) / 2)) := pow_add 2 k _
      _ ≤ f * 2 ^ (2 * ((106 - (k + 1)) / 2)) := Nat.mul_le_mul_right _ h1
  · calc f * 2 ^ (2 * ((106 - (k + 1)) / 2))
        < 2 ^ (k + 1) * 2 ^ (2 * ((106 - (k + 1)) / 2)) :=
          Nat.mul_lt_mul_of_pos_right h2 (Nat.two_pow_pos _)
      _ = 2 ^ (k + 1 + 2 * ((106 - (k + 1)) / 2)) := (pow_add 2 (k + 1) _).symm
      _ ≤ 2 ^ 106 := Nat.pow_le_pow_right (by norm_num) (by omega)

theorem ceilToInt_le (m s c : Nat) (h : m ≤ c * 2 ^ s) : ceilToInt (m, s) ≤ c := by
  have hP : 0 < 2 ^ s := Nat.two_pow_pos _
  unfold ceilToInt
  simp only
  apply Nat.le_of_lt_succ
  rw [Nat.div_lt_iff_lt_mul hP, Nat.succ_mul]
  omega

theorem le_ceilToInt (m s : Nat) : m ≤ ceilToInt (m, s) * 2 ^ s := by
  have hP : 0 < 2 ^ s := Nat.two_pow_pos _
  unfold ceilToInt
  simp only
  have h1 := Nat.div_add_mod' (m + 2 ^ s - 1) (2 ^ s)
  have h2 := Nat.mod_lt (m + 2 ^ s - 1) hP
  omega

/-- The rounded root stays at or below a number `M` with
`g <= M^2 + M`, that is with the exact root below `M + 1/2`. -/
theorem sqrt_round_le (g M : Nat) (hg : g < 2 ^ 128) (h : g ≤ M * M + M) :
    (if isqrt g * isqrt g + isqrt g < g then isqrt g + 1 else isqrt g) ≤ M := by
  obtain ⟨h1, h2⟩ := isqrt_spec g hg
  have hle : isqrt g ≤ M := by
    by_contra hcon
    have h3 : M + 1 ≤ isqrt g := by omega
    have h4 := Nat.mul_le_mul h3 h3
    have h5 : (M + 1) * (M + 1) = M * M + 2 * M + 1 := by ring
    omega
  split_ifs with hr
  · by_contra hcon
    have h3 : isqrt g = M := by omega
    rw [h3] at hr
    omega
  · exact hle

/-- The float computation never gives more than the exact ceiling of the
root: for every `s` with `x <= s^2` the result is at most `s`. -/
theorem float_root_le (x s : Nat) (hx : x < 2 ^ 63) (h : x ≤ s * s) :
    ceilToInt (sqrtFloat64 (toFloat64 x)) ≤ s := by
  by_cases h0 : x = 0
  · subst h0
    have e : ceilToInt (sqrtFloat64 (toFloat64 0)) = 0 := by decide
    rw [e]
    exact Nat.zero_le _
  obtain ⟨k, hk, hk1, hk2⟩ := bitLength_spec 64 x (by omega) h0
  have hk63 : k < 63 := by
    by_contra hcon
    have : 2 ^ 63 ≤ 2 ^ k := Nat.pow_le_pow_right (by norm_num) (by omega)
    omega
  have hfle := roundHalfEven_le x (k + 1 - 53)
  have hfge := roundHalfEven_ge x (k + 1 - 53)
  have he10 : 2 ^ (k + 1 - 53) ≤ 2 ^ 10 := Nat.pow_le_pow_right (by norm_num) (by omega)
  have hf64 : toFloat64 x < 2 ^ 64 := by
    unfold toFloat64
    rw [hk]
    omega
  unfold sqrtFloat64
  simp only
  apply ceilToInt_le
  have hW := four_pow ((106 - bitLength 64 (toFloat64 x)) / 2)
  by_cases hf0 : toFloat64 x = 0
  · rw [hf0]
    simp only [Nat.zero_mul]
    have e : (if isqrt 0 * isqrt 0 + isqrt 0 < 0 then isqrt 0 + 1 else isqrt 0) = 0 := by
      decide
    rw [e]
    exact Nat.zero_le _
  obtain ⟨hg1, hg2⟩ := sqrt_scale (toFloat64 x) hf0 hf64
  apply sqrt_round_le _ _
    (lt_of_lt_of_le hg2 (Nat.pow_le_pow_right (by norm_num) (by norm_num)))
  rw [hW]
  generalize hWdef : 2 ^ ((106 - bitLength 64 (toFloat64 x)) / 2) = W
  by_cases hfs : toFloat64 x ≤ s * s
  · have h1 := Nat.mul_le_mul_right (W * W) hfs
    have h2 : s * s * (W * W) = s * W * (s * W) := by ring
    omega
  · -- the conversion rounded up, past `s * s`
    have hfx : x < toFloat64 x := by omega
    have he : 54 ≤ k + 1 := by
      by_contra hcon
      have e0 : k + 1 - 53 = 0 := by omega
      have : toFloat64 x = x := by
        unfold toFloat64
        rw [hk, e0]
        exact roundHalfEven_of_dvd x 0 (by rw [pow_zero]; exact Nat.mod_one x)
      omega
    obtain ⟨e1, he1⟩ : ∃ e1, k + 1 - 53 = e1 + 1 := ⟨k + 1 - 53 - 1, by omega⟩
    have hD : toFloat64 x ≤ s * s + 2 ^ e1 := by
      unfold toFloat64 at hfx ⊢
      rw [hk] at hfx ⊢
      rw [he1, pow_succ] at hfle
      rw [he1]
      omega
    obtain ⟨kf, hkf, hkf1, hkf2⟩ := bitLength_spec 64 (toFloat64 x) hf64 hf0
    have hkk : k ≤ kf := by
      by_contra hcon
      have : 2 ^ (kf + 1) ≤ 2 ^ k := Nat.pow_le_pow_right (by norm_num) (by omega)
      omega
    rw [hkf] at hWdef
    -- `2 ^ e1 * W` is below `s`
    have hT : 2 ^ e1 * W < s := by
      by_contra hcon
      have h1 : s ≤ 2 ^ e1 * W := by omega
      have h2 := Nat.mul_le_mul h1 h1
      have h3 : 2 ^ e1 * W * (2 ^ e1 * W)
          = 2 ^ (e1 + (106 - (kf + 1)) / 2 + (e1 + (106 - (kf + 1)) / 2)) := by
        rw [← hWdef, ← pow_add, ← pow_add]
      have h4 : 2 ^ (e1 + (106 - (kf + 1)) / 2 + (e1 + (106 - (kf + 1)) / 2)) < 2 ^ k :=
        Nat.pow_lt_pow_right (by norm_num) (by omega)
      omega
    have h1 := Nat.mul_le_mul_right (W * W) hD
    have h2 : (s * s + 2 ^ e1) * (W * W) = s * W * (s * W) + 2 ^ e1 * W * W := by ring
    have h3 := Nat.mul_le_mul_right W (Nat.le_of_lt hT)
    omega

/-- Up to `4 * n = 2^54` the float computation gives at least the exact
root: the square of the result is at least `4 * n`. -/
theorem float_root_sq (n : Nat) (hn : n ≤ 4503599627370496) :
    4 * n ≤ ceilToInt (sqrtFloat64 (toFloat64 (4 * n)))
      * ceilToInt (sqrtFloat64 (toFloat64 (4 * n))) := by
  by_cases h0 : n = 0
  · subst h0
    exact Nat.zero_le _
  have hx0 : 4 * n ≠ 0 := by omega
  obtain ⟨k, hk, hk1, hk2⟩ := bitLength_spec 64 (4 * n) (by omega) hx0
  have hk55 : k < 55 := by
    by_contra hcon
    have : 2 ^ 55 ≤ 2 ^ k := Nat.pow_le_pow_right (by norm_num) (by omega)
    omega
  have hf : toFloat64 (4 * n) = 4 * n := by
    unfold toFloat64
    rw [hk]
    apply roundHalfEven_of_dvd
    have he : k + 1 - 53 = 0 ∨ k + 1 - 53 = 1 ∨ k + 1 - 53 = 2 := by omega
    rcases he with he | he | he <;> rw [he] <;> norm_num <;> omega
  rw [hf]
  obtain ⟨hg1, hg2⟩ := sqrt_scale (4 * n) hx0 (by omega)
  unfold sqrtFloat64
  simp only
  have hW := four_pow ((106 - bitLength 64 (4 * n)) / 2)
  rw [hW] at hg1 hg2 ⊢
  have hWpos : 0 < 2 ^ ((106 - bitLength 64 (4 * n)) / 2) := Nat.two_pow_pos _
  generalize hsdef : (106 - bitLength 64 (4 * n)) / 2 = sf at *
  generalize hWdef : 2 ^ sf = W at *
  generalize hgdef : 4 * n * (W * W) = g at *
  obtain ⟨hm1, hm2⟩ := isqrt_spec g
    (lt_of_lt_of_le hg2 (Nat.pow_le_pow_right (by norm_num) (by norm_num)))
  generalize hm0 : isqrt g = m0 at *
  have hceil := le_ceilToInt (if m0 * m0 + m0 < g then m0 + 1 else m0) sf
  rw [hWdef] at hceil
  generalize hR0 : ceilToInt (if m0 * m0 + m0 < g then m0 + 1 else m0, sf) = R0 at *
  by_contra hcon
  have hlt : R0 * R0 < 4 * n := by omega
  -- the square of an integer is 0 or 1 modulo 4
  have hmod : R0 * R0 + 3 ≤ 4 * n := by
    rcases Nat.even_or_odd' R0 with ⟨a, ha | ha⟩
    · have e : R0 * R0 = 4 * (a * a) := by rw [ha]; ring
      omega
    · have e : R0 * R0 = 4 * (a * a + a) + 1 := by rw [ha]; ring
      omega
  have hRg : R0 * W * (R0 * W) + 3 * (W * W) ≤ g := by
    have h1 := Nat.mul_le_mul_right (W * W) hmod
    have h2 : (R0 * R0 + 3) * (W * W) = R0 * W * (R0 * W) + 3 * (W * W) := by ring
    omega
  have hWW : 0 < W * W := Nat.mul_pos hWpos hWpos
  -- the root was not rounded up, and it is `R0 * W`
  have hle : R0 * W ≤ m0 := by
    by_contra hc2
    have h3 : m0 + 1 ≤ R0 * W := by omega
    have h4 := Nat.mul_le_mul h3 h3
    omega
  have hnr : ¬ m0 * m0 + m0 < g := by
    intro hr
    rw [if_pos hr] at hceil
    omega
  rw [if_neg hnr] at hceil
  have heq : R0 * W = m0 := by omega
  have h3W : 3 * W ≤ R0 := by
    have h5 : 3 * (W * W) ≤ R0 * W := by
      rw [← heq] at hnr hm1
      omega
    have h6 : 3 * W * W ≤ R0 * W := by
      rw [Nat.mul_assoc]; exact h5
    exact Nat.le_of_mul_le_mul_right h6 hWpos
  have hR27 : R0 < 2 ^ 27 := by
    by_contra hc2
    have h3 : 2 ^ 27 ≤ R0 := by omega
    have h4 := Nat.mul_le_mul h3 h3
    have h5 : (2 : Nat) ^ 27 * 2 ^ 27 = 2 ^ 54 := by norm_num
    omega
  have hm52 : 2 ^ 52 ≤ m0 := by
    by_contra hc2
    have h3 : m0 + 1 ≤ 2 ^ 52 := by omega
    have h4 := Nat.mul_le_mul h3 h3
    have h5 : (2 : Nat) ^ 52 * 2 ^ 52 = 2 ^ 104 := by norm_num
    omega
  have hW25 : 2 ^ 25 < W := by
    by_contra hc2
    have h3 : W ≤ 2 ^ 25 := by omega
    have h4 : R0 * W ≤ (2 ^ 27 - 1) * 2 ^ 25 := Nat.mul_le_mul (by omega) h3
    have h5 : ((2 : Nat) ^ 27 - 1) * 2 ^ 25 < 2 ^ 52 := by norm_num
    omega
  have hs26 : 26 ≤ sf := by
    by_contra hc2
    have : 2 ^ sf ≤ 2 ^ 25 := Nat.pow_le_pow_right (by norm_num) (by omega)
    omega
  have hW26 : 2 ^ 26 ≤ W := by
    rw [← hWdef]
    exact Nat.pow_le_pow_right (by norm_num) hs26
  omega

theorem wrapInt64_of_lt (v : Nat) (h : v < 9223372036854775808) :
    wrapInt64 (v : Int) = (v : Int) := by
  unfold wrapInt64
  omega

theorem wrapInt64_toNat_le (v : Nat) (h : ¬ wrapInt64 (v : Int) < 0) :
    (wrapInt64 (v : Int)).toNat ≤ v ∧ (wrapInt64 (v : Int)).toNat < 2 ^ 63 := by
  unfold wrapInt64 at h ⊢
  omega

theorem two_le_minStartSize (n : Nat) : 2 ≤ MinStartSize n := by
  simp only [MinStartSize]
  split_ifs <;> omega

/-- The start size is at most every `s >= 2` with `4 * n <= s * s`. -/
theorem minStartSize_le (n s : Nat) (h2 : 2 ≤ s) (h : 4 * n ≤ s * s) : MinStartSize n ≤ s := by
  simp only [MinStartSize]
  by_cases hneg : wrapInt64 (4 * (n : Int)) < 0
  · rw [if_pos hneg, if_pos (by unfold intOfNaN; omega)]
    exact h2
  · rw [if_neg hneg]
    have hw := wrapInt64_toNat_le (4 * n) (by push_cast; exact hneg)
    push_cast at hw
    have := float_root_le _ s hw.2 (le_trans hw.1 h)
    split_ifs <;> omega

/-- A board below the start size has fewer cells than the pieces need. -/
theorem lt_minStartSize {n t : Nat} (hn : 0 < n) (ht : t < MinStartSize n) : t * t < 4 * n := by
  by_contra hcon
  by_cases h2 : 2 ≤ t
  · have := minStartSize_le n t h2 (by omega)
    omega
  · have h1 : t ≤ 1 := by omega
    have h3 : t * t ≤ 1 * 1 := Nat.mul_le_mul h1 h1
    omega

/-- Up to `2^52` pieces the start size is the least `s >= 2` with
`4 * n <= s * s`. -/
theorem minStartSize_spec (n : Nat) (hn : n ≤ 4503599627370496) :
    2 ≤ MinStartSize n ∧ 4 * n ≤ MinStartSize n * MinStartSize n ∧
    ∀ s, 2 ≤ s → 4 * n ≤ s * s → MinStartSize n ≤ s := by
  refine ⟨two_le_minStartSize n, ?_, fun s h2 h => minStartSize_le n s h2 h⟩
  have hsq := float_root_sq n hn
  have hw : wrapInt64 (4 * (n : Int)) = ((4 * n : Nat) : Int) := by
    have := wrapInt64_of_lt (4 * n) (by omega)
    push_cast at this ⊢
    exact this
  simp only [MinStartSize]
  have hnn : ¬ ((4 * n : Nat) : Int) < 0 := by omega
  rw [hw, if_neg hnn]
  have ht : ((4 * n : Nat) : Int).toNat = 4 * n := Int.toNat_natCast _
  rw [ht]
  generalize ceilToInt (sqrtFloat64 (toFloat64 (4 * n))) = R at *
  split_ifs with h
  · have h1 : R ≤ 1 := by omega
    have h3 : R * R ≤ 1 * 1 := Nat.mul_le_mul h1 h1
    omega
  · rw [Int.toNat_natCast]
    exact hsq

theorem pieceCells_nodup {p : Piece} (a : Int × Int) (h : p.Blocks.Nodup) :
    (pieceCells p a).Nodup := by
  unfold pieceCells
  refine List.Nodup.map ?_ h
  intro b c hbc
  simp only [Prod.mk.injEq, add_right_inj] at hbc
  cases b; cases c
  simp only [Point.mk.injEq]
  exact hbc

/-- The cells of a placement of pieces of four distinct blocks, one list
without repetition. -/
theorem placement_cells : ∀ (ps : List Piece) (as : List (Int × Int)),
    as.length = ps.length → (∀ p ∈ ps, p.Blocks.length = 4 ∧ p.Blocks.Nodup) →
    (∀ j k, j ≠ k → ∀ c ∈ cellsOf ps as j, c ∉ cellsOf ps as k) →
    ∃ cells : List (Int × Int), cells.Nodup ∧ cells.length = 4 * ps.length ∧
      ∀ c, c ∈ cells ↔ ∃ k, c ∈ cellsOf ps as k
  | [], as, _, _, _ => ⟨[], List.nodup_nil, rfl, fun c => by simp [cellsOf_nil_left]⟩
  | p :: ps, [], hlen, _, _ => by simp at hlen
  | p :: ps, a :: as, hlen, hp, hdis => by
    obtain ⟨cells, hnd, hl, hmem⟩ := placement_cells ps as
      (by simpa using hlen) (fun q hq => hp q (List.mem_cons_of_mem _ hq))
      (fun j k hjk c hc => by
        have := hdis (j + 1) (k + 1) (by omega) c (by rw [cellsOf_succ]; exact hc)
        rw [cellsOf_succ] at this
        exact this)
    refine ⟨pieceCells p a ++ cells, ?_, ?_, ?_⟩
    · rw [List.nodup_append]
      refine ⟨pieceCells_nodup a (hp p (by simp)).2, hnd, ?_⟩
      intro c hc1 hc2
      obtain ⟨k, hk⟩ := (hmem c).1 hc2
      refine hdis 0 (k + 1) (by omega) c (by rw [cellsOf_zero]; exact hc1) ?_
      rw [cellsOf_succ]; exact hk
    · rw [List.length_append, hl]
      simp only [pieceCells, List.length_map, (hp p (by simp)).1, List.length_cons]
      omega
    · intro c
      constructor
      · intro hc
        rcases List.mem_append.1 hc with h1 | h1
        · exact ⟨0, by rw [cellsOf_zero]; exact h1⟩
        · obtain ⟨k, hk⟩ := (hmem c).1 h1
          exact ⟨k + 1, by rw [cellsOf_succ]; exact hk⟩
      · rintro ⟨k, hk⟩
        cases k with
        | zero => rw [cellsOf_zero] at hk; exact List.mem_append_left _ hk
        | succ k =>
          rw [cellsOf_succ] at hk
          exact List.mem_append_right _ ((hmem c).2 ⟨k, hk⟩)

/-- The area argument: a valid placement of canonical pieces needs four
cells of the board for each piece. -/
theorem placement_area {n : Nat} {ps : List Piece} {as : List (Int × Int)}
    (hc : ∀ p ∈ ps, Canonical p) (hv : ValidPlacement n ps as) : 4 * ps.length ≤ n * n := by
  obtain ⟨cells, hnd, hlen, hmem⟩ := placement_cells ps as hv.length_eq
    (fun p hp => ⟨(hc p hp).1, (hc p hp).2.1⟩) hv.disjoint
  have hsub : cells ⊆ (List.range n ×ˢ List.range n).map
      (fun (c : Nat × Nat) => ((c.1 : Int), (c.2 : Int))) := by
    intro c hcm
    obtain ⟨k, hk⟩ := (hmem c).1 hcm
    obtain ⟨he, hx, hy⟩ := inBoard_cast (hv.inside k c hk)
    rw [List.mem_map]
    exact ⟨(c.1.toNat, c.2.toNat), by
      rw [List.mem_product]; exact ⟨List.mem_range.2 hx, List.mem_range.2 hy⟩, he.symm⟩
  have := (hnd.subperm hsub).length_le
  rw [List.length_map, List.length_product, List.length_range, hlen] at this
  exact this

theorem mem_cellsOf_rowAnchors {ps : List Piece} {k : Nat} {c : Int × Int}
    (hc : ∀ p ∈ ps, Canonical p) (h : c ∈ cellsOf ps (rowAnchors ps.length) k) :
    k < ps.length ∧ 4 * (k : Int) ≤ c.1 ∧ c.1 ≤ 4 * (k : Int) + 3 ∧ 0 ≤ c.2 ∧ c.2 ≤ 3 := by
  have hk := mem_cellsOf_lt h
  have ha : (rowAnchors ps.length)[k]? = some (4 * (k : Int), 0) := by
    simp [rowAnchors, List.getElem?_range hk]
  simp only [cellsOf, List.getElem?_eq_getElem hk, ha, pieceCells, List.mem_map] at h
  obtain ⟨b, hb, rfl⟩ := h
  have hbnd := (hc ps[k] (List.getElem_mem hk)).2.2.1 b hb
  refine ⟨hk, ?_, ?_, ?_, ?_⟩ <;> simp only <;> omega

/-- Canonical pieces fit side by side on the board of edge `4 * len`. -/
theorem rowAnchors_valid {ps : List Piece} (hc : ∀ p ∈ ps, Canonical p) :
    ValidPlacement (4 * ps.length) ps (rowAnchors ps.length) := by
  refine ⟨by simp [rowAnchors], ?_, ?_⟩
  · intro k c h
    obtain ⟨hk, h1, h2, h3, h4⟩ := mem_cellsOf_rowAnchors hc h
    refine ⟨by omega, ?_, h3, ?_⟩ <;> push_cast <;> omega
  · intro j k hjk c h1 h2
    obtain ⟨_, a1, a2, _, _⟩ := mem_cellsOf_rowAnchors hc h1
    obtain ⟨_, b1, b2, _, _⟩ := mem_cellsOf_rowAnchors hc h2
    omega

/-- The retry loop stops at the first size that `Solve` accepts. -/
theorem retryLoop_first (pieces : List Piece) (s : Nat) (board : Board)
    (hs : Solve (NewBoard s) pieces 0 = some (true, board)) :
    ∀ (d size tries : Nat), size + d = s → d < tries →
    (∀ t, size ≤ t → t < s → ∃ b, Solve (NewBoard t) pieces 0 = some (false, b)) →
    retryLoop pieces tries size = .solved s board := by
  intro d
  induction d with
  | zero =>
    intro size tries hsz htr _
    obtain ⟨tries, rfl⟩ := Nat.exists_eq_succ_of_ne_zero (by omega : tries ≠ 0)
    have : size = s := by omega
    subst this
    simp only [retryLoop, hs]
  | succ d ih =>
    intro size tries hsz htr hfail
    obtain ⟨tries, rfl⟩ := Nat.exists_eq_succ_of_ne_zero (by omega : tries ≠ 0)
    obtain ⟨b, hb⟩ := hfail size (le_refl _) (by omega)
    simp only [retryLoop, hb]
    exact ih (size + 1) tries (by omega) (by omega)
      (fun t h1 h2 => hfail t (by omega) h2)

/-- C3: minimality of the found board. For every piece list that
`ParseAndValidate` returns (it is never empty): no valid placement exists on
a board with edge below `MinStartSize(len(pieces))`; when `main` lets the
list through to the retry loop (at most 26 pieces), the loop, started at
`MinStartSize(len(pieces))` and adding 1 after each failed `Solve` on a fresh
board, first succeeds at an edge `s`, and `s` is the least edge for which a
valid placement of all the pieces exists; a list of more than 26 pieces never
reaches the loop, `main` prints `ERROR`. -/
theorem retry_minimal (input : GoString) (pieces : List Piece)
    (h : ParseAndValidate input = .ok pieces) :
    (∀ t, t < MinStartSize pieces.length → ¬ ∃ as, ValidPlacement t pieces as) ∧
    (pieces.length ≤ 26 →
      ∃ s board, MinStartSize pieces.length ≤ s ∧
        (∀ tries, s - MinStartSize pieces.length < tries → main input tries = .solved s board) ∧
        (∃ as, ValidPlacement s pieces as ∧ Drawn s pieces as board) ∧
        ∀ t, t < s → ¬ ∃ as, ValidPlacement t pieces as) ∧
    (26 < pieces.length → ∀ tries, main input tries = .error) := by
  have hcan := parse_canonical h
  have hne : pieces ≠ [] := ((parse_ok_iff input pieces).1 h).2
  have hpos : 0 < pieces.length := List.length_pos.2 hne
  have hbelow : ∀ t, t < MinStartSize pieces.length → ¬ ∃ as, ValidPlacement t pieces as := by
    rintro t ht ⟨as, hv⟩
    have h1 := lt_minStartSize hpos ht
    have h2 := placement_area hcan hv
    omega
  refine ⟨hbelow, ?_, ?_⟩
  · intro h26
    classical
    have hex : ∃ t, ∃ as, ValidPlacement t pieces as :=
      ⟨4 * pieces.length, rowAnchors pieces.length, rowAnchors_valid hcan⟩
    have hanch : ∀ p ∈ pieces, Anchored p := fun p hp => (hcan p hp).2.2.2
    obtain ⟨as, hv⟩ := Nat.find_spec hex
    have hmin : ∀ t, t < Nat.find hex → ¬ ∃ as, ValidPlacement t pieces as :=
      fun t ht => Nat.find_min hex ht
    obtain ⟨board, hsolve⟩ := solve_true_of_valid (valid_anchors_onBoard hanch hv) hv
    obtain ⟨as2, _, hv2, hdrawn⟩ := solve_true_valid (by omega) hsolve
    have hstart : MinStartSize pieces.length ≤ Nat.find hex := by
      by_contra hcon
      exact hbelow _ (by omega) ⟨as, hv⟩
    refine ⟨Nat.find hex, board, hstart, ?_, ⟨as2, hv2, hdrawn⟩, hmin⟩
    intro tries htries
    have hmain : main input tries = retryLoop pieces tries (MinStartSize pieces.length) := by
      simp only [main, h]
      rw [if_neg (by omega), if_neg (by omega)]
    rw [hmain]
    refine retryLoop_first pieces _ board hsolve (Nat.find hex - MinStartSize pieces.length) _ _
      (by omega) htries ?_
    intro t _ ht2
    obtain ⟨r, f, hrf⟩ := solve_total t pieces
    cases r with
    | false => exact ⟨f, hrf⟩
    | true =>
      obtain ⟨as3, _, hv3, _⟩ := solve_true_valid (by omega) hrf
      exact absurd ⟨as3, hv3⟩ (hmin t ht2)
  · intro h26 tries
    simp only [main, h]
    rw [if_neg (by omega), if_pos h26]

/-- C3, witness: the text of the test, `#...\n#...\n#...\n#...\n`. The
boards of edge 2 and 3 fail and the board of edge 4 is printed. -/
theorem retry_minimal_witness :
    ParseAndValidate [35, 46, 46, 46, 10, 35, 46, 46, 46, 10, 35, 46, 46, 46, 10,
      35, 46, 46, 46, 10] = .ok [⟨[⟨0, 0⟩, ⟨0, 1⟩, ⟨0, 2⟩, ⟨0, 3⟩]⟩] ∧
    main [35, 46, 46, 46, 10, 35, 46, 46, 46, 10, 35, 46, 46, 46, 10, 35, 46, 46, 46, 10] 3
      = .solved 4 [[65, 46, 46, 46], [65, 46, 46, 46], [65, 46, 46, 46], [65, 46, 46, 46]] ∧
    ((∀ t, t < MinStartSize 1 →
        ¬ ∃ as, ValidPlacement t [⟨[⟨0, 0⟩, ⟨0, 1⟩, ⟨0, 2⟩, ⟨0, 3⟩]⟩] as) ∧
      (1 ≤ 26 →
        ∃ s board, MinStartSize 1 ≤ s ∧
          (∀ tries, s - MinStartSize 1 < tries →
            main [35, 46, 46, 46, 10, 35, 46, 46, 46, 10, 35, 46, 46, 46, 10,
              35, 46, 46, 46, 10] tries = .solved s board) ∧
          (∃ as, ValidPlacement s [⟨[⟨0, 0⟩, ⟨0, 1⟩, ⟨0, 2⟩, ⟨0, 3⟩]⟩] as ∧
            Drawn s [⟨[⟨0, 0⟩, ⟨0, 1⟩, ⟨0, 2⟩, ⟨0, 3⟩]⟩] as board) ∧
          ∀ t, t < s → ¬ ∃ as, ValidPlacement t [⟨[⟨0, 0⟩, ⟨0, 1⟩, ⟨0, 2⟩, ⟨0, 3⟩]⟩] as) ∧
      (26 < 1 → ∀ tries,
        main [35, 46, 46, 46, 10, 35, 46, 46, 46, 10, 35, 46, 46, 46, 10,
          35, 46, 46, 46, 10] tries = .error)) :=
  ⟨rfl, rfl, retry_minimal
    [35, 46, 46, 46, 10, 35, 46, 46, 46, 10, 35, 46, 46, 46, 10, 35, 46, 46, 46, 10]
    [⟨[⟨0, 0⟩, ⟨0, 1⟩, ⟨0, 2⟩, ⟨0, 3⟩]⟩] rfl⟩

theorem replaceCRLF_cons_ne (b : UInt8) (t : GoString) (hb : b ≠ 13) :
    replaceCRLF (b :: t) = b :: replaceCRLF t := by
  cases t with
  | nil => simp [replaceCRLF]
  | cons c rest => simp [replaceCRLF, hb]

theorem replaceCRLF_toCRLF : ∀ s : GoString, (13 : UInt8) ∉ s → replaceCRLF (toCRLF s) = s
  | [], _ => rfl
  | b :: rest, h => by
    have hb : b ≠ 13 := fun e => h (by simp [e])
    have ih := replaceCRLF_toCRLF rest (fun hm => h (List.mem_cons_of_mem _ hm))
    by_cases h10 : b = 10
    · simp [toCRLF, h10, replaceCRLF, ih]
    · simp only [toCRLF, if_neg h10]
      rw [replaceCRLF_cons_ne b _ hb, ih]

theorem ceilSqrtFrom_spec (blocks : Nat) : ∀ (fuel s : Nat),
    (∀ t, t < s → t * t < blocks) → blocks ≤ (s + fuel) * (s + fuel) →
    blocks ≤ ceilSqrtFrom blocks fuel s * ceilSqrtFrom blocks fuel s ∧
      ∀ t, t < ceilSqrtFrom blocks fuel s → t * t < blocks
  | 0, s, hlow, hhigh => by
    simp only [ceilSqrtFrom]
    exact ⟨by simpa using hhigh, hlow⟩
  | fuel + 1, s, hlow, hhigh => by
    simp only [ceilSqrtFrom]
    split_ifs with h
    · exact ⟨h, hlow⟩
    · refine ceilSqrtFrom_spec blocks fuel (s + 1) ?_ ?_
      · intro t ht
        rcases Nat.lt_succ_iff_lt_or_eq.1 ht with h1 | h1
        · exact hlow t h1
        · rw [h1]; exact Nat.lt_of_not_le h
      · rw [show s + 1 + fuel = s + (fuel + 1) by omega]; exact hhigh

/-- The value of `ceilSqrt` is the least `s` with `blocks <= s * s`. -/
theorem ceilSqrt_spec (blocks : Nat) :
    blocks ≤ ceilSqrt blocks * ceilSqrt blocks ∧ ∀ t, t < ceilSqrt blocks → t * t < blocks := by
  apply ceilSqrtFrom_spec blocks blocks 0
  · intro t ht; omega
  · rw [Nat.zero_add]; exact Nat.le_mul_self blocks

/-- C11 (amended): the sizing heuristic. With the square root taken exactly
(`ceilSqrt (4 * n)` is the least `c` with `4 * n <= c * c`): for every piece
count `n`, `MinStartSize(n)` is at least 2 and at most
`max(2, ceil(sqrt(4 * n)))`; and for every `n` up to `2^52 = 4503599627370496`
it is equal to `max(2, ceil(sqrt(4 * n)))`, the smallest integer `s >= 2` with
`s * s >= 4 * n`. -/
theorem minStartSize_least (n : Nat) :
    (4 * n ≤ ceilSqrt (4 * n) * ceilSqrt (4 * n) ∧
      ∀ t, t < ceilSqrt (4 * n) → t * t < 4 * n) ∧
    2 ≤ MinStartSize n ∧ MinStartSize n ≤ max 2 (ceilSqrt (4 * n)) ∧
    (n ≤ 4503599627370496 →
      MinStartSize n = max 2 (ceilSqrt (4 * n)) ∧
      4 * n ≤ MinStartSize n * MinStartSize n ∧
      ∀ s, 2 ≤ s → 4 * n ≤ s * s → MinStartSize n ≤ s) := by
  have hc := ceilSqrt_spec (4 * n)
  have hle : MinStartSize n ≤ max 2 (ceilSqrt (4 * n)) := by
    apply minStartSize_le n _ (le_max_left _ _)
    exact le_trans hc.1 (Nat.mul_le_mul (le_max_right _ _) (le_max_right _ _))
  refine ⟨hc, two_le_minStartSize n, hle, ?_⟩
  intro hn
  obtain ⟨h2, hsq, hleast⟩ := minStartSize_spec n hn
  refine ⟨le_antisymm hle (max_le h2 ?_), hsq, hleast⟩
  by_contra hcon
  have := hc.2 (MinStartSize n) (by omega)
  omega

/-- C11, witness: 26 pieces, the most that `main` accepts: the start size is
11, and `10 * 10 < 104 <= 11 * 11`. -/
theorem minStartSize_least_witness :
    (26 : Nat) ≤ 4503599627370496 ∧ MinStartSize 26 = 11 ∧
    (MinStartSize 26 = max 2 (ceilSqrt (4 * 26)) ∧
      4 * 26 ≤ MinStartSize 26 * MinStartSize 26 ∧
      ∀ s, 2 ≤ s → 4 * 26 ≤ s * s → MinStartSize 26 ≤ s) :=
  ⟨by decide, by decide, (minStartSize_least 26).2.2.2 (by decide)⟩

/-- C11, counterexample. At `n = 2^52 + 1` the product `4 * n = 2^54 + 4`
is a `float64`, its root is nearer to `2^27` than to the next `float64`, so
`math.Sqrt` gives `2^27` and `MinStartSize` returns 134217728, whose square is
below `4 * n`. At `n = 2^61` the product `4 * n` wraps around to the least
`int`, the root is NaN and `MinStartSize` returns 2. -/
theorem minStartSize_least_counterexample :
    (MinStartSize 4503599627370497 = 134217728 ∧
      134217728 * 134217728 < 4 * 4503599627370497) ∧
    (MinStartSize 2305843009213693952 = 2 ∧ 2 * 2 < 4 * 2305843009213693952) :=
  ⟨⟨by decide, by decide⟩, ⟨by decide, by decide⟩⟩

/-- C12: the scenario of a single I-tetromino. The text
`#...\n#...\n#...\n#...\n` parses to the vertical I piece; `MinStartSize(1)`
is 2; `Solve` returns `false` on the empty boards of edge 2 and 3, leaving
them empty, and `true` on the empty board of edge 4, leaving the label `A`
in the four cells of column 0 and the dot in every other cell. -/
theorem single_I_scenario :
    ParseAndValidate [35, 46, 46, 46, 10, 35, 46, 46, 46, 10, 35, 46, 46, 46, 10,
      35, 46, 46, 46, 10] = .ok [⟨[⟨0, 0⟩, ⟨0, 1⟩, ⟨0, 2⟩, ⟨0, 3⟩]⟩] ∧
    MinStartSize 1 = 2 ∧
    Solve (NewBoard 2) [⟨[⟨0, 0⟩, ⟨0, 1⟩, ⟨0, 2⟩, ⟨0, 3⟩]⟩] 0
      = some (false, [[46, 46], [46, 46]]) ∧
    Solve (NewBoard 3) [⟨[⟨0, 0⟩, ⟨0, 1⟩, ⟨0, 2⟩, ⟨0, 3⟩]⟩] 0
      = some (false, [[46, 46, 46], [46, 46, 46], [46, 46, 46]]) ∧
    Solve (NewBoard 4) [⟨[⟨0, 0⟩, ⟨0, 1⟩, ⟨0, 2⟩, ⟨0, 3⟩]⟩] 0
      = some (true, [[65, 46, 46, 46], [65, 46, 46, 46], [65, 46, 46, 46], [65, 46, 46, 46]]) :=
  ⟨rfl, by decide, by decide, by decide, by decide⟩

/-- C13: undo correctness. For every square board, whatever its contents,
every piece list and every `idx <= len(pieces)`, if `Solve(board, pieces,
idx)` returns `false` then the board after the call is the board before the
call. -/
theorem solve_undo (n : Nat) (board : Board) (pieces : List Piece) (idx : Nat) (final : Board)
    (hsq : IsSquare n board) (hidx : idx ≤ pieces.length)
    (h : Solve board pieces idx = some (false, final)) : final = board := by
  obtain ⟨r, f, hs, hfalse, _⟩ :=
    solveFrom_spec pieces (pieces.length - idx) idx hsq (by omega)
  unfold Solve at h
  rw [hs] at h
  cases h
  exact (hfalse rfl).1

/-- C13, witness: two horizontal dominoes on the board of edge 2 whose cell
`(0, 0)` is taken. The first domino is placed in the bottom row, the second
one fits nowhere, the first one is taken off again. -/
theorem solve_undo_witness :
    IsSquare 2 [[88, 46], [46, 46]] ∧
    0 ≤ ([⟨[⟨0, 0⟩, ⟨1, 0⟩]⟩, ⟨[⟨0, 0⟩, ⟨1, 0⟩]⟩] : List Piece).length ∧
    Solve [[88, 46], [46, 46]] [⟨[⟨0, 0⟩, ⟨1, 0⟩]⟩, ⟨[⟨0, 0⟩, ⟨1, 0⟩]⟩] 0
      = some (false, [[88, 46], [46, 46]]) ∧
    ([[88, 46], [46, 46]] : Board) = [[88, 46], [46, 46]] :=
  ⟨by unfold IsSquare; decide, by decide, by decide,
    solve_undo 2 [[88, 46], [46, 46]] [⟨[⟨0, 0⟩, ⟨1, 0⟩]⟩, ⟨[⟨0, 0⟩, ⟨1, 0⟩]⟩] 0 _
      (by unfold IsSquare; decide) (by decide) (by decide)⟩

/-- C17: Windows line endings are equivalent to plain newlines. For every
input without a carriage return, `ParseAndValidate` returns on the text with
every `\n` replaced by `\r\n` what it returns on the text itself, the same
error or the same piece list. -/
theorem parse_crlf (input : GoString) (h : (13 : UInt8) ∉ input) :
    ParseAndValidate (toCRLF input) = ParseAndValidate input := by
  unfold ParseAndValidate
  rw [replaceCRLF_toCRLF input h, replaceCRLF_id input h]

/-- C17, witness: the text of the test, `#...\n#...\n#...\n#...\n`, and the
same text with `\r\n` line endings. -/
theorem parse_crlf_witness :
    (13 : UInt8) ∉ ([35, 46, 46, 46, 10, 35, 46, 46, 46, 10, 35, 46, 46, 46, 10,
      35, 46, 46, 46, 10] : GoString) ∧
    ParseAndValidate [35, 46, 46, 46, 13, 10, 35, 46, 46, 46, 13, 10, 35, 46, 46, 46, 13, 10,
      35, 46, 46, 46, 13, 10]
      = ParseAndValidate [35, 46, 46, 46, 10, 35, 46, 46, 46, 10, 35, 46, 46, 46, 10,
        35, 46, 46, 46, 10] :=
  ⟨by decide, parse_crlf [35, 46, 46, 46, 10, 35, 46, 46, 46, 10, 35, 46, 46, 46, 10,
    35, 46, 46, 46, 10] (by decide)⟩

/-- C19: `ValidateAndNormalize` never indexes out of range. For every list
of strings, of any length and any bytes, it returns a piece or one of its
errors, never the panic of an index out of range: not in the rows, not in
the grid and not at `points[0]`. A line of 4 bytes that decodes to fewer
than 4 runes, here `..` followed by the two bytes of `é`, is rejected as an
invalid character before the index reaches the end of the row. -/
theorem validate_in_range :
    (∀ block : List GoString, ValidateAndNormalize block ≠ .error .indexOutOfRange) ∧
    (decodeRunes [46, 46, 195, 169] = [46, 46, 233] ∧
      ValidateAndNormalize [[46, 46, 195, 169], [35, 35, 35, 35], [46, 46, 46, 46],
        [46, 46, 46, 46]] = .error .invalidChar) :=
  ⟨validate_no_panic, rfl, rfl⟩

/-- C20: `Solve` never indexes out of range on a square board. For every
`n`, every `n x n` board, every piece list and every `idx <= len(pieces)`,
`Solve(board, pieces, idx)` returns without a panic: no read of `pieces[idx]`
and no access to the board is out of range. `CanPlace` reads the board in
range at every anchor; at an anchor that `CanPlace` accepts, `Place` writes
in range, for the placement and for the undo. -/
theorem solve_in_range (n : Nat) (board : Board) (pieces : List Piece) (idx : Nat)
    (hsq : IsSquare n board) (hidx : idx ≤ pieces.length) :
    (∃ r final, Solve board pieces idx = some (r, final)) ∧
    (∀ (p : Piece) (ox oy : Int), ∃ r, CanPlace board p ox oy = some r) ∧
    (∀ (p : Piece) (ox oy ch : Int), CanPlace board p ox oy = some true →
      ∃ placed, Place board p ox oy ch = some placed ∧
        Place placed p ox oy 46 = some board) := by
  refine ⟨?_, fun p ox oy => canPlace_total hsq p ox oy, ?_⟩
  · obtain ⟨r, f, hs, _, _⟩ :=
      solveFrom_spec pieces (pieces.length - idx) idx hsq (by omega)
    exact ⟨r, f, hs⟩
  · intro p ox oy ch hcan
    obtain ⟨placed, hplaced, _⟩ := place_spec hsq p (ox, oy) ch hcan
    exact ⟨placed, hplaced, place_undo hsq p ox oy ch hcan hplaced⟩

/-- C20, witness: the pieces I and O on the empty board of edge 4. -/
theorem solve_in_range_witness :
    IsSquare 4 (NewBoard 4) ∧
    0 ≤ ([⟨[⟨0, 0⟩, ⟨0, 1⟩, ⟨0, 2⟩, ⟨0, 3⟩]⟩, ⟨[⟨0, 0⟩, ⟨1, 0⟩, ⟨0, 1⟩, ⟨1, 1⟩]⟩] :
      List Piece).length ∧
    ((∃ r final, Solve (NewBoard 4)
        [⟨[⟨0, 0⟩, ⟨0, 1⟩, ⟨0, 2⟩, ⟨0, 3⟩]⟩, ⟨[⟨0, 0⟩, ⟨1, 0⟩, ⟨0, 1⟩, ⟨1, 1⟩]⟩] 0
        = some (r, final)) ∧
      (∀ (p : Piece) (ox oy : Int), ∃ r, CanPlace (NewBoard 4) p ox oy = some r) ∧
      (∀ (p : Piece) (ox oy ch : Int), CanPlace (NewBoard 4) p ox oy = some true →
        ∃ placed, Place (NewBoard 4) p ox oy ch = some placed ∧
          Place placed p ox oy 46 = some (NewBoard 4))) :=
  ⟨isSquare_newBoard 4, by decide,
    solve_in_range 4 (NewBoard 4)
      [⟨[⟨0, 0⟩, ⟨0, 1⟩, ⟨0, 2⟩, ⟨0, 3⟩]⟩, ⟨[⟨0, 0⟩, ⟨1, 0⟩, ⟨0, 1⟩, ⟨1, 1⟩]⟩] 0
      (isSquare_newBoard 4) (by decide)⟩

/-- The cells of the O piece `k` of the grid layout. -/
theorem mem_cellsOf_grid {cols len k : Nat} {c : Int × Int}
    (h : c ∈ cellsOf (List.replicate len (⟨[⟨0, 0⟩, ⟨1, 0⟩, ⟨0, 1⟩, ⟨1, 1⟩]⟩ : Piece))
      (gridAnchors cols len) k) :
    k < len ∧
    ((2 * (k % cols) : Nat) : Int) ≤ c.1 ∧ c.1 ≤ ((2 * (k % cols) : Nat) : Int) + 1 ∧
    ((2 * (k / cols) : Nat) : Int) ≤ c.2 ∧ c.2 ≤ ((2 * (k / cols) : Nat) : Int) + 1 := by
  have hk : k < len := by
    have := mem_cellsOf_lt h
    rwa [List.length_replicate] at this
  have hp : (List.replicate len (⟨[⟨0, 0⟩, ⟨1, 0⟩, ⟨0, 1⟩, ⟨1, 1⟩]⟩ : Piece))[k]?
      = some ⟨[⟨0, 0⟩, ⟨1, 0⟩, ⟨0, 1⟩, ⟨1, 1⟩]⟩ := by
    rw [List.getElem?_replicate, if_pos hk]
  have ha : (gridAnchors cols len)[k]?
      = some (((2 * (k % cols) : Nat) : Int), ((2 * (k / cols) : Nat) : Int)) := by
    unfold gridAnchors
    rw [List.getElem?_map, List.getElem?_range hk]
    rfl
  simp only [cellsOf, hp, ha, pieceCells, List.map_cons, List.map_nil, List.mem_cons,
    List.mem_singleton, List.mem_nil_iff, or_false] at h
  refine ⟨hk, ?_⟩
  rcases h with rfl | rfl | rfl | rfl <;> simp only <;> omega

/-- Up to `cols * rows` O pieces fit on a board that holds `cols` columns
and `rows` rows of squares of edge 2. -/
theorem gridAnchors_valid (cols rows : Nat) {len n : Nat} (hx : 2 * cols ≤ n)
    (hy : 2 * rows ≤ n) (hlen : len ≤ cols * rows) :
    ValidPlacement n (List.replicate len (⟨[⟨0, 0⟩, ⟨1, 0⟩, ⟨0, 1⟩, ⟨1, 1⟩]⟩ : Piece))
      (gridAnchors cols len) := by
  refine ⟨by simp [gridAnchors], ?_, ?_⟩
  · intro k c hc
    obtain ⟨hk, h1, h2, h3, h4⟩ := mem_cellsOf_grid hc
    have hkl : k < cols * rows := by omega
    have hcols : 0 < cols := by
      rcases Nat.eq_zero_or_pos cols with h0 | h0
      · rw [h0, Nat.zero_mul] at hkl; omega
      · exact h0
    have hm : k % cols < cols := Nat.mod_lt _ hcols
    have hd : k / cols < rows := Nat.div_lt_of_lt_mul hkl
    simp only [InBoard]
    omega
  · intro j k hjk c hcj hck
    obtain ⟨_, a1, a2, a3, a4⟩ := mem_cellsOf_grid hcj
    obtain ⟨_, b1, b2, b3, b4⟩ := mem_cellsOf_grid hck
    have hm : j % cols = k % cols := by omega
    have hd : j / cols = k / cols := by omega
    have hj := Nat.div_add_mod j cols
    have hk := Nat.div_add_mod k cols
    rw [hm, hd] at hj
    exact hjk (by omega)

theorem replicate_O_canonical (len : Nat) :
    ∀ p ∈ List.replicate len (⟨[⟨0, 0⟩, ⟨1, 0⟩, ⟨0, 1⟩, ⟨1, 1⟩]⟩ : Piece), Canonical p := by
  intro p hp
  rw [List.eq_of_mem_replicate hp]
  decide

theorem replicate_O_anchored (len : Nat) :
    ∀ p ∈ List.replicate len (⟨[⟨0, 0⟩, ⟨1, 0⟩, ⟨0, 1⟩, ⟨1, 1⟩]⟩ : Piece), Anchored p :=
  fun p hp => (replicate_O_canonical len p hp).2.2.2

/-- A list of O pieces that fits on the grid and is at least as long as the
number of calls of `Solve` that fit on the stack: `Solve` ends with a stack
overflow. -/
theorem grid_overflow (cols rows : Nat) {len n limit : Nat} (hx : 2 * cols ≤ n)
    (hy : 2 * rows ≤ n) (hlen : len ≤ cols * rows) (hl : limit ≤ len) :
    SolveOn limit (NewBoard n) (List.replicate len (⟨[⟨0, 0⟩, ⟨1, 0⟩, ⟨0, 1⟩, ⟨1, 1⟩]⟩ : Piece)) 0
      = .overflow := by
  have hv := gridAnchors_valid cols rows hx hy hlen
  exact solveOn_overflow (valid_anchors_onBoard (replicate_O_anchored len) hv) hv
    (by rw [List.length_replicate]; exact hl)

/-- A list at least as long as the number of calls of `Solve` that fit on
the stack: `Solve` does not return `true`, whatever the board. -/
theorem long_list_not_true {limit : Nat} {pieces : List Piece} (hl : limit ≤ pieces.length)
    (board final : Board) : SolveOn limit board pieces 0 ≠ .done true final := by
  intro h
  have := solveOn_true_depth pieces limit 0 board final h
  omega

/-- The text of `len` O blocks, one empty line between two blocks, is
parsed into `len` O pieces. -/
theorem parse_replicate_O (len : Nat) (hlen : 0 < len) :
    ParseAndValidate (joinLines (blockLines (List.replicate len
        [[35, 35, 46, 46], [35, 35, 46, 46], [46, 46, 46, 46], [46, 46, 46, 46]])))
      = .ok (List.replicate len ⟨[⟨0, 0⟩, ⟨1, 0⟩, ⟨0, 1⟩, ⟨1, 1⟩]⟩) := by
  have hval : ∀ k : Nat, Validated
      (List.replicate k [[35, 35, 46, 46], [35, 35, 46, 46], [46, 46, 46, 46], [46, 46, 46, 46]])
      (List.replicate k ⟨[⟨0, 0⟩, ⟨1, 0⟩, ⟨0, 1⟩, ⟨1, 1⟩]⟩) := by
    intro k
    induction k with
    | zero => exact List.Forall₂.nil
    | succ k ih =>
      rw [List.replicate_succ, List.replicate_succ]
      exact List.Forall₂.cons rfl ih
  have hne : List.replicate len
      ([[35, 35, 46, 46], [35, 35, 46, 46], [46, 46, 46, 46], [46, 46, 46, 46]] :
        List GoString) ≠ [] := by
    intro h
    have := congrArg List.length h
    rw [List.length_replicate] at this
    simp only [List.length_nil] at this
    omega
  have := parse_blocks_newlines _ _ 0 hne (hval len)
  rw [List.replicate_zero, List.append_nil] at this
  exact this

/-- C2 (amended): completeness of `Solve`, on a stack with room for `limit`
nested calls of `Solve` (`limit` up to 4294967277), for pieces that have a
block with `X = 0` and a block with `Y = 0`, as every normalized piece has.
For every edge length `n`: if `Solve(NewBoard(n), pieces, 0)` returns `true`
there is a valid placement of the pieces on the board; if it returns `false`
there is none; and for a list of fewer than `limit` pieces the call returns,
so that it returns `true` if and only if a valid placement exists. -/
theorem solve_complete (limit n : Nat) (pieces : List Piece) (hlimit : limit ≤ 4294967277)
    (hnorm : ∀ p ∈ pieces, Anchored p) :
    (∀ final, SolveOn limit (NewBoard n) pieces 0 = .done true final →
      ∃ as : List (Int × Int), ValidPlacement n pieces as) ∧
    (∀ final, SolveOn limit (NewBoard n) pieces 0 = .done false final →
      ¬ ∃ as : List (Int × Int), ValidPlacement n pieces as) ∧
    (pieces.length < limit →
      ∃ r final, SolveOn limit (NewBoard n) pieces 0 = .done r final ∧
        (r = true ↔ ∃ as : List (Int × Int), ValidPlacement n pieces as)) := by
  have htrue : ∀ final, SolveOn limit (NewBoard n) pieces 0 = .done true final →
      ∃ as : List (Int × Int), ValidPlacement n pieces as := by
    intro final h
    obtain ⟨hlen, hs⟩ := (solveOn_true_iff limit n pieces final).1 h
    obtain ⟨as, _, hv, _⟩ := solve_true_valid (by omega) hs
    exact ⟨as, hv⟩
  have hfalse : ∀ final, SolveOn limit (NewBoard n) pieces 0 = .done false final →
      ¬ ∃ as : List (Int × Int), ValidPlacement n pieces as := by
    rintro final h ⟨as, hv⟩
    have h1 := (solveOn_done pieces limit 0 _ false final h).2
    obtain ⟨f2, h2⟩ := solve_true_of_valid (valid_anchors_onBoard hnorm hv) hv
    rw [h1] at h2
    cases h2
  refine ⟨htrue, hfalse, ?_⟩
  intro hlen
  obtain ⟨r, final, hs⟩ := solve_total n pieces
  have hon : SolveOn limit (NewBoard n) pieces 0 = .done r final := by
    unfold SolveOn
    rw [solveOn_enough pieces limit 0 _ (by omega) (by omega), hs]
    rfl
  refine ⟨r, final, hon, ?_⟩
  cases r with
  | true => exact ⟨fun _ => htrue final hon, fun _ => rfl⟩
  | false => exact ⟨fun h => Bool.noConfusion h, fun h => absurd h (hfalse final hon)⟩

/-- C2, witness: the pieces I and O on the board of edge 4, on a stack with
room for a million calls. -/
theorem solve_complete_witness :
    1000000 ≤ 4294967277 ∧
    (∀ p ∈ [(⟨[⟨0, 0⟩, ⟨0, 1⟩, ⟨0, 2⟩, ⟨0, 3⟩]⟩ : Piece),
      ⟨[⟨0, 0⟩, ⟨1, 0⟩, ⟨0, 1⟩, ⟨1, 1⟩]⟩], Anchored p) ∧
    SolveOn 1000000 (NewBoard 4)
        [⟨[⟨0, 0⟩, ⟨0, 1⟩, ⟨0, 2⟩, ⟨0, 3⟩]⟩, ⟨[⟨0, 0⟩, ⟨1, 0⟩, ⟨0, 1⟩, ⟨1, 1⟩]⟩] 0
      = .done true [[65, 66, 66, 46], [65, 66, 66, 46], [65, 46, 46, 46], [65, 46, 46, 46]] ∧
    ((∀ final, SolveOn 1000000 (NewBoard 4)
          [⟨[⟨0, 0⟩, ⟨0, 1⟩, ⟨0, 2⟩, ⟨0, 3⟩]⟩, ⟨[⟨0, 0⟩, ⟨1, 0⟩, ⟨0, 1⟩, ⟨1, 1⟩]⟩] 0
          = .done true final →
        ∃ as : List (Int × Int), ValidPlacement 4
          [⟨[⟨0, 0⟩, ⟨0, 1⟩, ⟨0, 2⟩, ⟨0, 3⟩]⟩, ⟨[⟨0, 0⟩, ⟨1, 0⟩, ⟨0, 1⟩, ⟨1, 1⟩]⟩] as) ∧
      (∀ final, SolveOn 1000000 (NewBoard 4)
          [⟨[⟨0, 0⟩, ⟨0, 1⟩, ⟨0, 2⟩, ⟨0, 3⟩]⟩, ⟨[⟨0, 0⟩, ⟨1, 0⟩, ⟨0, 1⟩, ⟨1, 1⟩]⟩] 0
          = .done false final →
        ¬ ∃ as : List (Int × Int), ValidPlacement 4
          [⟨[⟨0, 0⟩, ⟨0, 1⟩, ⟨0, 2⟩, ⟨0, 3⟩]⟩, ⟨[⟨0, 0⟩, ⟨1, 0⟩, ⟨0, 1⟩, ⟨1, 1⟩]⟩] as) ∧
      (([⟨[⟨0, 0⟩, ⟨0, 1⟩, ⟨0, 2⟩, ⟨0, 3⟩]⟩, ⟨[⟨0, 0⟩, ⟨1, 0⟩, ⟨0, 1⟩, ⟨1, 1⟩]⟩] :
          List Piece).length < 1000000 →
        ∃ r final, SolveOn 1000000 (NewBoard 4)
            [⟨[⟨0, 0⟩, ⟨0, 1⟩, ⟨0, 2⟩, ⟨0, 3⟩]⟩, ⟨[⟨0, 0⟩, ⟨1, 0⟩, ⟨0, 1⟩, ⟨1, 1⟩]⟩] 0
            = .done r final ∧
          (r = true ↔ ∃ as : List (Int × Int), ValidPlacement 4
            [⟨[⟨0, 0⟩, ⟨0, 1⟩, ⟨0, 2⟩, ⟨0, 3⟩]⟩, ⟨[⟨0, 0⟩, ⟨1, 0⟩, ⟨0, 1⟩, ⟨1, 1⟩]⟩] as))) := by
  have ha : ∀ p ∈ [(⟨[⟨0, 0⟩, ⟨0, 1⟩, ⟨0, 2⟩, ⟨0, 3⟩]⟩ : Piece),
      ⟨[⟨0, 0⟩, ⟨1, 0⟩, ⟨0, 1⟩, ⟨1, 1⟩]⟩], Anchored p := by
    intro p hp
    simp only [List.mem_cons, List.mem_singleton, List.mem_nil_iff, or_false] at hp
    rcases hp with rfl | rfl
    · exact ⟨⟨⟨0, 0⟩, by simp, rfl⟩, ⟨⟨0, 0⟩, by simp, rfl⟩⟩
    · exact ⟨⟨⟨0, 0⟩, by simp, rfl⟩, ⟨⟨0, 0⟩, by simp, rfl⟩⟩
  exact ⟨by decide, ha, by decide, solve_complete 1000000 4 _ (by decide) ha⟩

/-- C2, counterexample: 6000000 O pieces (canonical pieces) on the board of
edge 4900. They fit: the `k`-th piece at column `2 * (k % 2450)` and row
`2 * (k / 2450)` is a valid placement. But `Solve` needs 6000001 nested calls
to place them all: on each stack with room for at most 6000000 calls, as is
the stack of the Go runtime, the call does not return `true`, it ends with a
stack overflow. -/
theorem solve_complete_counterexample :
    (∀ p ∈ List.replicate 6000000 (⟨[⟨0, 0⟩, ⟨1, 0⟩, ⟨0, 1⟩, ⟨1, 1⟩]⟩ : Piece), Canonical p) ∧
    ValidPlacement 4900 (List.replicate 6000000 (⟨[⟨0, 0⟩, ⟨1, 0⟩, ⟨0, 1⟩, ⟨1, 1⟩]⟩ : Piece))
      (gridAnchors 2450 6000000) ∧
    ∀ limit, limit ≤ 6000000 →
      SolveOn limit (NewBoard 4900)
          (List.replicate 6000000 (⟨[⟨0, 0⟩, ⟨1, 0⟩, ⟨0, 1⟩, ⟨1, 1⟩]⟩ : Piece)) 0
        = .overflow :=
  ⟨replicate_O_canonical 6000000,
    gridAnchors_valid 2450 2450 (by omega) (by omega) (by omega),
    fun limit hl =>
      grid_overflow 2450 2450 (by omega) (by omega) (by omega) hl⟩

/-- More levels of recursion than `len(pieces) - idx` change nothing: the
recursion of `Solve` ends by itself. -/
theorem solveFrom_fuel (pieces : List Piece) : ∀ (depth idx : Nat) (board : Board),
    idx ≤ pieces.length → pieces.length - idx ≤ depth →
    solveFrom pieces depth board idx = solveFrom pieces (pieces.length - idx) board idx := by
  intro depth
  induction depth with
  | zero =>
    intro idx board _ h2
    have h0 : pieces.length - idx = 0 := by omega
    rw [h0]
  | succ d ih =>
    intro idx board h1 h2
    by_cases hidx : idx = pieces.length
    · have h0 : pieces.length - idx = 0 := by omega
      rw [h0]
      simp [solveFrom, hidx]
    · obtain ⟨k, hk⟩ : ∃ k, pieces.length - idx = k + 1 :=
        ⟨pieces.length - idx - 1, by omega⟩
      have hfun : (fun b => solveFrom pieces d b (idx + 1))
          = (fun b => solveFrom pieces k b (idx + 1)) := by
        funext b
        rw [ih (idx + 1) b (by omega) (by omega)]
        have h3 : pieces.length - (idx + 1) = k := by omega
        rw [h3]
      rw [hk]
      simp only [solveFrom, if_neg hidx, hfun]

/-- What a run of the retry loop that ends with a board did. -/
theorem retryLoop_solved (pieces : List Piece) : ∀ (tries size s : Nat) (board : Board),
    retryLoop pieces tries size = .solved s board →
    size ≤ s ∧ Solve (NewBoard s) pieces 0 = some (true, board)
  | 0, _, _, _, h => by simp [retryLoop] at h
  | tries + 1, size, s, board, h => by
    simp only [retryLoop] at h
    cases hs : Solve (NewBoard size) pieces 0 with
    | none => rw [hs] at h; cases h
    | some rb =>
      obtain ⟨r, b⟩ := rb
      rw [hs] at h
      cases r with
      | true =>
        simp only [Run.solved.injEq] at h
        obtain ⟨h1, h2⟩ := h
        subst h1 h2
        exact ⟨le_refl _, hs⟩
      | false =>
        simp only at h
        obtain ⟨h1, h2⟩ := retryLoop_solved pieces tries (size + 1) s board h
        exact ⟨by omega, h2⟩

/-- A run of `main` that ends with a board went through the retry loop. -/
theorem main_solved {input : GoString} {pieces : List Piece} {tries s : Nat} {board : Board}
    (hp : ParseAndValidate input = .ok pieces) (hm : main input tries = .solved s board) :
    pieces.length ≤ 26 ∧ Solve (NewBoard s) pieces 0 = some (true, board) := by
  simp only [main, hp] at hm
  split_ifs at hm with h0 h26
  exact ⟨by omega, (retryLoop_solved pieces tries _ s board hm).2⟩

/-- On a board that shows a valid placement of canonical pieces, no cell
holds the dot exactly when the pieces have as many cells as the board. -/
theorem drawn_full_iff {n : Nat} {ps : List Piece} {as : List (Int × Int)} {board : Board}
    (hc : ∀ p ∈ ps, Canonical p) (hv : ValidPlacement n ps as) (hd : Drawn n ps as board) :
    (∀ x y : Nat, x < n → y < n → cellAt board x y ≠ some 46) ↔ 4 * ps.length = n * n := by
  obtain ⟨cells, hnd, hlen, hmem⟩ := placement_cells ps as hv.length_eq
    (fun p hp => ⟨(hc p hp).1, (hc p hp).2.1⟩) hv.disjoint
  have harea := placement_area hc hv
  have hall_nd : ((List.range n ×ˢ List.range n).map
      (fun (c : Nat × Nat) => ((c.1 : Int), (c.2 : Int)))).Nodup := by
    refine List.Nodup.map ?_ ((List.nodup_range n).product (List.nodup_range n))
    intro a b hab
    simp only [Prod.mk.injEq, Nat.cast_inj] at hab
    exact Prod.ext hab.1 hab.2
  have hall_len : ((List.range n ×ˢ List.range n).map
      (fun (c : Nat × Nat) => ((c.1 : Int), (c.2 : Int)))).length = n * n := by
    rw [List.length_map, List.length_product, List.length_range]
  have hall_mem : ∀ x y : Nat, x < n → y < n → ((x : Int), (y : Int)) ∈
      (List.range n ×ˢ List.range n).map
        (fun (c : Nat × Nat) => ((c.1 : Int), (c.2 : Int))) := by
    intro x y hx hy
    rw [List.mem_map]
    exact ⟨(x, y), by
      rw [List.mem_product]; exact ⟨List.mem_range.2 hx, List.mem_range.2 hy⟩, rfl⟩
  have hsub : cells ⊆ (List.range n ×ˢ List.range n).map
      (fun (c : Nat × Nat) => ((c.1 : Int), (c.2 : Int))) := by
    intro c hcm
    obtain ⟨k, hk⟩ := (hmem c).1 hcm
    obtain ⟨he, hx, hy⟩ := inBoard_cast (hv.inside k c hk)
    rw [he]
    exact hall_mem _ _ hx hy
  have hdot : ∀ x y : Nat, x < n → y < n →
      (cellAt board x y ≠ some 46 ↔ ((x : Int), (y : Int)) ∈ cells) := by
    intro x y hx hy
    rw [hmem, Ne, (hd.2 x y hx hy).2]
    push_neg
    rfl
  constructor
  · intro hfull
    have hsup : (List.range n ×ˢ List.range n).map
        (fun (c : Nat × Nat) => ((c.1 : Int), (c.2 : Int))) ⊆ cells := by
      intro c hcm
      obtain ⟨⟨x, y⟩, hxy, rfl⟩ := List.mem_map.1 hcm
      obtain ⟨hx, hy⟩ := List.mem_product.1 hxy
      exact (hdot x y (List.mem_range.1 hx) (List.mem_range.1 hy)).1
        (hfull x y (List.mem_range.1 hx) (List.mem_range.1 hy))
    have h1 := (hall_nd.subperm hsup).length_le
    rw [hall_len, hlen] at h1
    omega
  · intro heq x y hx hy
    have hperm := (hnd.subperm hsub).perm_of_length_le (by rw [hall_len, hlen]; omega)
    exact (hdot x y hx hy).2 (hperm.mem_iff.2 (hall_mem x y hx hy))

/-- The O piece in the corner of the board of edge 2. -/
theorem valid_single_O :
    ValidPlacement 2 [⟨[⟨0, 0⟩, ⟨1, 0⟩, ⟨0, 1⟩, ⟨1, 1⟩]⟩] [(0, 0)] := by
  refine ⟨rfl, ?_, ?_⟩
  · intro k c hc
    cases k with
    | zero =>
      simp [cellsOf, pieceCells] at hc
      rcases hc with rfl | rfl | rfl | rfl <;> simp [InBoard]
    | succ k => simp [cellsOf] at hc
  · intro j k hjk c hc
    cases j with
    | zero =>
      cases k with
      | zero => exact absurd rfl hjk
      | succ k => simp [cellsOf]
    | succ j => simp [cellsOf] at hc

/-- C14 (amended): termination of the search and of the retry loop, on a
stack with room for `limit` nested calls of `Solve`. With room for more than
`len(pieces) - idx` calls the stack does not end the call at `idx`: it ends
as `Solve` does, and on a square board it returns. And for every piece list
of fewer than `limit` pieces that `ParseAndValidate` returns there is an edge
`s >= MinStartSize(len(pieces))` at which `Solve(NewBoard(s), pieces, 0)`
returns `true`, while it returns `false` at every edge from
`MinStartSize(len(pieces))` to `s - 1`: the loop that starts at
`MinStartSize(len(pieces))` and adds 1 after each failure stops at `s`, after
`s - MinStartSize(len(pieces))` failures. -/
theorem solve_terminates (limit : Nat) :
    (∀ (pieces : List Piece) (board : Board) (idx : Nat), idx ≤ pieces.length →
      pieces.length - idx < limit →
      SolveOn limit board pieces idx = outcomeOf (Solve board pieces idx)) ∧
    (∀ (n : Nat) (pieces : List Piece) (board : Board) (idx : Nat), IsSquare n board →
      idx ≤ pieces.length → pieces.length - idx < limit →
      ∃ r final, SolveOn limit board pieces idx = .done r final) ∧
    (∀ (input : GoString) (pieces : List Piece), ParseAndValidate input = .ok pieces →
      pieces.length < limit →
      ∃ s board, MinStartSize pieces.length ≤ s ∧
        SolveOn limit (NewBoard s) pieces 0 = .done true board ∧
        (∀ t, MinStartSize pieces.length ≤ t → t < s →
          ∃ b, SolveOn limit (NewBoard t) pieces 0 = .done false b) ∧
        ∀ tries, s - MinStartSize pieces.length < tries →
          retryLoop pieces tries (MinStartSize pieces.length) = .solved s board) := by
  refine ⟨fun pieces board idx h1 h2 => solveOn_enough pieces limit idx board h1 h2, ?_, ?_⟩
  · intro n pieces board idx hb h1 h2
    obtain ⟨r, f, hs, _, _⟩ :=
      solveFrom_spec pieces (pieces.length - idx) idx hb (by omega)
    refine ⟨r, f, ?_⟩
    unfold SolveOn
    rw [solveOn_enough pieces limit idx board h1 h2]
    unfold Solve
    rw [hs]
    rfl
  intro input pieces h hlen
  have hcan := parse_canonical h
  have hne : pieces ≠ [] := ((parse_ok_iff input pieces).1 h).2
  have hpos : 0 < pieces.length := List.length_pos.2 hne
  have hanch : ∀ p ∈ pieces, Anchored p := fun p hp => (hcan p hp).2.2.2
  have hwide := rowAnchors_valid hcan
  obtain ⟨b0, hb0⟩ := solve_true_of_valid (valid_anchors_onBoard hanch hwide) hwide
  have hstart : MinStartSize pieces.length ≤ 4 * pieces.length :=
    minStartSize_le pieces.length _ (by omega) (Nat.le_mul_self (4 * pieces.length))
  classical
  have hex : ∃ t, MinStartSize pieces.length ≤ t ∧
      ∃ b, Solve (NewBoard t) pieces 0 = some (true, b) := ⟨_, hstart, b0, hb0⟩
  obtain ⟨hs1, board, hs2⟩ := Nat.find_spec hex
  have hfail : ∀ t, MinStartSize pieces.length ≤ t → t < Nat.find hex →
      ∃ b, Solve (NewBoard t) pieces 0 = some (false, b) := by
    intro t ht1 ht2
    obtain ⟨r, f, hrf⟩ := solve_total t pieces
    cases r with
    | false => exact ⟨f, hrf⟩
    | true => exact absurd ⟨ht1, f, hrf⟩ (Nat.find_min hex ht2)
  refine ⟨Nat.find hex, board, hs1, (solveOn_true_iff limit _ pieces board).2 ⟨hlen, hs2⟩,
    ?_, ?_⟩
  · intro t ht1 ht2
    obtain ⟨b, hb⟩ := hfail t ht1 ht2
    refine ⟨b, ?_⟩
    unfold SolveOn
    rw [solveOn_enough pieces limit 0 _ (by omega) (by omega), hb]
    rfl
  · intro tries htries
    exact retryLoop_first pieces _ board hs2 (Nat.find hex - MinStartSize pieces.length) _ _
      (by omega) htries hfail

/-- C14, witness: on a stack with room for a million calls, the I and the O
piece at `idx = 0`, and the text of the test. -/
theorem solve_terminates_witness :
    SolveOn 1000000 (NewBoard 4)
        [⟨[⟨0, 0⟩, ⟨0, 1⟩, ⟨0, 2⟩, ⟨0, 3⟩]⟩, ⟨[⟨0, 0⟩, ⟨1, 0⟩, ⟨0, 1⟩, ⟨1, 1⟩]⟩] 0
      = outcomeOf (Solve (NewBoard 4)
        [⟨[⟨0, 0⟩, ⟨0, 1⟩, ⟨0, 2⟩, ⟨0, 3⟩]⟩, ⟨[⟨0, 0⟩, ⟨1, 0⟩, ⟨0, 1⟩, ⟨1, 1⟩]⟩] 0) ∧
    (ParseAndValidate [35, 46, 46, 46, 10, 35, 46, 46, 46, 10, 35, 46, 46, 46, 10,
        35, 46, 46, 46, 10] = .ok [⟨[⟨0, 0⟩, ⟨0, 1⟩, ⟨0, 2⟩, ⟨0, 3⟩]⟩] ∧
      ∃ s board, MinStartSize 1 ≤ s ∧
        SolveOn 1000000 (NewBoard s) [⟨[⟨0, 0⟩, ⟨0, 1⟩, ⟨0, 2⟩, ⟨0, 3⟩]⟩] 0
          = .done true board ∧
        (∀ t, MinStartSize 1 ≤ t → t < s →
          ∃ b, SolveOn 1000000 (NewBoard t) [⟨[⟨0, 0⟩, ⟨0, 1⟩, ⟨0, 2⟩, ⟨0, 3⟩]⟩] 0
            = .done false b) ∧
        ∀ tries, s - MinStartSize 1 < tries →
          retryLoop [⟨[⟨0, 0⟩, ⟨0, 1⟩, ⟨0, 2⟩, ⟨0, 3⟩]⟩] tries (MinStartSize 1)
            = .solved s board) :=
  ⟨(solve_terminates 1000000).1
      [⟨[⟨0, 0⟩, ⟨0, 1⟩, ⟨0, 2⟩, ⟨0, 3⟩]⟩, ⟨[⟨0, 0⟩, ⟨1, 0⟩, ⟨0, 1⟩, ⟨1, 1⟩]⟩] (NewBoard 4) 0
      (by decide) (by decide),
    rfl, (solve_terminates 1000000).2.2
      [35, 46, 46, 46, 10, 35, 46, 46, 46, 10, 35, 46, 46, 46, 10, 35, 46, 46, 46, 10]
      [⟨[⟨0, 0⟩, ⟨0, 1⟩, ⟨0, 2⟩, ⟨0, 3⟩]⟩] rfl (by decide)⟩

/-- C14, counterexample: the text of 6000000 O blocks, one empty line
between two blocks. `ParseAndValidate` returns its 6000000 pieces. To place
them all `Solve` needs 6000001 nested calls: on each stack with room for at
most 6000000 calls, as is the stack of the Go runtime, `Solve` returns `true`
at no edge, and at every edge from 4900 on, where the pieces fit, the call
ends with a stack overflow. -/
theorem solve_terminates_counterexample :
    ParseAndValidate (joinLines (blockLines (List.replicate 6000000
        [[35, 35, 46, 46], [35, 35, 46, 46], [46, 46, 46, 46], [46, 46, 46, 46]])))
      = .ok (List.replicate 6000000 ⟨[⟨0, 0⟩, ⟨1, 0⟩, ⟨0, 1⟩, ⟨1, 1⟩]⟩) ∧
    ∀ limit, limit ≤ 6000000 →
      (∀ s final, SolveOn limit (NewBoard s)
          (List.replicate 6000000 (⟨[⟨0, 0⟩, ⟨1, 0⟩, ⟨0, 1⟩, ⟨1, 1⟩]⟩ : Piece)) 0
        ≠ .done true final) ∧
      (∀ s, 4900 ≤ s → SolveOn limit (NewBoard s)
          (List.replicate 6000000 (⟨[⟨0, 0⟩, ⟨1, 0⟩, ⟨0, 1⟩, ⟨1, 1⟩]⟩ : Piece)) 0
        = .overflow) :=
  ⟨parse_replicate_O 6000000 (by omega), fun limit hl =>
    ⟨fun s final => long_list_not_true (by rw [List.length_replicate]; exact hl) _ final,
      fun s hs => grid_overflow 2450 2450 (by omega) (by omega) (by omega) hl⟩⟩

/-- C15 (amended): the cells at the discovered size. For every piece list
that `ParseAndValidate` returns, at the edge `s` where the retry loop of
`main` first succeeds the pieces have at most as many cells as the board
(`4 * len(pieces) <= s * s`), and the final board has no cell with the dot
exactly when `4 * len(pieces) = s * s`. -/
theorem tiling_at_found_size (input : GoString) (pieces : List Piece) (tries s : Nat)
    (board : Board) (hp : ParseAndValidate input = .ok pieces)
    (hm : main input tries = .solved s board) :
    4 * pieces.length ≤ s * s ∧
    ((∀ x y : Nat, x < s → y < s → cellAt board x y ≠ some 46) ↔ 4 * pieces.length = s * s) := by
  have hcan := parse_canonical hp
  obtain ⟨h26, hsolve⟩ := main_solved hp hm
  obtain ⟨as, _, hv, hd⟩ := solve_true_valid (by omega) hsolve
  exact ⟨placement_area hcan hv, drawn_full_iff hcan hv hd⟩

/-- C15, witness: the text of the test, `#...\n#...\n#...\n#...\n`; the
board of edge 4 is found at the third try. -/
theorem tiling_at_found_size_witness :
    ParseAndValidate [35, 46, 46, 46, 10, 35, 46, 46, 46, 10, 35, 46, 46, 46, 10,
      35, 46, 46, 46, 10] = .ok [⟨[⟨0, 0⟩, ⟨0, 1⟩, ⟨0, 2⟩, ⟨0, 3⟩]⟩] ∧
    main [35, 46, 46, 46, 10, 35, 46, 46, 46, 10, 35, 46, 46, 46, 10, 35, 46, 46, 46, 10] 3
      = .solved 4 [[65, 46, 46, 46], [65, 46, 46, 46], [65, 46, 46, 46], [65, 46, 46, 46]] ∧
    (4 * [(⟨[⟨0, 0⟩, ⟨0, 1⟩, ⟨0, 2⟩, ⟨0, 3⟩]⟩ : Piece)].length ≤ 4 * 4 ∧
      ((∀ x y : Nat, x < 4 → y < 4 →
          cellAt [[65, 46, 46, 46], [65, 46, 46, 46], [65, 46, 46, 46], [65, 46, 46, 46]] x y
            ≠ some 46) ↔
        4 * [(⟨[⟨0, 0⟩, ⟨0, 1⟩, ⟨0, 2⟩, ⟨0, 3⟩]⟩ : Piece)].length = 4 * 4)) :=
  ⟨rfl, rfl, tiling_at_found_size
    [35, 46, 46, 46, 10, 35, 46, 46, 46, 10, 35, 46, 46, 46, 10, 35, 46, 46, 46, 10]
    [⟨[⟨0, 0⟩, ⟨0, 1⟩, ⟨0, 2⟩, ⟨0, 3⟩]⟩] 3 4 _ rfl rfl⟩

/-- C15, counterexample: the single vertical I piece of the test. The retry
loop first succeeds at edge 4: the piece has 4 cells, the board has 16, and
the cell `(1, 0)` of the final board holds the dot. -/
theorem tiling_at_found_size_counterexample :
    ParseAndValidate [35, 46, 46, 46, 10, 35, 46, 46, 46, 10, 35, 46, 46, 46, 10,
      35, 46, 46, 46, 10] = .ok [⟨[⟨0, 0⟩, ⟨0, 1⟩, ⟨0, 2⟩, ⟨0, 3⟩]⟩] ∧
    main [35, 46, 46, 46, 10, 35, 46, 46, 46, 10, 35, 46, 46, 46, 10, 35, 46, 46, 46, 10] 3
      = .solved 4 [[65, 46, 46, 46], [65, 46, 46, 46], [65, 46, 46, 46], [65, 46, 46, 46]] ∧
    4 * [(⟨[⟨0, 0⟩, ⟨0, 1⟩, ⟨0, 2⟩, ⟨0, 3⟩]⟩ : Piece)].length ≠ 4 * 4 ∧
    cellAt [[65, 46, 46, 46], [65, 46, 46, 46], [65, 46, 46, 46], [65, 46, 46, 46]] 1 0
      = some 46 :=
  ⟨rfl, rfl, by decide, rfl⟩

/-- C16 (amended): no increment when an exact tiling exists, on a stack
with room for `limit` nested calls of `Solve` (`limit` up to 4294967277). For
every list of `n >= 1` pieces with `n < limit`, each piece with a block in
column 0 and a block in row 0 (as every normalized piece has), such that
`4 * n = s * s` and some valid placement of all the pieces on the board of
edge `s` exists, `MinStartSize(n) = s` and `Solve(NewBoard(s), pieces, 0)`
returns `true`: the retry loop succeeds at its first size. -/
theorem exact_fit_first_size (limit : Nat) (pieces : List Piece) (s : Nat)
    (as : List (Int × Int)) (hlimit : limit ≤ 4294967277) (hn : 1 ≤ pieces.length)
    (hstack : pieces.length < limit) (harea : 4 * pieces.length = s * s)
    (hanch : ∀ p ∈ pieces, Anchored p) (hv : ValidPlacement s pieces as) :
    MinStartSize pieces.length = s ∧
    ∃ board, SolveOn limit (NewBoard s) pieces 0 = .done true board ∧
      ∀ tries, retryLoop pieces (tries + 1) (MinStartSize pieces.length) = .solved s board := by
  obtain ⟨h2, hsq, hleast⟩ := minStartSize_spec pieces.length (by omega)
  have hs2 : 2 ≤ s := by
    by_contra hcon
    have h1 : s ≤ 1 := by omega
    have h3 : s * s ≤ 1 * 1 := Nat.mul_le_mul h1 h1
    omega
  have hle : MinStartSize pieces.length ≤ s := hleast s hs2 (by omega)
  have hge : s ≤ MinStartSize pieces.length := by
    by_contra hcon
    have h1 : MinStartSize pieces.length + 1 ≤ s := by omega
    have h3 := Nat.mul_le_mul h1 h1
    have h4 : MinStartSize pieces.length * MinStartSize pieces.length
        < (MinStartSize pieces.length + 1) * (MinStartSize pieces.length + 1) := by
      exact Nat.mul_self_lt_mul_self (by omega)
    omega
  have heq : MinStartSize pieces.length = s := by omega
  obtain ⟨board, hsolve⟩ := solve_true_of_valid (valid_anchors_onBoard hanch hv) hv
  refine ⟨heq, board, (solveOn_true_iff limit s pieces board).2 ⟨hstack, hsolve⟩, ?_⟩
  intro tries
  rw [heq]
  simp only [retryLoop, hsolve]

/-- C16, witness: the O piece alone, on the board of edge 2, on a stack with
room for a million calls. -/
theorem exact_fit_first_size_witness :
    1000000 ≤ 4294967277 ∧
    1 ≤ [(⟨[⟨0, 0⟩, ⟨1, 0⟩, ⟨0, 1⟩, ⟨1, 1⟩]⟩ : Piece)].length ∧
    [(⟨[⟨0, 0⟩, ⟨1, 0⟩, ⟨0, 1⟩, ⟨1, 1⟩]⟩ : Piece)].length < 1000000 ∧
    4 * [(⟨[⟨0, 0⟩, ⟨1, 0⟩, ⟨0, 1⟩, ⟨1, 1⟩]⟩ : Piece)].length = 2 * 2 ∧
    (∀ p ∈ [(⟨[⟨0, 0⟩, ⟨1, 0⟩, ⟨0, 1⟩, ⟨1, 1⟩]⟩ : Piece)], Anchored p) ∧
    ValidPlacement 2 [⟨[⟨0, 0⟩, ⟨1, 0⟩, ⟨0, 1⟩, ⟨1, 1⟩]⟩] [(0, 0)] ∧
    (MinStartSize [(⟨[⟨0, 0⟩, ⟨1, 0⟩, ⟨0, 1⟩, ⟨1, 1⟩]⟩ : Piece)].length = 2 ∧
      ∃ board, SolveOn 1000000 (NewBoard 2) [⟨[⟨0, 0⟩, ⟨1, 0⟩, ⟨0, 1⟩, ⟨1, 1⟩]⟩] 0
          = .done true board ∧
        ∀ tries, retryLoop [⟨[⟨0, 0⟩, ⟨1, 0⟩, ⟨0, 1⟩, ⟨1, 1⟩]⟩] (tries + 1)
          (MinStartSize [(⟨[⟨0, 0⟩, ⟨1, 0⟩, ⟨0, 1⟩, ⟨1, 1⟩]⟩ : Piece)].length)
            = .solved 2 board) := by
  have ha : ∀ p ∈ [(⟨[⟨0, 0⟩, ⟨1, 0⟩, ⟨0, 1⟩, ⟨1, 1⟩]⟩ : Piece)], Anchored p := by
    intro p hp
    rw [List.mem_singleton.1 hp]
    exact ⟨⟨⟨0, 0⟩, by simp, rfl⟩, ⟨⟨0, 0⟩, by simp, rfl⟩⟩
  exact ⟨by decide, by decide, by decide, by decide, ha, valid_single_O,
    exact_fit_first_size 1000000 _ 2 [(0, 0)] (by decide) (by decide) (by decide) (by decide)
      ha valid_single_O⟩

/-- C16, counterexample: 6250000 O pieces (canonical pieces) and the board of
edge 5000. The pieces have as many cells as the board, `4 * 6250000 = 5000 *
5000`, and they tile it: the `k`-th piece at column `2 * (k % 2500)` and row
`2 * (k / 2500)`. The first size is `MinStartSize(6250000) = 5000`. But
`Solve` needs 6250001 nested calls to place them all: on each stack with room
for at most 6250000 calls, as is the stack of the Go runtime, the call at the
first size does not return `true`, it ends with a stack overflow. -/
theorem exact_fit_first_size_counterexample :
    (∀ p ∈ List.replicate 6250000 (⟨[⟨0, 0⟩, ⟨1, 0⟩, ⟨0, 1⟩, ⟨1, 1⟩]⟩ : Piece), Canonical p) ∧
    MinStartSize 6250000 = 5000 ∧
    1 ≤ (List.replicate 6250000 (⟨[⟨0, 0⟩, ⟨1, 0⟩, ⟨0, 1⟩, ⟨1, 1⟩]⟩ : Piece)).length ∧
    4 * (List.replicate 6250000 (⟨[⟨0, 0⟩, ⟨1, 0⟩, ⟨0, 1⟩, ⟨1, 1⟩]⟩ : Piece)).length
      = 5000 * 5000 ∧
    ValidPlacement 5000 (List.replicate 6250000 (⟨[⟨0, 0⟩, ⟨1, 0⟩, ⟨0, 1⟩, ⟨1, 1⟩]⟩ : Piece))
      (gridAnchors 2500 6250000) ∧
    ∀ limit, limit ≤ 6250000 →
      SolveOn limit (NewBoard 5000)
          (List.replicate 6250000 (⟨[⟨0, 0⟩, ⟨1, 0⟩, ⟨0, 1⟩, ⟨1, 1⟩]⟩ : Piece)) 0
        = .overflow :=
  ⟨replicate_O_canonical 6250000, by decide, by rw [List.length_replicate]; omega,
    by rw [List.length_replicate],
    gridAnchors_valid 2500 2500 (by omega) (by omega) (by omega),
    fun limit hl => grid_overflow 2500 2500 (by omega) (by omega) (by omega) hl⟩

/-- The anchors of `Solve` come in row-major order. -/
theorem anchors_sorted (n : Nat) :
    (anchors n).Pairwise fun a b =>
      AnchorLt ((a.1 : Int), (a.2 : Int)) ((b.1 : Int), (b.2 : Int)) := by
  unfold anchors
  rw [List.pairwise_flatMap]
  constructor
  · intro y _
    rw [List.pairwise_map]
    refine (List.pairwise_lt_range n).imp ?_
    intro x1 x2 hx
    exact Or.inr ⟨rfl, by simpa using hx⟩
  · refine (List.pairwise_lt_range n).imp ?_
    intro y1 y2 hy a ha b hb
    obtain ⟨x1, _, rfl⟩ := List.mem_map.1 ha
    obtain ⟨x2, _, rfl⟩ := List.mem_map.1 hb
    exact Or.inl (by simpa using hy)

/-- The scan stops at the first anchor that is accepted and leads to
success: every other such anchor of the list comes later. -/
theorem scanAnchors_first {n : Nat} (p : Piece) (ch : Int)
    (next : Board → Option (Bool × Board))
    (hnext : ∀ b1, IsSquare n b1 → ∃ r b2, next b1 = some (r, b2) ∧ (r = false → b2 = b1))
    (R : Nat × Nat → Nat × Nat → Prop) :
    ∀ (l : List (Nat × Nat)) {board final : Board}, IsSquare n board → l.Pairwise R →
    scanAnchors p ch next l board = some (true, final) →
    ∃ a ∈ l, ∃ placed,
      CanPlace board p (a.1 : Int) (a.2 : Int) = some true ∧
      Place board p (a.1 : Int) (a.2 : Int) ch = some placed ∧
      next placed = some (true, final) ∧
      ∀ a2 ∈ l, ∀ placed2 final2,
        CanPlace board p (a2.1 : Int) (a2.2 : Int) = some true →
        Place board p (a2.1 : Int) (a2.2 : Int) ch = some placed2 →
        next placed2 = some (true, final2) → a2 = a ∨ R a a2 := by
  intro l
  induction l with
  | nil =>
    intro board final _ _ h
    simp [scanAnchors] at h
  | cons a0 l ih =>
    intro board final hb hpw h
    obtain ⟨x, y⟩ := a0
    obtain ⟨hhead, htail⟩ := List.pairwise_cons.1 hpw
    obtain ⟨c, hc⟩ := canPlace_total hb p (x : Int) (y : Int)
    cases c with
    | false =>
      simp only [scanAnchors, hc] at h
      obtain ⟨a, ha, placed, h1, h2, h3, hmin⟩ := ih hb htail h
      refine ⟨a, List.mem_cons_of_mem _ ha, placed, h1, h2, h3, ?_⟩
      intro a2 ha2 placed2 final2 hcan2 hplace2 hn2
      rcases List.mem_cons.1 ha2 with e | e
      · subst e
        rw [hc] at hcan2
        cases hcan2
      · exact hmin a2 e placed2 final2 hcan2 hplace2 hn2
    | true =>
      obtain ⟨placed, hplaced, hsq, _, _⟩ := place_spec hb p ((x : Int), (y : Int)) ch hc
      obtain ⟨r1, b2, hn, hsame⟩ := hnext placed hsq
      cases r1 with
      | true =>
        simp only [scanAnchors, hc, hplaced, hn, Option.some.injEq, Prod.mk.injEq,
          true_and] at h
        subst h
        refine ⟨(x, y), List.mem_cons_self _ _, placed, hc, hplaced, hn, ?_⟩
        intro a2 ha2 _ _ _ _ _
        rcases List.mem_cons.1 ha2 with e | e
        · exact Or.inl e
        · exact Or.inr (hhead a2 e)
      | false =>
        have hb2 : b2 = placed := hsame rfl
        subst hb2
        have hundo := place_undo hb p (x : Int) (y : Int) ch hc hplaced
        simp only [scanAnchors, hc, hplaced, hn, hundo] at h
        obtain ⟨a, ha, placed1, h1, h2, h3, hmin⟩ := ih hb htail h
        refine ⟨a, List.mem_cons_of_mem _ ha, placed1, h1, h2, h3, ?_⟩
        intro a2 ha2 placed2 final2 hcan2 hplace2 hn2
        rcases List.mem_cons.1 ha2 with e | e
        · subst e
          simp only at hplace2
          rw [hplaced] at hplace2
          cases hplace2
          rw [hn] at hn2
          cases hn2
        · exact hmin a2 e placed2 final2 hcan2 hplace2 hn2

/-- First fit: the run of placements that the search finds is the least one
in the lexicographic order, among all runs at scanned anchors. -/
theorem solveFrom_first (pieces : List Piece) {n : Nat} :
    ∀ (depth idx : Nat) {board final : Board}, IsSquare n board →
    idx + depth = pieces.length → solveFrom pieces depth board idx = some (true, final) →
    ∃ as, (∀ a ∈ as, AnchorOnBoard n a) ∧ Chain (pieces.drop idx) idx board as final ∧
      ∀ as2 final2, (∀ a ∈ as2, AnchorOnBoard n a) →
        Chain (pieces.drop idx) idx board as2 final2 → as2 = as ∨ List.Lex AnchorLt as as2 := by
  intro depth
  induction depth with
  | zero =>
    intro idx board final _ hlen h
    have hidx : idx = pieces.length := by omega
    simp only [solveFrom, hidx, if_true, Option.some.injEq, Prod.mk.injEq, true_and] at h
    subst h
    refine ⟨[], by simp, ?_, ?_⟩
    · rw [hidx, List.drop_length]; rfl
    · intro as2 final2 _ hchain
      rw [hidx, List.drop_length] at hchain
      cases as2 with
      | nil => exact Or.inl rfl
      | cons a as2 => exact absurd hchain (by simp [Chain])
  | succ d ih =>
    intro idx board final hb hlen h
    have hidx : idx < pieces.length := by omega
    have hne : idx ≠ pieces.length := by omega
    have hp : pieces[idx]? = some pieces[idx] := List.getElem?_eq_getElem hidx
    have hdrop : pieces.drop idx = pieces[idx] :: pieces.drop (idx + 1) :=
      List.drop_eq_getElem_cons hidx
    have hnext : ∀ b1, IsSquare n b1 →
        ∃ r b2, solveFrom pieces d b1 (idx + 1) = some (r, b2) ∧ (r = false → b2 = b1) := by
      intro b1 hb1
      obtain ⟨r, b2, h1, h2, _⟩ := solveFrom_spec pieces d (idx + 1) hb1 (by omega)
      exact ⟨r, b2, h1, fun hr => (h2 hr).1⟩
    simp only [solveFrom, if_neg hne, hp, hb.1] at h
    obtain ⟨a, ha, placed, hcan, hplace, hn, hmin⟩ :=
      scanAnchors_first pieces[idx] (label idx) (fun b => solveFrom pieces d b (idx + 1)) hnext
        (fun a b => AnchorLt ((a.1 : Int), (a.2 : Int)) ((b.1 : Int), (b.2 : Int)))
        (anchors n) hb (anchors_sorted n) h
    have hsq2 : IsSquare n placed := by
      obtain ⟨pl, hpl, hsqpl, _⟩ :=
        place_spec hb pieces[idx] ((a.1 : Int), (a.2 : Int)) (label idx) hcan
      rw [hplace] at hpl
      cases hpl
      exact hsqpl
    obtain ⟨as, hon, hchain, hrest⟩ := ih (idx + 1) hsq2 (by omega) hn
    refine ⟨((a.1 : Int), (a.2 : Int)) :: as, ?_, ?_, ?_⟩
    · intro b hb2
      rcases List.mem_cons.1 hb2 with e | e
      · rw [e]; exact anchorOnBoard_cast ha
      · exact hon b e
    · rw [hdrop]
      exact ⟨hcan, placed, hplace, hchain⟩
    · intro as2 final2 hon2 hchain2
      rw [hdrop] at hchain2
      cases as2 with
      | nil => exact absurd hchain2 (by simp [Chain])
      | cons a2 as2 =>
        obtain ⟨hcan2, placed2, hplace2, hrest2⟩ := hchain2
        obtain ⟨hmem, hcast⟩ := anchorOnBoard_mem (hon2 a2 (List.mem_cons_self _ _))
        have e1 : ((a2.1.toNat : Nat) : Int) = a2.1 := congrArg Prod.fst hcast
        have e2 : ((a2.2.toNat : Nat) : Int) = a2.2 := congrArg Prod.snd hcast
        have hcan3 : CanPlace board pieces[idx] ((a2.1.toNat : Nat) : Int)
            ((a2.2.toNat : Nat) : Int) = some true := by
          rw [e1, e2]; exact hcan2
        have hplace3 : Place board pieces[idx] ((a2.1.toNat : Nat) : Int)
            ((a2.2.toNat : Nat) : Int) (label idx) = some placed2 := by
          rw [e1, e2]; exact hplace2
        have hsq3 : IsSquare n placed2 := by
          obtain ⟨pl, hpl, hsqpl, _⟩ := place_spec hb pieces[idx] a2 (label idx) hcan2
          rw [hplace2] at hpl
          cases hpl
          exact hsqpl
        have hon3 : ∀ b ∈ as2, AnchorOnBoard n b :=
          fun b hb3 => hon2 b (List.mem_cons_of_mem _ hb3)
        obtain ⟨r3, f3, h3, h3false, _⟩ := solveFrom_spec pieces d (idx + 1) hsq3 (by omega)
        cases r3 with
        | false => exact absurd hrest2 ((h3false rfl).2 as2 final2 hon3)
        | true =>
          rcases hmin _ hmem placed2 f3 hcan3 hplace3 h3 with e | e
          · have ea : ((a.1 : Int), (a.2 : Int)) = a2 := by
              rw [← e]; exact hcast
            have hpl : placed2 = placed := by
              rw [← ea] at hplace2
              simp only at hplace2
              rw [hplace] at hplace2
              exact (Option.some.inj hplace2).symm
            rw [hpl] at hrest2
            rcases hrest as2 final2 hon3 hrest2 with e3 | e3
            · exact Or.inl (by rw [e3, ea])
            · rw [← ea]; exact Or.inr (List.Lex.cons e3)
          · refine Or.inr (List.Lex.rel ?_)
            rw [e1, e2] at e
            exact e

/-- C18: first-fit order. The call runs on a stack with room for `limit`
nested calls of `Solve`, for any `limit` up to 4294967277 (the Go runtime's
stack of at most 1 GB holds far fewer). For every edge length `n` and every
list of canonical pieces for which `Solve(NewBoard(n), pieces, 0)` returns
`true`, the final board is the drawing of the least valid anchor sequence in
the lexicographic order, where anchor sequences are compared piece by piece
in list order and anchors in row-major order (first by `y`, then by `x`). -/
theorem solve_first_fit (limit n : Nat) (pieces : List Piece) (final : Board)
    (hlimit : limit ≤ 4294967277) (hcan : ∀ p ∈ pieces, Canonical p)
    (h : SolveOn limit (NewBoard n) pieces 0 = .done true final) :
    ∃ as : List (Int × Int), ValidPlacement n pieces as ∧ Drawn n pieces as final ∧
      ∀ as2, ValidPlacement n pieces as2 → as2 = as ∨ List.Lex AnchorLt as as2 := by
  obtain ⟨hlen, h⟩ := (solveOn_true_iff limit n pieces final).1 h
  rw [solve_eq_solveFrom] at h
  obtain ⟨as, _, hchain, hmin⟩ :=
    solveFrom_first pieces pieces.length 0 (isSquare_newBoard n) (Nat.zero_add _) h
  rw [List.drop_zero] at hchain hmin
  obtain ⟨hv, hd⟩ := chain_drawn (by omega) hchain
  refine ⟨as, hv, hd, ?_⟩
  intro as2 hv2
  have hanch : ∀ p ∈ pieces, Anchored p := fun p hp => (hcan p hp).2.2.2
  have hfree : ∀ k, ∀ c ∈ cellsOf pieces as2 k, FreeAt n (NewBoard n) c.1 c.2 := by
    intro k c hc
    have hin := hv2.inside k c hc
    obtain ⟨_, hx, hy⟩ := inBoard_cast hin
    exact ⟨hin, cellAt_newBoard n _ _ hx hy⟩
  obtain ⟨final2, hchain2⟩ :=
    chain_of_valid pieces 0 (NewBoard n) as2 (isSquare_newBoard n) hv2.length_eq hfree
      hv2.disjoint
  exact hmin as2 final2 (valid_anchors_onBoard hanch hv2) hchain2

/-- C18, witness: the pieces I and O on the board of edge 4, on a stack with
room for a million calls. -/
theorem solve_first_fit_witness :
    1000000 ≤ 4294967277 ∧
    (∀ p ∈ [(⟨[⟨0, 0⟩, ⟨0, 1⟩, ⟨0, 2⟩, ⟨0, 3⟩]⟩ : Piece),
      ⟨[⟨0, 0⟩, ⟨1, 0⟩, ⟨0, 1⟩, ⟨1, 1⟩]⟩], Canonical p) ∧
    SolveOn 1000000 (NewBoard 4)
        [⟨[⟨0, 0⟩, ⟨0, 1⟩, ⟨0, 2⟩, ⟨0, 3⟩]⟩, ⟨[⟨0, 0⟩, ⟨1, 0⟩, ⟨0, 1⟩, ⟨1, 1⟩]⟩] 0
      = .done true [[65, 66, 66, 46], [65, 66, 66, 46], [65, 46, 46, 46], [65, 46, 46, 46]] ∧
    ∃ as : List (Int × Int),
      ValidPlacement 4
        [⟨[⟨0, 0⟩, ⟨0, 1⟩, ⟨0, 2⟩, ⟨0, 3⟩]⟩, ⟨[⟨0, 0⟩, ⟨1, 0⟩, ⟨0, 1⟩, ⟨1, 1⟩]⟩] as ∧
      Drawn 4 [⟨[⟨0, 0⟩, ⟨0, 1⟩, ⟨0, 2⟩, ⟨0, 3⟩]⟩, ⟨[⟨0, 0⟩, ⟨1, 0⟩, ⟨0, 1⟩, ⟨1, 1⟩]⟩] as
        [[65, 66, 66, 46], [65, 66, 66, 46], [65, 46, 46, 46], [65, 46, 46, 46]] ∧
      ∀ as2, ValidPlacement 4
          [⟨[⟨0, 0⟩, ⟨0, 1⟩, ⟨0, 2⟩, ⟨0, 3⟩]⟩, ⟨[⟨0, 0⟩, ⟨1, 0⟩, ⟨0, 1⟩, ⟨1, 1⟩]⟩] as2 →
        as2 = as ∨ List.Lex AnchorLt as as2 :=
  ⟨by decide, by decide, by decide,
    solve_first_fit 1000000 4 _ _ (by decide) (by decide) (by decide)⟩

end Tetris
